import Mathlib

/-!
# Verification of the `utilium` binary struct layout and (de)serialization engine

This file gives a shallow embedding, in Lean, of the struct subsystem of the
`utilium` TypeScript library (`src/struct.ts` — the version whose `struct`
decorator lives at lines 461-493, `serialize` at 519-584, `deserialize` at
589-665 — together with the 128-bit primitive codecs of
`src/internal/primitives.ts` lines 128-150), and proves or refutes the frozen
claims about it.

Modelling conventions:
* Byte buffers (`Uint8Array` / `DataView`) are `List ℕ` whose entries are
  bytes; every write stores a value reduced `% 256`, and every read reduces
  `% 256`, so buffers containing out-of-range entries behave as their
  byte-truncations (real JS buffers never contain such entries).
* JS numbers and BigInts that hold integer values are modelled as `ℤ`.
  `float32`/`float64` member values are modelled by their IEEE bit patterns
  (a `DataView` float get/set transports the 4- or 8-byte pattern verbatim);
  `float128`, a documented-lossy special, is outside the model.
* JS strings as member values (the character-array convenience) are not
  modelled; character members are `uint8` members holding numbers.
* Thrown exceptions are modelled with `Except Err`.
-/

namespace Utilium

/-! ## Byte-level layer: little/big-endian byte strings and buffer splicing -/

/-- The little-endian byte string of length `n` for the value `v`
(each byte is `v / 256^i % 256`). -/
def leBytes : ℕ → ℕ → List ℕ
  | 0, _ => []
  | n + 1, v => v % 256 :: leBytes n (v / 256)

/-- Big-endian byte string: the reversed little-endian one. -/
def beBytes (n v : ℕ) : List ℕ := (leBytes n v).reverse

/-- Read a little-endian byte string back into a value. -/
def leVal : List ℕ → ℕ
  | [] => 0
  | b :: bs => b % 256 + 256 * leVal bs

/-- Read a big-endian byte string back into a value. -/
def beVal (bs : List ℕ) : ℕ := leVal bs.reverse

@[simp] theorem length_leBytes (n v : ℕ) : (leBytes n v).length = n := by
  induction n generalizing v with
  | zero => rfl
  | succ n ih => simp [leBytes, ih]

@[simp] theorem length_beBytes (n v : ℕ) : (beBytes n v).length = n := by
  simp [beBytes]

theorem leVal_leBytes (n v : ℕ) : leVal (leBytes n v) = v % 256 ^ n := by
  induction n generalizing v with
  | zero => simp [leBytes, leVal, Nat.mod_one]
  | succ n ih =>
    have h256 : (256 : ℕ) ^ (n + 1) = 256 * 256 ^ n := by ring
    rw [leBytes, leVal, ih, h256, Nat.mod_mul]
    omega

theorem beVal_beBytes (n v : ℕ) : beVal (beBytes n v) = v % 256 ^ n := by
  simp [beVal, beBytes, leVal_leBytes]

/-- `Uint8Array.prototype.set` / in-place `DataView` writes: splice the byte
string `bs` into `buf` at offset `off`.  Out-of-range parts are clipped (in the
engine every write is in bounds; the clipping branches are never exercised by
the theorems below). -/
def writeBytes (buf : List ℕ) (off : ℕ) (bs : List ℕ) : List ℕ :=
  buf.take off ++ bs.take (buf.length - off) ++ buf.drop (off + bs.length)

/-- Read `n` bytes of `buf` starting at `off` (clamped, like `subarray`). -/
def readSlice (buf : List ℕ) (off n : ℕ) : List ℕ := (buf.drop off).take n

@[simp] theorem length_writeBytes (buf : List ℕ) (off : ℕ) (bs : List ℕ) :
    (writeBytes buf off bs).length = buf.length := by
  simp only [writeBytes, List.length_append, List.length_take, List.length_drop]
  omega

theorem length_readSlice (buf : List ℕ) (off n : ℕ) :
    (readSlice buf off n).length = min n (buf.length - off) := by
  simp [readSlice]

theorem length_readSlice_of_le (buf : List ℕ) (off n : ℕ)
    (h : off + n ≤ buf.length) : (readSlice buf off n).length = n := by
  rw [length_readSlice]; omega

/-- Reading back exactly the spliced-in range recovers it. -/
theorem readSlice_writeBytes_self (buf : List ℕ) (off : ℕ) (bs : List ℕ)
    (h : off + bs.length ≤ buf.length) :
    readSlice (writeBytes buf off bs) off bs.length = bs := by
  unfold writeBytes readSlice
  have hbs : bs.take (buf.length - off) = bs := List.take_of_length_le (by omega)
  rw [hbs, List.append_assoc, List.drop_append_eq_append_drop]
  have hA : (List.take off buf).drop off = [] := by
    apply List.drop_eq_nil_of_le; rw [List.length_take]; omega
  have hlen : (List.take off buf).length = off := by rw [List.length_take]; omega
  rw [hA, hlen, Nat.sub_self, List.drop_zero, List.nil_append,
    List.take_append_eq_append_take, List.take_length, Nat.sub_self, List.take_zero,
    List.append_nil]

theorem getElem?_readSlice (buf : List ℕ) (off n i : ℕ) :
    (readSlice buf off n)[i]? = if i < n then buf[off + i]? else none := by
  unfold readSlice
  rw [List.getElem?_take, List.getElem?_drop]

/-- Pointwise description of a splice: inside the written (and in-bounds)
range the new bytes are visible, elsewhere the old buffer shows through. -/
theorem getElem?_writeBytes (buf : List ℕ) (off : ℕ) (bs : List ℕ) (p : ℕ) :
    (writeBytes buf off bs)[p]? =
      if off ≤ p ∧ p < off + bs.length ∧ p < buf.length then bs[p - off]?
      else buf[p]? := by
  unfold writeBytes
  rw [List.append_assoc, List.getElem?_append, List.length_take]
  by_cases h1 : p < min off buf.length
  · rw [if_pos h1, List.getElem?_take, if_pos (by omega), if_neg (by omega)]
  · rw [if_neg h1, List.getElem?_append, List.length_take]
    by_cases hoffL : off ≤ buf.length
    · have hA : min off buf.length = off := by omega
      rw [hA] at h1 ⊢
      by_cases h2 : p - off < min (buf.length - off) bs.length
      · rw [if_pos h2, List.getElem?_take, if_pos (by omega), if_pos (by omega)]
      · rw [if_neg h2, List.getElem?_drop]
        by_cases hbs : bs.length ≤ buf.length - off
        · have hm : min (buf.length - off) bs.length = bs.length := by omega
          rw [hm] at h2 ⊢
          have hidx : off + bs.length + (p - off - bs.length) = p := by omega
          rw [hidx, if_neg (by omega)]
        · have hm : min (buf.length - off) bs.length = buf.length - off := by
            omega
          rw [hm] at h2 ⊢
          rw [List.getElem?_eq_none (l := buf) (by omega), if_neg (by omega),
            List.getElem?_eq_none (by omega)]
    · have hA : min off buf.length = buf.length := by omega
      rw [hA] at h1
      have hm : min (buf.length - off) bs.length = 0 := by omega
      rw [hm, List.getElem?_drop, if_neg (by omega),
        List.getElem?_eq_none (l := buf) (by omega), if_neg (by omega),
        List.getElem?_eq_none (by omega)]

/-- A splice leaves a byte range that ends before it untouched. -/
theorem readSlice_writeBytes_left (buf : List ℕ) (off : ℕ) (bs : List ℕ)
    (off2 n : ℕ) (h : off2 + n ≤ off) :
    readSlice (writeBytes buf off bs) off2 n = readSlice buf off2 n := by
  apply List.ext_getElem?
  intro i
  rw [getElem?_readSlice, getElem?_readSlice]
  by_cases hi : i < n
  · rw [if_pos hi, if_pos hi, getElem?_writeBytes, if_neg (by omega)]
  · rw [if_neg hi, if_neg hi]

/-- A splice leaves a byte range that starts after it untouched. -/
theorem readSlice_writeBytes_right (buf : List ℕ) (off : ℕ) (bs : List ℕ)
    (off2 n : ℕ) (h : off + bs.length ≤ off2) :
    readSlice (writeBytes buf off bs) off2 n = readSlice buf off2 n := by
  apply List.ext_getElem?
  intro i
  rw [getElem?_readSlice, getElem?_readSlice]
  by_cases hi : i < n
  · rw [if_pos hi, if_pos hi, getElem?_writeBytes, if_neg (by omega)]
  · rw [if_neg hi, if_neg hi]

/-! ## Errors

Thrown JS exceptions, by cause. -/

inductive Err where
  /-- `Not a valid type` (declaration, line 474) -/
  | invalidType
  /-- `checkInstance` failure: the value is not a struct instance -/
  | notStruct
  /-- `Can not use non-existent member to count ...` (line 368) -/
  | nonexistentCount
  /-- `Can not use "..." to count ...`: count field value is not a number (line 372) -/
  | countNotNumber
  /-- `Struct does not have member: ...` (offsetof, lines 436, 448) -/
  | missingMember
  /-- `RangeError` from a `DataView` access or a negative `Uint8Array` size -/
  | rangeError
  /-- strict-mode `TypeError` (property access/assignment on `undefined` or a primitive) -/
  | typeErr
  /-- artifact of the fuelled embedding; never reached with sufficient fuel -/
  | outOfFuel
deriving DecidableEq, Repr

/-! ## Primitive types (`src/internal/primitives.ts`)

`float32`/`float64` values are modelled as their 4- or 8-byte IEEE bit
patterns (a nonnegative integer); their `DataView` accessors transport the
pattern.
`char` is normalized to `uint8` by `primitive.normalize` before it ever
reaches the metadata, so it needs no case of its own. -/

inductive PrimT where
  | int8 | uint8 | int16 | uint16 | int32 | uint32
  | int64 | uint64 | int128 | uint128 | float32 | float64
deriving DecidableEq, Repr

/-- Byte width of a primitive (the `size` field / `bits / 8`). -/
def PrimT.size : PrimT → ℕ
  | .int8 | .uint8 => 1
  | .int16 | .uint16 => 2
  | .int32 | .uint32 | .float32 => 4
  | .int64 | .uint64 | .float64 => 8
  | .int128 | .uint128 => 16

def PrimT.signed : PrimT → Bool
  | .int8 | .int16 | .int32 | .int64 | .int128 => true
  | _ => false

/-- The values a primitive member can represent: two's-complement range for
signed integers, `[0, 2^bits)` for unsigned integers and for float bit
patterns. -/
def primInRangeB (p : PrimT) (z : ℤ) : Bool :=
  if p.signed then
    decide (-(2 ^ (8 * p.size - 1)) ≤ z) && decide (z < 2 ^ (8 * p.size - 1))
  else
    decide (0 ≤ z) && decide (z < 2 ^ (8 * p.size))

/-- `DataView` unsigned read of `n` bytes at `off`; throws `RangeError` out of
bounds. -/
def viewGetUint (buf : List ℕ) (off n : ℕ) (le : Bool) : Except Err ℕ :=
  if off + n ≤ buf.length then
    .ok (if le then leVal (readSlice buf off n) else beVal (readSlice buf off n))
  else .error .rangeError

/-- Reinterpret an `n`-byte unsigned value as two's-complement signed. -/
def toSigned (n u : ℕ) : ℤ :=
  if u < 2 ^ (8 * n - 1) then (u : ℤ) else (u : ℤ) - 2 ^ (8 * n)

/-- `DataView` signed read of `n` bytes. -/
def viewGetInt (buf : List ℕ) (off n : ℕ) (le : Bool) : Except Err ℤ :=
  (viewGetUint buf off n le).map (toSigned n)

/-- The bytes a `DataView` write of an `n`-byte integer lays down: the value is
wrapped to `n` bytes (the `ToUint`/`asIntN` coercion of the setter) and
ordered per the endian flag.  Signed and unsigned setters produce identical
bytes. -/
def viewBytes (n : ℕ) (le : Bool) (z : ℤ) : List ℕ :=
  if le then leBytes n (z % 2 ^ (8 * n)).toNat
  else beBytes n (z % 2 ^ (8 * n)).toNat

@[simp] theorem length_viewBytes (n : ℕ) (le : Bool) (z : ℤ) :
    (viewBytes n le z).length = n := by
  unfold viewBytes; cases le <;> simp

/-- `BigInt & 0xffffffffffffffffn`: the two's-complement low 64 bits. -/
def jsAnd64 (z : ℤ) : ℤ := z % 2 ^ 64

/-- `BigInt >> 64n`: arithmetic shift, i.e. floor division by `2 ^ 64`. -/
def jsShr64 (z : ℤ) : ℤ := Int.fdiv z (2 ^ 64)

/-- The bytes `serialize` writes for one primitive element (struct.ts lines
544-579), as a function of the flag `le = !options.bigEndian` it passes to the
`DataView` setters.  The 128-bit branches (lines 561-571) write
`value & mask64` at `iOff + (le ? 0 : 8)` and `value >> 64n` at
`iOff + (le ? 8 : 0)`; concatenation order renders the two placements. -/
def encodePrim (p : PrimT) (le : Bool) (z : ℤ) : List ℕ :=
  match p with
  | .int128 | .uint128 =>
    if le then viewBytes 8 le (jsAnd64 z) ++ viewBytes 8 le (jsShr64 z)
    else viewBytes 8 le (jsShr64 z) ++ viewBytes 8 le (jsAnd64 z)
  | _ => viewBytes p.size le z

@[simp] theorem length_encodePrim (p : PrimT) (le : Bool) (z : ℤ) :
    (encodePrim p le z).length = p.size := by
  cases p <;> cases le <;> simp [encodePrim, PrimT.size]

/-- The value `deserialize` reads for one primitive element (lines 628-662).
The 128-bit branches read the high half at `iOff + (le ? 8 : 0)` (signed for
`int128`, unsigned for `uint128`), shift left 64 and or in the low half;
`(hi << 64n) | lo` with `0 ≤ lo < 2^64` equals `hi * 2^64 + lo`. -/
def decodePrim (buf : List ℕ) (iOff : ℕ) (p : PrimT) (le : Bool) : Except Err ℤ :=
  match p with
  | .int8 => viewGetInt buf iOff 1 le
  | .uint8 => (viewGetUint buf iOff 1 le).map Int.ofNat
  | .int16 => viewGetInt buf iOff 2 le
  | .uint16 => (viewGetUint buf iOff 2 le).map Int.ofNat
  | .int32 => viewGetInt buf iOff 4 le
  | .uint32 => (viewGetUint buf iOff 4 le).map Int.ofNat
  | .float32 => (viewGetUint buf iOff 4 le).map Int.ofNat
  | .int64 => viewGetInt buf iOff 8 le
  | .uint64 => (viewGetUint buf iOff 8 le).map Int.ofNat
  | .float64 => (viewGetUint buf iOff 8 le).map Int.ofNat
  | .int128 => do
    let hi ← viewGetInt buf (iOff + if le then 8 else 0) 8 le
    let lo ← viewGetUint buf (iOff + if le then 0 else 8) 8 le
    pure (hi * 2 ^ 64 + lo)
  | .uint128 => do
    let hi ← viewGetUint buf (iOff + if le then 8 else 0) 8 le
    let lo ← viewGetUint buf (iOff + if le then 0 else 8) 8 le
    pure ((hi : ℤ) * 2 ^ 64 + lo)

theorem pow256_eq (n : ℕ) : (256 : ℕ) ^ n = 2 ^ (8 * n) := by
  rw [show (256 : ℕ) = 2 ^ 8 from rfl, ← pow_mul]

/-- Reading `n` bytes that hold the written image of `z` yields `z mod 2^(8n)`. -/
theorem viewGetUint_of_slice (buf : List ℕ) (off n : ℕ) (le : Bool) (z : ℤ)
    (hle : off + n ≤ buf.length)
    (hs : readSlice buf off n = viewBytes n le z) :
    viewGetUint buf off n le = .ok (z % 2 ^ (8 * n)).toNat := by
  have hlt : (z % 2 ^ (8 * n)).toNat < 256 ^ n := by
    rw [pow256_eq]
    have hcast : (((2 : ℕ) ^ (8 * n) : ℕ) : ℤ) = 2 ^ (8 * n) := by push_cast; rfl
    have ha : z % 2 ^ (8 * n) < 2 ^ (8 * n) :=
      Int.emod_lt_of_pos z (by positivity)
    have hb : 0 ≤ z % 2 ^ (8 * n) :=
      Int.emod_nonneg z (by positivity)
    omega
  unfold viewGetUint
  rw [if_pos hle, hs]
  cases le
  · simp only [viewBytes, Bool.false_eq_true, if_false]
    rw [beVal_beBytes, Nat.mod_eq_of_lt hlt]
  · simp only [viewBytes, if_true]
    rw [leVal_leBytes, Nat.mod_eq_of_lt hlt]

/-- Two's-complement decode inverts the wrap for in-range signed values. -/
theorem toSigned_emod (n : ℕ) (z : ℤ)
    (h1 : -(2 ^ (8 * n - 1)) ≤ z) (h2 : z < 2 ^ (8 * n - 1)) (hn : 0 < n) :
    toSigned n (z % 2 ^ (8 * n)).toNat = z := by
  have hsplit : (2 : ℤ) ^ (8 * n) = 2 ^ (8 * n - 1) * 2 := by
    rw [← pow_succ]
    congr 1
    omega
  have hpos : (0 : ℤ) < 2 ^ (8 * n - 1) := by positivity
  have hcast1 : (((2 : ℕ) ^ (8 * n - 1) : ℕ) : ℤ) = 2 ^ (8 * n - 1) := by
    push_cast; rfl
  have hcast2 : (((2 : ℕ) ^ (8 * n) : ℕ) : ℤ) = 2 ^ (8 * n) := by
    push_cast; rfl
  unfold toSigned
  rcases le_or_lt 0 z with hz | hz
  · have hmod : z % 2 ^ (8 * n) = z := by
      apply Int.emod_eq_of_lt hz
      omega
    rw [hmod, if_pos (by omega)]
    omega
  · have hmod : z % 2 ^ (8 * n) = z + 2 ^ (8 * n) := by
      have hself : (z + 2 ^ (8 * n)) % 2 ^ (8 * n) = z % 2 ^ (8 * n) := by
        have h := Int.add_mul_emod_self_left (a := z) (b := 2 ^ (8 * n)) (c := 1)
        rw [mul_one] at h
        exact h
      rw [← hself]
      apply Int.emod_eq_of_lt (by omega) (by omega)
    rw [hmod, if_neg (by omega)]
    omega

/-- Unsigned decode is the identity in range. -/
theorem unsigned_emod (n : ℕ) (z : ℤ) (h1 : 0 ≤ z) (h2 : z < 2 ^ (8 * n)) :
    ((z % 2 ^ (8 * n)).toNat : ℤ) = z := by
  have hmod : z % 2 ^ (8 * n) = z := Int.emod_eq_of_lt h1 h2
  rw [hmod]
  omega

@[simp] theorem ok_bind {α β : Type} (a : α) (f : α → Except Err β) :
    (Except.ok a >>= f) = f a := rfl

@[simp] theorem error_bind {α β : Type} (e : Err) (f : α → Except Err β) :
    ((Except.error e : Except Err α) >>= f) = Except.error e := rfl

@[simp] theorem ok_map {α β : Type} (a : α) (f : α → β) :
    (Except.ok a : Except Err α).map f = Except.ok (f a) := rfl

@[simp] theorem error_map {α β : Type} (e : Err) (f : α → β) :
    (Except.error e : Except Err α).map f = Except.error e := rfl

/-- A `(n + m)`-byte slice splits into its two halves. -/
theorem readSlice_split (buf : List ℕ) (off n m : ℕ) (a b : List ℕ)
    (ha : a.length = n) (_hb : b.length = m)
    (hs : readSlice buf off (n + m) = a ++ b) :
    readSlice buf off n = a ∧ readSlice buf (off + n) m = b := by
  constructor
  · have h1 : readSlice buf off n = (readSlice buf off (n + m)).take n := by
      unfold readSlice
      rw [List.take_take]
      congr 1
      omega
    rw [h1, hs, ← ha, List.take_left]
  · have h2 : readSlice buf (off + n) m = (readSlice buf off (n + m)).drop n := by
      apply List.ext_getElem?
      intro i
      rw [List.getElem?_drop, getElem?_readSlice, getElem?_readSlice]
      by_cases hi : i < m
      · rw [if_pos hi, if_pos (by omega)]
        congr 1
        omega
      · rw [if_neg hi, if_neg (by omega)]
    rw [h2, hs, ← ha, List.drop_left]

/-- A signed `DataView` read over the written image of an in-range value. -/
theorem viewGetInt_of_slice (buf : List ℕ) (off n : ℕ) (le : Bool) (z : ℤ)
    (hn : 0 < n) (hle : off + n ≤ buf.length)
    (hs : readSlice buf off n = viewBytes n le z)
    (h1 : -(2 ^ (8 * n - 1)) ≤ z) (h2 : z < 2 ^ (8 * n - 1)) :
    viewGetInt buf off n le = .ok z := by
  unfold viewGetInt
  rw [viewGetUint_of_slice buf off n le z hle hs, ok_map, toSigned_emod n z h1 h2 hn]

/-- An unsigned `DataView` read over the written image of an in-range value. -/
theorem viewGetUintZ_of_slice (buf : List ℕ) (off n : ℕ) (le : Bool) (z : ℤ)
    (hle : off + n ≤ buf.length)
    (hs : readSlice buf off n = viewBytes n le z)
    (h1 : 0 ≤ z) (h2 : z < 2 ^ (8 * n)) :
    (viewGetUint buf off n le).map Int.ofNat = .ok z := by
  rw [viewGetUint_of_slice buf off n le z hle hs, ok_map]
  congr 1
  exact_mod_cast unsigned_emod n z h1 h2

theorem primInRange_signed (p : PrimT) (z : ℤ) (hsign : p.signed = true)
    (hz : primInRangeB p z = true) :
    -(2 ^ (8 * p.size - 1)) ≤ z ∧ z < 2 ^ (8 * p.size - 1) := by
  simp [primInRangeB, hsign] at hz
  exact hz

theorem primInRange_unsigned (p : PrimT) (z : ℤ) (hsign : p.signed = false)
    (hz : primInRangeB p z = true) :
    0 ≤ z ∧ z < 2 ^ (8 * p.size) := by
  simp [primInRangeB, hsign] at hz
  exact hz

/-- Decoding the bytes written for an in-range primitive value recovers it:
the codec pair round-trips, for every primitive type, every offset and every
endianness. -/
theorem decodePrim_of_slice (p : PrimT) (le : Bool) (z : ℤ) (buf : List ℕ)
    (off : ℕ) (hle : off + p.size ≤ buf.length)
    (hs : readSlice buf off p.size = encodePrim p le z)
    (hz : primInRangeB p z = true) :
    decodePrim buf off p le = .ok z := by
  cases p
  case int8 =>
    obtain ⟨h1, h2⟩ := primInRange_signed .int8 z rfl hz
    exact viewGetInt_of_slice buf off 1 le z (by norm_num) hle hs h1 h2
  case uint8 =>
    obtain ⟨h1, h2⟩ := primInRange_unsigned .uint8 z rfl hz
    exact viewGetUintZ_of_slice buf off 1 le z hle hs h1 h2
  case int16 =>
    obtain ⟨h1, h2⟩ := primInRange_signed .int16 z rfl hz
    exact viewGetInt_of_slice buf off 2 le z (by norm_num) hle hs h1 h2
  case uint16 =>
    obtain ⟨h1, h2⟩ := primInRange_unsigned .uint16 z rfl hz
    exact viewGetUintZ_of_slice buf off 2 le z hle hs h1 h2
  case int32 =>
    obtain ⟨h1, h2⟩ := primInRange_signed .int32 z rfl hz
    exact viewGetInt_of_slice buf off 4 le z (by norm_num) hle hs h1 h2
  case uint32 =>
    obtain ⟨h1, h2⟩ := primInRange_unsigned .uint32 z rfl hz
    exact viewGetUintZ_of_slice buf off 4 le z hle hs h1 h2
  case float32 =>
    obtain ⟨h1, h2⟩ := primInRange_unsigned .float32 z rfl hz
    exact viewGetUintZ_of_slice buf off 4 le z hle hs h1 h2
  case int64 =>
    obtain ⟨h1, h2⟩ := primInRange_signed .int64 z rfl hz
    exact viewGetInt_of_slice buf off 8 le z (by norm_num) hle hs h1 h2
  case uint64 =>
    obtain ⟨h1, h2⟩ := primInRange_unsigned .uint64 z rfl hz
    exact viewGetUintZ_of_slice buf off 8 le z hle hs h1 h2
  case float64 =>
    obtain ⟨h1, h2⟩ := primInRange_unsigned .float64 z rfl hz
    exact viewGetUintZ_of_slice buf off 8 le z hle hs h1 h2
  case int128 =>
    obtain ⟨h1, h2⟩ := primInRange_signed .int128 z rfl hz
    have h1' : -(2 ^ 127) ≤ z := h1
    have h2' : z < 2 ^ 127 := h2
    have hle' : off + 16 ≤ buf.length := hle
    have hdec : 2 ^ 64 * (z / 2 ^ 64) + z % 2 ^ 64 = z := Int.ediv_add_emod z _
    have hr1 : 0 ≤ z % 2 ^ 64 := Int.emod_nonneg z (by positivity)
    have hr2 : z % 2 ^ 64 < 2 ^ 64 := Int.emod_lt_of_pos z (by positivity)
    have hq1 : -(2 ^ 63) ≤ z / 2 ^ 64 := by omega
    have hq2 : z / 2 ^ 64 < 2 ^ 63 := by omega
    have hfd : jsShr64 z = z / 2 ^ 64 := Int.fdiv_eq_ediv z (by positivity)
    have hmm : jsAnd64 z % 2 ^ 64 = z % 2 ^ 64 := Int.emod_emod_of_dvd z dvd_rfl
    have hcast : ((z % 2 ^ 64).toNat : ℤ) = z % 2 ^ 64 := Int.toNat_of_nonneg hr1
    cases le
    · have hs' : readSlice buf off (8 + 8) =
          viewBytes 8 false (jsShr64 z) ++ viewBytes 8 false (jsAnd64 z) := hs
      obtain ⟨hhi, hlo⟩ :=
        readSlice_split buf off 8 8 _ _ (by simp) (by simp) hs'
      simp only [decodePrim, Bool.false_eq_true, if_false, add_zero]
      rw [viewGetInt_of_slice buf off 8 false (jsShr64 z) (by norm_num)
        (by omega) hhi (by rw [hfd]; exact hq1) (by rw [hfd]; exact hq2), ok_bind]
      rw [viewGetUint_of_slice buf (off + 8) 8 false (jsAnd64 z) (by omega) hlo,
        ok_bind]
      show Except.ok _ = _
      congr 1
      rw [hmm, hfd]
      omega
    · have hs' : readSlice buf off (8 + 8) =
          viewBytes 8 true (jsAnd64 z) ++ viewBytes 8 true (jsShr64 z) := hs
      obtain ⟨hlo, hhi⟩ :=
        readSlice_split buf off 8 8 _ _ (by simp) (by simp) hs'
      simp only [decodePrim, if_true, add_zero]
      rw [viewGetInt_of_slice buf (off + 8) 8 true (jsShr64 z) (by norm_num)
        (by omega) hhi (by rw [hfd]; exact hq1) (by rw [hfd]; exact hq2), ok_bind]
      rw [viewGetUint_of_slice buf off 8 true (jsAnd64 z) (by omega) hlo,
        ok_bind]
      show Except.ok _ = _
      congr 1
      rw [hmm, hfd]
      omega
  case uint128 =>
    obtain ⟨h1, h2⟩ := primInRange_unsigned .uint128 z rfl hz
    have h1' : (0 : ℤ) ≤ z := h1
    have h2' : z < 2 ^ 128 := h2
    have hle' : off + 16 ≤ buf.length := hle
    have hdec : 2 ^ 64 * (z / 2 ^ 64) + z % 2 ^ 64 = z := Int.ediv_add_emod z _
    have hr1 : 0 ≤ z % 2 ^ 64 := Int.emod_nonneg z (by positivity)
    have hr2 : z % 2 ^ 64 < 2 ^ 64 := Int.emod_lt_of_pos z (by positivity)
    have hq1 : (0 : ℤ) ≤ z / 2 ^ 64 := by omega
    have hq2 : z / 2 ^ 64 < 2 ^ 64 := by omega
    have hfd : jsShr64 z = z / 2 ^ 64 := Int.fdiv_eq_ediv z (by positivity)
    have hmm : jsAnd64 z % 2 ^ 64 = z % 2 ^ 64 := Int.emod_emod_of_dvd z dvd_rfl
    have hmq : jsShr64 z % 2 ^ 64 = z / 2 ^ 64 := by
      rw [hfd]
      exact Int.emod_eq_of_lt hq1 hq2
    have hcast : ((z % 2 ^ 64).toNat : ℤ) = z % 2 ^ 64 := Int.toNat_of_nonneg hr1
    have hcastq : ((z / 2 ^ 64).toNat : ℤ) = z / 2 ^ 64 := Int.toNat_of_nonneg hq1
    cases le
    · have hs' : readSlice buf off (8 + 8) =
          viewBytes 8 false (jsShr64 z) ++ viewBytes 8 false (jsAnd64 z) := hs
      obtain ⟨hhi, hlo⟩ :=
        readSlice_split buf off 8 8 _ _ (by simp) (by simp) hs'
      simp only [decodePrim, Bool.false_eq_true, if_false, add_zero]
      rw [viewGetUint_of_slice buf off 8 false (jsShr64 z) (by omega) hhi, ok_bind]
      rw [viewGetUint_of_slice buf (off + 8) 8 false (jsAnd64 z) (by omega) hlo,
        ok_bind]
      show Except.ok _ = _
      congr 1
      rw [hmm, hmq]
      omega
    · have hs' : readSlice buf off (8 + 8) =
          viewBytes 8 true (jsAnd64 z) ++ viewBytes 8 true (jsShr64 z) := hs
      obtain ⟨hlo, hhi⟩ :=
        readSlice_split buf off 8 8 _ _ (by simp) (by simp) hs'
      simp only [decodePrim, if_true, add_zero]
      rw [viewGetUint_of_slice buf (off + 8) 8 true (jsShr64 z) (by omega) hhi,
        ok_bind]
      rw [viewGetUint_of_slice buf off 8 true (jsAnd64 z) (by omega) hlo, ok_bind]
      show Except.ok _ = _
      congr 1
      rw [hmm, hmq]
      omega

/-! ## Record metadata (`src/struct.ts`, declaration machinery)

A declared struct class is identified with its index in the environment `env`,
the list of `Metadata` of all struct classes already declared, in declaration
order: a member type must be a primitive or an *already decorated* class
(`isStatic` check, line 474), i.e. an earlier index. -/

/-- A member type: a (normalized) primitive name, or a previously declared
struct class referenced by environment index. -/
inductive TypeRef where
  | prim : PrimT → TypeRef
  | sub : ℕ → TypeRef
deriving DecidableEq, Repr

/-- The `length` part of a member declaration: absent, a fixed count, or the
name of the count field (`__counted_by` style). -/
abbrev LenSpec := Option (ℕ ⊕ String)

/-- One `@member(type, length)` declaration pushed onto `init` (lines 508-511).
Fixed numeric lengths are modelled as naturals (`Number.isSafeInteger` and
non-negativity are checked at resolution, line 364). -/
structure MemberInit where
  name : String
  type : TypeRef
  length : LenSpec
deriving DecidableEq, Repr

/-- `Options` for `@struct` (`align`, `bigEndian`, `isUnion`).  `align` is
optional; `options.align || 1` also maps an explicit 0 to 1. -/
structure Options where
  alignOpt : Option ℕ
  bigEndian : Bool
  isUnion : Bool
deriving DecidableEq, Repr

/-- `options.align || 1` (lines 484). -/
def Options.effAlign (o : Options) : ℕ :=
  match o.alignOpt with
  | none => 1
  | some a => if a = 0 then 1 else a

/-- A finalized `Member` record (line 476-480). -/
structure Member where
  staticOffset : ℕ
  type : TypeRef
  length : LenSpec
deriving DecidableEq, Repr

/-- Finalized struct metadata (line 489).  `members` is a `Map` iterated in
insertion order, modelled as an association list. -/
structure Metadata where
  options : Options
  members : List (String × Member)
  staticSize : ℕ
  isDynamic : Bool
deriving DecidableEq, Repr

instance : Inhabited Metadata := ⟨⟨⟨none, false, false⟩, [], 0, false⟩⟩

/-- `align(value, alignment) = Math.ceil(value / alignment) * alignment`
(struct.ts lines 454-456); on naturals the ceiling of the division is
`(value + alignment - 1) / alignment`. -/
def align (value alignment : ℕ) : ℕ :=
  (value + alignment - 1) / alignment * alignment

/-- `sizeof` on a type (primitive branch: bits over 8, lines 381-386; struct
class branch: the cached `staticSize`, line 396). -/
def sizeofRef (env : List Metadata) (t : TypeRef) : ℕ :=
  match t with
  | .prim p => p.size
  | .sub j => (env.getD j default).staticSize

/-- `primitive.isValid(type) || isStatic(type)` (line 474): a primitive is
always valid; a class reference must already be decorated, i.e. in `env`. -/
def isValidType (env : List Metadata) (t : TypeRef) : Bool :=
  match t with
  | .prim _ => true
  | .sub j => j < env.length

/-- `Map.prototype.set`: replace in place if the key exists, else append. -/
def mapSet (ms : List (String × Member)) (k : String) (v : Member) :
    List (String × Member) :=
  match ms with
  | [] => [(k, v)]
  | (k', v') :: rest => if k' = k then (k, v) :: rest else (k', v') :: mapSet rest k v

/-- `memberSize` (line 481): 0 when counted by a field name, otherwise
`sizeof(type) * (length || 1)` — note `||`, so a declared length of 0 also
falls back to 1. -/
def memberSizeOf (env : List Metadata) (t : TypeRef) (len : LenSpec) : ℕ :=
  match len with
  | some (.inr _) => 0
  | some (.inl n) => sizeofRef env t * (if n = 0 then 1 else n)
  | none => sizeofRef env t * 1

/-- Intermediate declaration state of the `struct` decorator loop. -/
structure DecState where
  staticSize : ℕ
  isDynamic : Bool
  members : List (String × Member)
deriving DecidableEq, Repr

/-- One iteration of the declaration loop (lines 473-487). -/
def decorateStep (env : List Metadata) (options : Options) (st : DecState)
    (init : MemberInit) : Except Err DecState :=
  if ¬ isValidType env init.type then .error .invalidType
  else
    let members := mapSet st.members init.name
      ⟨if options.isUnion then 0 else st.staticSize, init.type, init.length⟩
    let memberSize := memberSizeOf env init.type init.length
    let isDynamic := st.isDynamic ||
      (match init.length with | some (.inr _) => true | _ => false)
    let staticSize :=
      if options.isUnion then max st.staticSize memberSize
      else st.staticSize + memberSize
    .ok ⟨align staticSize options.effAlign, isDynamic, members⟩

/-- The `struct` class decorator (lines 461-493): fold the declaration loop
over the `init` list it iterates and freeze the metadata. -/
def structDecorate (env : List Metadata) (inits : List MemberInit)
    (options : Options) : Except Err Metadata := do
  let st ← inits.foldlM (decorateStep env options) ⟨0, false, []⟩
  pure ⟨options, st.members, st.staticSize, st.isDynamic⟩

/-! ## Values and instances

A JS value reachable from a struct instance: an integer-valued number or
BigInt, an array, or an object (a struct instance, as an association list of
its fields in property order). -/

inductive Value where
  | num : ℤ → Value
  | arr : List Value → Value
  | obj : List (String × Value) → Value
deriving Repr

/-- `instance[name]` (property lookup on the own fields). -/
def vLookup (v : Value) (k : String) : Option Value :=
  match v with
  | .obj fields => fields.lookup k
  | _ => none

/-- Property assignment `fields[k] = x` (updates in place, else appends —
JS adds a fresh property for an unknown name). -/
def setField : List (String × Value) → String → Value → List (String × Value)
  | [], k, x => [(k, x)]
  | (k', v') :: rest, k, x =>
    if k' = k then (k, x) :: rest else (k', v') :: setField rest k x

/-- `instance[name] = x` on an object value. -/
def vSetField (v : Value) (k : String) (x : Value) : Value :=
  match v with
  | .obj fields => .obj (setField fields k x)
  | _ => v

/-- JS array index assignment `a[i] = x`; assigning past the end grows the
array (intermediate holes are modelled as `num 0` and never observed). -/
def setIdx : List Value → ℕ → Value → List Value
  | [], 0, x => [x]
  | [], n + 1, x => Value.num 0 :: setIdx [] n x
  | _ :: rest, 0, x => x :: rest
  | y :: rest, n + 1, x => y :: setIdx rest n x

/-- `_memberLength(struct, name, length)` (lines 361-375): `undefined → -1`; a
fixed count stands; a field name is resolved against the instance — missing
name and non-number values throw.  (`length in struct` on a non-object would
itself throw a `TypeError`.) -/
def memberLength (v : Value) (len : LenSpec) : Except Err ℤ :=
  match len with
  | none => .ok (-1)
  | some (.inl n) => .ok n
  | some (.inr s) =>
    match v with
    | .obj fields =>
      match fields.lookup s with
      | none => .error .nonexistentCount
      | some (.num z) => .ok z
      | some _ => .error .countNotNumber
    | _ => .error .typeErr

/-- `sizeof(instance)` (lines 392-405): `staticSize` plus, for each
counted-by member, `sizeof(memberType) * resolvedLength`.  NOTE the source
calls `_memberLength(type, key, name)` at line 402 — but the signature is
`_memberLength(struct, name, length)`, so the member's *own name* (`name`) is
what gets resolved as the count field, not `key`.  The model mirrors this
argument swap. -/
def sizeofInst (env : List Metadata) (meta : Metadata) (v : Value) :
    Except Err ℤ :=
  meta.members.foldlM
    (fun size nm =>
      match nm.2.length with
      | some (.inr _) =>
        (memberLength v (some (.inr nm.1))).map
          (fun n => size + (sizeofRef env nm.2.type : ℤ) * n)
      | _ => .ok size)
    (meta.staticSize : ℤ)

/-- `dynamicOffsets` (lines 408-421): walk members accumulating
`sizeof(memberType) * Math.abs(length)`. -/
def dynamicOffsets (env : List Metadata) (meta : Metadata) (v : Value) :
    Except Err (List (String × ℕ)) := do
  let st ← meta.members.foldlM
    (fun (st : List (String × ℕ) × ℕ) nm => do
      let len ← memberLength v nm.2.length
      pure (st.1 ++ [(nm.1, st.2)], st.2 + sizeofRef env nm.2.type * len.natAbs))
    ([], 0)
  pure st.1

/-- The walk of the dynamic branch of `offsetof` (lines 440-448). -/
def offsetofWalk (env : List Metadata) (v : Value) (target : String) :
    List (String × Member) → ℕ → Except Err ℕ
  | [], _ => .error .missingMember
  | (name, m) :: rest, off =>
    if name = target then .ok off
    else do
      let len ← memberLength v m.length
      offsetofWalk env v target rest (off + sizeofRef env m.type * len.natAbs)

/-- `offsetof(instance, name)` (lines 426-449): a non-dynamic struct returns
the precomputed `staticOffset`; a dynamic one re-walks actual sizes. -/
def offsetofInst (env : List Metadata) (meta : Metadata) (v : Value)
    (name : String) : Except Err ℕ :=
  if meta.isDynamic then offsetofWalk env v name meta.members 0
  else
    match meta.members.lookup name with
    | some m => .ok m.staticOffset
    | none => .error .missingMember

/-- `offsetof(StaticClass, name)` — the static-type call (line 433 takes the
`staticOffset` branch whenever the argument is a class). -/
def offsetofStatic (meta : Metadata) (name : String) : Except Err ℕ :=
  match meta.members.lookup name with
  | some m => .ok m.staticOffset
  | none => .error .missingMember

/-- `length != -1 ? instance[name][i] : instance[name]` (line 539); indexing
into `undefined` throws a `TypeError`. -/
def elemValue (v : Value) (name : String) (len : ℤ) (i : ℕ) :
    Except Err (Option Value) :=
  if len = -1 then .ok (vLookup v name)
  else
    match vLookup v name with
    | none => .error .typeErr
    | some (.arr vs) => .ok vs[i]?
    | some _ => .ok none

/-- The numeric coercion the primitive write branches apply: the 64- and
128-bit branches go through `BigInt(value)` or mix `value` with a BigInt
mask, which throws on `undefined` and non-numeric values; the remaining
branches use `Number(value)`, under which a missing value (`NaN`) is stored
as 0 by the integer setters.  (Under the well-formedness the theorems assume,
the value is always a present number.) -/
def coerceNum (p : PrimT) (v : Option Value) : Except Err ℤ :=
  match p with
  | .int64 | .uint64 | .int128 | .uint128 =>
    match v with
    | some (.num z) => .ok z
    | _ => .error .typeErr
  | _ =>
    match v with
    | some (.num z) => .ok z
    | _ => .ok 0

/-- JS truthiness of `value` (line 545: `value ? serialize(value) : zeros`). -/
def truthy : Option Value → Bool
  | none => false
  | some (.num z) => z ≠ 0
  | some (.arr _) => true
  | some (.obj _) => true

/-- `serialize` (lines 519-584).  The fuel only bounds nested-struct depth —
at most the environment length, since member classes are declared strictly
earlier — and `outOfFuel` is never reached with fuel above that bound.  The
`Symbol.serialize` escape hatch is not modelled (the model has no custom
types); `checkInstance` rejects non-objects. -/
def serializeF : ℕ → List Metadata → Metadata → Value → Except Err (List ℕ)
  | 0, _, _, _ => .error .outOfFuel
  | fuel + 1, env, meta, v =>
    match v with
    | .obj _ => do
      let size ← sizeofInst env meta v
      if size < 0 then .error .rangeError
      else do
        let offs ← if meta.isDynamic then
            (dynamicOffsets env meta v).map some
          else .ok none
        meta.members.foldlM
          (fun buf (nm : String × Member) => do
            let name := nm.1
            let m := nm.2
            let len ← memberLength v m.length
            let off := match offs with
              | some os => (os.lookup name).getD 0
              | none => m.staticOffset
            (List.range len.natAbs).foldlM
              (fun buf i => do
                let iOff := off + sizeofRef env m.type * i
                let value ← elemValue v name len i
                match m.type with
                | .sub j => do
                  let bytes ←
                    if truthy value then
                      match value with
                      | some sub => serializeF fuel env (env.getD j default) sub
                      | none => .ok (List.replicate (sizeofRef env m.type) 0)
                    else .ok (List.replicate (sizeofRef env m.type) 0)
                  .ok (writeBytes buf iOff bytes)
                | .prim p => do
                  let z ← coerceNum p value
                  .ok (writeBytes buf iOff
                    (encodePrim p (!meta.options.bigEndian) z)))
              buf)
          (List.replicate size.toNat 0)
    | _ => .error .notStruct

/-- `deserialize` (lines 589-665), fuelled like `serializeF`.  The JS function
mutates `instance` in place; the model returns the updated instance.  The
string-valued-field branch (line 612) is outside the model (no string
values), and `Symbol.deserialize` custom types do not exist in it. -/
def deserializeF : ℕ → List Metadata → Metadata → Value → List ℕ →
    Except Err Value
  | 0, _, _, _, _ => .error .outOfFuel
  | fuel + 1, env, meta, v0, buf =>
    match v0 with
    | .obj _ =>
      meta.members.foldlM
        (fun inst (nm : String × Member) => do
          let name := nm.1
          let m := nm.2
          let len ← memberLength inst m.length
          (List.range len.natAbs).foldlM
            (fun inst i => do
              let off ← offsetofInst env meta inst name
              let iOff := off + sizeofRef env m.type * i
              match m.type with
              | .sub j => do
                let child ←
                  if len = -1 then .ok (vLookup inst name)
                  else
                    match vLookup inst name with
                    | none => .error .typeErr
                    | some (.arr vs) => .ok vs[i]?
                    | some _ => .ok none
                match child with
                | none => .ok inst
                | some c => do
                  let sub := readSlice buf iOff (sizeofRef env m.type)
                  let c' ← deserializeF fuel env (env.getD j default) c sub
                  if len = -1 then .ok (vSetField inst name c')
                  else
                    match vLookup inst name with
                    | some (.arr vs) =>
                      .ok (vSetField inst name (.arr (setIdx vs i c')))
                    | _ => .ok inst
              | .prim p => do
                let z ← decodePrim buf iOff p (!meta.options.bigEndian)
                if len = -1 then .ok (vSetField inst name (.num z))
                else
                  match vLookup inst name with
                  | none => .ok inst
                  | some (.arr vs) =>
                    .ok (vSetField inst name (.arr (setIdx vs i (.num z))))
                  | some (.num _) => .error .typeErr
                  | some (.obj _) => .ok inst)
            inst)
        v0
    | _ => .error .notStruct

/-! ## Well-formedness and genuineness predicates -/

/-- Bool-valued freedom from duplicate keys. -/
def nodupKeys : List String → Bool
  | [] => true
  | k :: ks => (!ks.contains k) && nodupKeys ks

/-- One element of a member's value, checked against the member type:
`wfn` checks a nested instance against its metadata. -/
def wfElemWith (wfn : Metadata → Value → Bool) (env : List Metadata)
    (t : TypeRef) (v : Value) : Bool :=
  match t with
  | .prim p =>
    match v with
    | .num z => primInRangeB p z
    | _ => false
  | .sub j =>
    match env[j]? with
    | some m => wfn m v
    | none => false

/-- Well-formed fixed-shape instance: the object's fields are exactly the
members, in declaration order, with no duplicate names; a scalar member holds
an in-range primitive number or a well-formed nested instance; a fixed-length
array member holds an array of exactly the declared length of such elements;
counted-by members do not occur (fixed-size records).  Fuelled like
`serializeF`. -/
def wfF : ℕ → List Metadata → Metadata → Value → Bool
  | 0, _, _, _ => false
  | fuel + 1, env, meta, v =>
    match v with
    | .obj fields =>
      nodupKeys (meta.members.map Prod.fst) &&
      decide (fields.length = meta.members.length) &&
      (List.zip meta.members fields).all fun p =>
        decide (p.1.1 = p.2.1) &&
        (match p.1.2.length with
         | none => wfElemWith (wfF fuel env) env p.1.2.type p.2.2
         | some (.inl n) =>
           match p.2.2 with
           | .arr vs =>
             decide (vs.length = n) && vs.all (wfElemWith (wfF fuel env) env p.1.2.type)
           | _ => false
         | some (.inr _) => false)
    | _ => false

/-- Structural check used by the fixed-size claims: no counted-by member, no
union layout, and the same recursively for every nested member class. -/
def fixedNonUnionF : ℕ → List Metadata → Metadata → Bool
  | 0, _, _ => false
  | fuel + 1, env, meta =>
    (!meta.options.isUnion) &&
    meta.members.all fun nm =>
      match nm.2.length with
      | some (.inr _) => false
      | _ =>
        match nm.2.type with
        | .prim _ => true
        | .sub j =>
          match env[j]? with
          | some m => fixedNonUnionF fuel env m
          | none => false

/-- Re-read finalized members as declarations. -/
def toInits (meta : Metadata) : List MemberInit :=
  meta.members.map fun nm => ⟨nm.1, nm.2.type, nm.2.length⟩

/-- `meta` is genuine decorator output over `env`: re-running the `struct`
decorator on its own member list reproduces it exactly. -/
def metaOKB (env : List Metadata) (meta : Metadata) : Bool :=
  match structDecorate env (toInits meta) meta.options with
  | .ok m' => m' == meta
  | .error _ => false

theorem metaOKB_eq (env : List Metadata) (meta : Metadata)
    (h : metaOKB env meta = true) :
    structDecorate env (toInits meta) meta.options = .ok meta := by
  unfold metaOKB at h
  rcases hd : structDecorate env (toInits meta) meta.options with e | m'
  · rw [hd] at h
    simp at h
  · rw [hd] at h
    simp only [beq_iff_eq] at h
    rw [h]

/-! ## `align` facts (claim C9) -/

theorem lt_div_succ_mul (a b : ℕ) (h : 0 < b) : a < (a / b + 1) * b := by
  have h1 := Nat.div_add_mod a b
  have h2 := Nat.mod_lt a h
  nlinarith

theorem align_bounds (x a : ℕ) (ha : 0 < a) :
    x ≤ align x a ∧ align x a < x + a := by
  unfold align
  have h1 : (x + a - 1) / a * a ≤ x + a - 1 := Nat.div_mul_le_self _ _
  have h2 : x + a - 1 < ((x + a - 1) / a + 1) * a := lt_div_succ_mul _ _ ha
  rw [add_mul, one_mul] at h2
  omega

theorem align_eq_ceil (x a : ℕ) (ha : 0 < a) :
    ((align x a : ℕ) : ℚ) = (⌈(x : ℚ) / (a : ℚ)⌉ : ℚ) * a := by
  have haQ : (0 : ℚ) < a := by exact_mod_cast ha
  have h1 : (x + a - 1) / a * a ≤ x + a - 1 := Nat.div_mul_le_self _ _
  have h2 : x + a - 1 < ((x + a - 1) / a + 1) * a := lt_div_succ_mul _ _ ha
  rw [add_mul, one_mul] at h2
  have hA : x ≤ (x + a - 1) / a * a := by omega
  have hB : (x + a - 1) / a * a < x + a := by omega
  have hAq : ((x : ℕ) : ℚ) ≤ (((x + a - 1) / a * a : ℕ) : ℚ) := by exact_mod_cast hA
  have hBq : (((x + a - 1) / a * a : ℕ) : ℚ) < ((x : ℕ) : ℚ) + a := by
    exact_mod_cast hB
  have hqa : (((x + a - 1) / a * a : ℕ) : ℚ) = (((x + a - 1) / a : ℕ) : ℚ) * a :=
    Nat.cast_mul _ _
  have hceil : ⌈(x : ℚ) / (a : ℚ)⌉ = (((x + a - 1) / a : ℕ) : ℤ) := by
    rw [Int.ceil_eq_iff]
    rw [Int.cast_natCast]
    constructor
    · rw [lt_div_iff₀ haQ]
      have hexp : ((((x + a - 1) / a : ℕ) : ℚ) - 1) * a =
          (((x + a - 1) / a : ℕ) : ℚ) * a - a := by ring
      rw [hexp, ← hqa]
      linarith
    · rw [div_le_iff₀ haQ, ← hqa]
      exact hAq
  unfold align
  rw [hceil, Int.cast_natCast, ← Nat.cast_mul]

theorem align_one (x : ℕ) : align x 1 = x := by
  unfold align
  omega

theorem align_idem (x a : ℕ) (ha : 0 < a) : align (align x a) a = align x a := by
  unfold align
  have hq : ((x + a - 1) / a * a + a - 1) / a = (x + a - 1) / a := by
    have hrw : (x + a - 1) / a * a + a - 1 = (a - 1) + (x + a - 1) / a * a := by
      omega
    rw [hrw, Nat.mul_comm, Nat.add_mul_div_left _ _ ha, Nat.div_eq_of_lt (by omega)]
    omega
  rw [hq]

/-! ## The 128-bit registry codecs (`src/internal/primitives.ts`, claim C8) -/

theorem readSlice_concat (buf : List ℕ) (off n m : ℕ) :
    readSlice buf off (n + m) = readSlice buf off n ++ readSlice buf (off + n) m := by
  unfold readSlice
  rw [List.take_add]
  congr 1
  rw [List.drop_drop]

/-- `types.int128.set` (primitives.ts lines 134-137): store `value & mask64`
at `offset + (le ? 0 : 8)`, then `value >> 64n` at `offset + (le ? 8 : 0)`
(the signed store lays down the same bytes as the unsigned one). -/
def int128set (buf : List ℕ) (offset : ℕ) (le : Bool) (value : ℤ) : List ℕ :=
  writeBytes
    (writeBytes buf (offset + if le then 0 else 8) (viewBytes 8 le (jsAnd64 value)))
    (offset + if le then 8 else 0) (viewBytes 8 le (jsShr64 value))

/-- `types.int128.get` (lines 132-133):
`(getBigInt64(offset + (le ? 8 : 0), le) << 64n) | getBigUint64(offset + (le ? 0 : 8), le)`;
an or of bit-disjoint halves is their sum. -/
def int128get (buf : List ℕ) (offset : ℕ) (le : Bool) : Except Err ℤ := do
  let hi ← viewGetInt buf (offset + if le then 8 else 0) 8 le
  let lo ← viewGetUint buf (offset + if le then 0 else 8) 8 le
  pure (hi * 2 ^ 64 + lo)

/-- `types.uint128.set` (lines 146-149): same two stores, both unsigned. -/
def uint128set (buf : List ℕ) (offset : ℕ) (le : Bool) (value : ℤ) : List ℕ :=
  writeBytes
    (writeBytes buf (offset + if le then 0 else 8) (viewBytes 8 le (jsAnd64 value)))
    (offset + if le then 8 else 0) (viewBytes 8 le (jsShr64 value))

/-- `types.uint128.get` (lines 144-145): both halves read unsigned. -/
def uint128get (buf : List ℕ) (offset : ℕ) (le : Bool) : Except Err ℤ := do
  let hi ← viewGetUint buf (offset + if le then 8 else 0) 8 le
  let lo ← viewGetUint buf (offset + if le then 0 else 8) 8 le
  pure ((hi : ℤ) * 2 ^ 64 + lo)

theorem readSlice_int128set (buf : List ℕ) (offset : ℕ) (le : Bool) (z : ℤ)
    (hle : offset + 16 ≤ buf.length) :
    readSlice (int128set buf offset le z) offset 16 = encodePrim .int128 le z := by
  have h16 : (16 : ℕ) = 8 + 8 := by norm_num
  cases le
  · unfold int128set
    simp only [Bool.false_eq_true, if_false]
    rw [h16, readSlice_concat]
    have hfirst :
        readSlice (writeBytes (writeBytes buf (offset + 8) (viewBytes 8 false (jsAnd64 z)))
          (offset + 0) (viewBytes 8 false (jsShr64 z))) offset 8 =
        viewBytes 8 false (jsShr64 z) := by
      rw [show offset + 0 = offset from by omega]
      have := readSlice_writeBytes_self
        (writeBytes buf (offset + 8) (viewBytes 8 false (jsAnd64 z)))
        offset (viewBytes 8 false (jsShr64 z)) (by simp only [length_writeBytes, length_viewBytes]; omega)
      simpa using this
    have hsecond :
        readSlice (writeBytes (writeBytes buf (offset + 8) (viewBytes 8 false (jsAnd64 z)))
          (offset + 0) (viewBytes 8 false (jsShr64 z))) (offset + 8) 8 =
        viewBytes 8 false (jsAnd64 z) := by
      rw [readSlice_writeBytes_right _ _ _ _ _ (by simp only [length_writeBytes, length_viewBytes]; omega)]
      have := readSlice_writeBytes_self buf (offset + 8)
        (viewBytes 8 false (jsAnd64 z)) (by simp only [length_writeBytes, length_viewBytes]; omega)
      simpa using this
    rw [hfirst, hsecond]
    rfl
  · unfold int128set
    simp only [if_true]
    rw [h16, readSlice_concat]
    have hfirst :
        readSlice (writeBytes (writeBytes buf (offset + 0) (viewBytes 8 true (jsAnd64 z)))
          (offset + 8) (viewBytes 8 true (jsShr64 z))) offset 8 =
        viewBytes 8 true (jsAnd64 z) := by
      rw [readSlice_writeBytes_left _ _ _ _ _ (by simp)]
      rw [show offset + 0 = offset from by omega]
      have := readSlice_writeBytes_self buf offset
        (viewBytes 8 true (jsAnd64 z)) (by simp only [length_writeBytes, length_viewBytes]; omega)
      simpa using this
    have hsecond :
        readSlice (writeBytes (writeBytes buf (offset + 0) (viewBytes 8 true (jsAnd64 z)))
          (offset + 8) (viewBytes 8 true (jsShr64 z))) (offset + 8) 8 =
        viewBytes 8 true (jsShr64 z) := by
      have := readSlice_writeBytes_self
        (writeBytes buf (offset + 0) (viewBytes 8 true (jsAnd64 z)))
        (offset + 8) (viewBytes 8 true (jsShr64 z)) (by simp only [length_writeBytes, length_viewBytes]; omega)
      simpa using this
    rw [hfirst, hsecond]
    rfl

theorem align_mono (x y a : ℕ) (h : x ≤ y) : align x a ≤ align y a :=
  Nat.mul_le_mul_right a (Nat.div_le_div_right (by omega))

theorem align_max (x y a : ℕ) :
    align (max x y) a = max (align x a) (align y a) := by
  rcases Nat.le_total x y with h | h
  · rw [Nat.max_eq_right h, Nat.max_eq_right (align_mono x y a h)]
  · rw [Nat.max_eq_left h, Nat.max_eq_left (align_mono y x a h)]

theorem align_zero (a : ℕ) (ha : 0 < a) : align 0 a = 0 := by
  unfold align
  rw [Nat.div_eq_of_lt (by omega), Nat.zero_mul]

/-- `mapSet` preserves a pointwise property if the inserted pair has it. -/
theorem mapSet_forall {P : String × Member → Prop} (ms : List (String × Member))
    (k : String) (v : Member) (hms : ∀ nm ∈ ms, P nm) (hkv : P (k, v)) :
    ∀ nm ∈ mapSet ms k v, P nm := by
  induction ms with
  | nil =>
    intro nm hnm
    simp only [mapSet, List.mem_singleton] at hnm
    exact hnm ▸ hkv
  | cons hd tl ih =>
    intro nm hnm
    unfold mapSet at hnm
    by_cases hk : hd.1 = k
    · rw [if_pos hk] at hnm
      rcases List.mem_cons.mp hnm with h | h
      · exact h ▸ hkv
      · exact hms nm (List.mem_cons_of_mem hd h)
    · rw [if_neg hk] at hnm
      rcases List.mem_cons.mp hnm with h | h
      · exact h ▸ hms hd (List.mem_cons_self hd tl)
      · exact ih (fun nm hnm => hms nm (List.mem_cons_of_mem hd hnm)) nm h

theorem effAlign_pos (o : Options) : 0 < o.effAlign := by
  unfold Options.effAlign
  rcases h : o.alignOpt with _ | a
  · exact Nat.one_pos
  · dsimp only
    split <;> omega

/-- A successful declaration step, written out. -/
theorem decorateStep_ok (env : List Metadata) (options : Options)
    (st : DecState) (init : MemberInit)
    (hv : isValidType env init.type = true) :
    decorateStep env options st init = .ok
      ⟨align (if options.isUnion
              then max st.staticSize (memberSizeOf env init.type init.length)
              else st.staticSize + memberSizeOf env init.type init.length)
         options.effAlign,
       st.isDynamic ||
         (match init.length with | some (.inr _) => true | _ => false),
       mapSet st.members init.name
         ⟨if options.isUnion then 0 else st.staticSize, init.type, init.length⟩⟩ := by
  unfold decorateStep
  rw [if_neg (by simp [hv])]

/-- A declaration step only succeeds on valid member types. -/
theorem decorateStep_valid (env : List Metadata) (options : Options)
    (st st' : DecState) (init : MemberInit)
    (h : decorateStep env options st init = .ok st') :
    isValidType env init.type = true := by
  by_cases hv : isValidType env init.type
  · exact hv
  · unfold decorateStep at h
    rw [if_pos (by simp [hv])] at h
    cases h

/-- Invariant of the union declaration fold: every recorded offset is 0 and
the accumulated size is the running `max` of the aligned member sizes. -/
theorem unionFold_invariant (env : List Metadata) (options : Options)
    (hu : options.isUnion = true) (inits : List MemberInit) :
    ∀ (st res : DecState),
      inits.foldlM (decorateStep env options) st = .ok res →
      (∀ nm ∈ st.members, nm.2.staticOffset = 0) →
      align st.staticSize options.effAlign = st.staticSize →
      (∀ nm ∈ res.members, nm.2.staticOffset = 0) ∧
      res.staticSize =
        (inits.map fun i =>
          align (memberSizeOf env i.type i.length) options.effAlign).foldl
          max st.staticSize ∧
      align res.staticSize options.effAlign = res.staticSize := by
  induction inits with
  | nil =>
    intro st res hfold hoff hal
    simp only [List.foldlM_nil] at hfold
    cases hfold
    exact ⟨hoff, rfl, hal⟩
  | cons hd tl ih =>
    intro st res hfold hoff hal
    simp only [List.foldlM_cons] at hfold
    rcases hstep : decorateStep env options st hd with e | st'
    · rw [hstep] at hfold
      simp at hfold
    · rw [hstep] at hfold
      simp only [ok_bind] at hfold
      have hv := decorateStep_valid env options st st' hd hstep
      rw [decorateStep_ok env options st hd hv] at hstep
      simp only [Except.ok.injEq] at hstep
      subst hstep
      obtain ⟨h1, h2, h3⟩ := ih _ res hfold
        (mapSet_forall st.members hd.name _ hoff (by simp [hu]))
        (align_idem _ _ (effAlign_pos options))
      refine ⟨h1, ?_, h3⟩
      rw [h2]
      simp only [List.map_cons, List.foldl_cons]
      have hss : align
          (if options.isUnion
           then max st.staticSize (memberSizeOf env hd.type hd.length)
           else st.staticSize + memberSizeOf env hd.type hd.length)
          options.effAlign =
          max st.staticSize
            (align (memberSizeOf env hd.type hd.length) options.effAlign) := by
        rw [hu]
        simp only [if_true]
        rw [align_max, hal]
      rw [hss]

/-- Layout of a non-union member list: each member sits at the accumulated
offset, which then advances by the member's size and is aligned. -/
def chained (env : List Metadata) (al : ℕ) :
    List (String × Member) → ℕ → ℕ → Prop
  | [], s, total => s = total
  | (_, m) :: rest, s, total =>
    m.staticOffset = s ∧
    chained env al rest (align (s + memberSizeOf env m.type m.length) al) total

/-- Inserting an absent key appends. -/
theorem mapSet_append (ms : List (String × Member)) (k : String) (v : Member)
    (h : k ∉ ms.map Prod.fst) :
    mapSet ms k v = ms ++ [(k, v)] := by
  induction ms with
  | nil => rfl
  | cons hd tl ih =>
    simp only [List.map_cons, List.mem_cons, not_or] at h
    unfold mapSet
    rw [if_neg (fun he => h.1 he.symm), ih h.2]
    rfl

/-- `isDynamic` after a declaration fold: the or of the initial flag and the
counted-by flags of the declarations. -/
theorem structFold_isDynamic (env : List Metadata) (options : Options) :
    ∀ (inits : List MemberInit) (st res : DecState),
      inits.foldlM (decorateStep env options) st = .ok res →
      res.isDynamic = (st.isDynamic ||
        inits.any fun i =>
          match i.length with | some (.inr _) => true | _ => false) := by
  intro inits
  induction inits with
  | nil =>
    intro st res hfold
    simp only [List.foldlM_nil] at hfold
    cases hfold
    simp
  | cons hd tl ih =>
    intro st res hfold
    simp only [List.foldlM_cons] at hfold
    rcases hstep : decorateStep env options st hd with e | st'
    · rw [hstep] at hfold
      simp at hfold
    · rw [hstep] at hfold
      simp only [ok_bind] at hfold
      have hv := decorateStep_valid env options st st' hd hstep
      rw [decorateStep_ok env options st hd hv] at hstep
      simp only [Except.ok.injEq] at hstep
      subst hstep
      rw [ih _ res hfold]
      simp only [List.any_cons]
      cases st.isDynamic <;> cases hl : (match hd.length with
        | some (Sum.inr _) => true | _ => false) <;> simp [hl]

/-- Declaration fold for a non-union: fresh names are appended in order and
form a `chained` layout from the incoming accumulated size to the final one. -/
theorem structFold_chain (env : List Metadata) (options : Options)
    (hu : options.isUnion = false) :
    ∀ (inits : List MemberInit) (st res : DecState),
      inits.foldlM (decorateStep env options) st = .ok res →
      (∀ i ∈ inits, i.name ∉ st.members.map Prod.fst) →
      (inits.map MemberInit.name).Nodup →
      ∃ tail, res.members = st.members ++ tail ∧
        tail.map Prod.fst = inits.map MemberInit.name ∧
        chained env options.effAlign tail st.staticSize res.staticSize := by
  intro inits
  induction inits with
  | nil =>
    intro st res hfold _ _
    simp only [List.foldlM_nil] at hfold
    cases hfold
    exact ⟨[], by simp, rfl, rfl⟩
  | cons hd tl ih =>
    intro st res hfold hfresh hnd
    simp only [List.foldlM_cons] at hfold
    rcases hstep : decorateStep env options st hd with e | st'
    · rw [hstep] at hfold
      simp at hfold
    · rw [hstep] at hfold
      simp only [ok_bind] at hfold
      have hv := decorateStep_valid env options st st' hd hstep
      rw [decorateStep_ok env options st hd hv] at hstep
      simp only [Except.ok.injEq] at hstep
      subst hstep
      simp only [List.map_cons, List.nodup_cons] at hnd
      have hmem : mapSet st.members hd.name
          ⟨if options.isUnion then 0 else st.staticSize, hd.type, hd.length⟩ =
          st.members ++ [(hd.name,
            ⟨if options.isUnion then 0 else st.staticSize, hd.type, hd.length⟩)] :=
        mapSet_append _ _ _ (hfresh hd (List.mem_cons_self hd tl))
      obtain ⟨tail, htail1, htail2, htail3⟩ := ih _ res hfold
        (by
          intro i hi
          simp only [hmem, List.map_append, List.mem_append, not_or]
          refine ⟨hfresh i (List.mem_cons_of_mem hd hi), ?_⟩
          simp only [List.map_cons, List.map_nil, List.mem_singleton]
          intro he
          exact hnd.1 (he ▸ List.mem_map_of_mem MemberInit.name hi))
        hnd.2
      refine ⟨(hd.name,
          ⟨if options.isUnion then 0 else st.staticSize, hd.type, hd.length⟩) :: tail,
        ?_, ?_, ?_, ?_⟩
      · rw [htail1]
        simp only [hmem]
        rw [List.append_assoc]
        rfl
      · simp only [List.map_cons, htail2]
      · simp [hu]
      · simp only [hu, Bool.false_eq_true, if_false] at htail3 ⊢
        exact htail3

theorem toInits_names (meta : Metadata) :
    (toInits meta).map MemberInit.name = meta.members.map Prod.fst := by
  unfold toInits
  rw [List.map_map]
  rfl

/-- Split genuineness into the fold equation on members and static size. -/
theorem metaOK_fold (env : List Metadata) (meta : Metadata)
    (hok : metaOKB env meta = true) :
    ∃ st : DecState,
      (toInits meta).foldlM (decorateStep env meta.options) ⟨0, false, []⟩ =
        .ok st ∧
      meta.members = st.members ∧ meta.staticSize = st.staticSize ∧
      meta.isDynamic = st.isDynamic := by
  have hd := metaOKB_eq env meta hok
  unfold structDecorate at hd
  rcases hfold : (toInits meta).foldlM (decorateStep env meta.options)
      ⟨0, false, []⟩ with e | st
  · rw [hfold] at hd
    simp at hd
  · rw [hfold] at hd
    simp only [ok_bind] at hd
    have h2 : Except.ok
        (⟨meta.options, st.members, st.staticSize, st.isDynamic⟩ : Metadata) =
        Except.ok meta := hd
    have h3 : (⟨meta.options, st.members, st.staticSize, st.isDynamic⟩ :
        Metadata) = meta := by
      injection h2
    refine ⟨st, rfl, ?_, ?_, ?_⟩ <;> rw [← h3]

/-- A genuine non-union metadata with distinct member names is `chained`
from 0 to its static size. -/
theorem metaOK_chained (env : List Metadata) (meta : Metadata)
    (hok : metaOKB env meta = true) (hu : meta.options.isUnion = false)
    (hnd : (meta.members.map Prod.fst).Nodup) :
    chained env meta.options.effAlign meta.members 0 meta.staticSize := by
  obtain ⟨st, hfold, hm, hs, _⟩ := metaOK_fold env meta hok
  obtain ⟨tail, ht1, _, ht3⟩ := structFold_chain env meta.options hu
    (toInits meta) ⟨0, false, []⟩ st hfold
    (by intro i _ hmem; simp at hmem)
    (by rw [toInits_names]; exact hnd)
  rw [hm, hs, ht1]
  simpa using ht3

/-- Members of a genuine fixed (no counted-by) metadata make it non-dynamic. -/
theorem metaOK_not_dynamic (env : List Metadata) (meta : Metadata)
    (hok : metaOKB env meta = true)
    (hfx : ∀ nm ∈ meta.members,
      (match nm.2.length with | some (.inr _) => true | _ => false) = false) :
    meta.isDynamic = false := by
  obtain ⟨st, hfold, _, _, hdyn⟩ := metaOK_fold env meta hok
  rw [hdyn, structFold_isDynamic env meta.options (toInits meta) _ st hfold]
  simp only [Bool.false_or]
  rw [List.any_eq_false]
  intro i hi
  unfold toInits at hi
  obtain ⟨nm, hnm, hrfl⟩ := List.mem_map.mp hi
  have := hfx nm hnm
  rw [← hrfl]
  simpa using this

/-- With no counted-by members, `sizeof(instance)` is just the static size. -/
theorem sizeofInst_fixed (env : List Metadata) (meta : Metadata) (v : Value)
    (hfx : ∀ nm ∈ meta.members,
      (match nm.2.length with | some (.inr _) => true | _ => false) = false) :
    sizeofInst env meta v = .ok (meta.staticSize : ℤ) := by
  unfold sizeofInst
  have hgen : ∀ (ms : List (String × Member)) (acc : ℤ),
      (∀ nm ∈ ms,
        (match nm.2.length with | some (.inr _) => true | _ => false) = false) →
      (ms.foldlM (fun size nm =>
        match nm.2.length with
        | some (.inr _) =>
          (memberLength v (some (.inr nm.1))).map
            (fun n => size + (sizeofRef env nm.2.type : ℤ) * n)
        | _ => .ok size) acc : Except Err ℤ) = .ok acc := by
    intro ms
    induction ms with
    | nil => intro acc _; rfl
    | cons hd tl ih =>
      intro acc hms
      simp only [List.foldlM_cons]
      have hhd := hms hd (List.mem_cons_self hd tl)
      rcases hl : hd.2.length with _ | ln
      · exact ih acc (fun nm hnm => hms nm (List.mem_cons_of_mem hd hnm))
      · rcases ln with n | s
        · exact ih acc (fun nm hnm => hms nm (List.mem_cons_of_mem hd hnm))
        · rw [hl] at hhd
          simp at hhd
  exact hgen meta.members _ hfx

theorem structDecorate_parts (env : List Metadata) (inits : List MemberInit)
    (options : Options) (meta : Metadata)
    (hd : structDecorate env inits options = .ok meta) :
    ∃ st : DecState,
      inits.foldlM (decorateStep env options) ⟨0, false, []⟩ = .ok st ∧
      meta.options = options ∧ meta.members = st.members ∧
      meta.staticSize = st.staticSize ∧ meta.isDynamic = st.isDynamic := by
  unfold structDecorate at hd
  rcases hfold : inits.foldlM (decorateStep env options) ⟨0, false, []⟩ with e | st
  · rw [hfold] at hd
    simp at hd
  · rw [hfold] at hd
    simp only [ok_bind] at hd
    have h2 : Except.ok
        (⟨options, st.members, st.staticSize, st.isDynamic⟩ : Metadata) =
        Except.ok meta := hd
    have h3 : (⟨options, st.members, st.staticSize, st.isDynamic⟩ :
        Metadata) = meta := by
      injection h2
    refine ⟨st, rfl, ?_, ?_, ?_, ?_⟩ <;> rw [← h3]

/-- Non-union declaration fold: the accumulated size folds
`align (acc + memberSize)` over the declarations. -/
theorem structFold_size (env : List Metadata) (options : Options)
    (hu : options.isUnion = false) :
    ∀ (inits : List MemberInit) (st res : DecState),
      inits.foldlM (decorateStep env options) st = .ok res →
      res.staticSize = inits.foldl
        (fun acc i => align (acc + memberSizeOf env i.type i.length)
          options.effAlign) st.staticSize := by
  intro inits
  induction inits with
  | nil =>
    intro st res hfold
    simp only [List.foldlM_nil] at hfold
    cases hfold
    rfl
  | cons hd tl ih =>
    intro st res hfold
    simp only [List.foldlM_cons] at hfold
    rcases hstep : decorateStep env options st hd with e | st'
    · rw [hstep] at hfold
      simp at hfold
    · rw [hstep] at hfold
      simp only [ok_bind] at hfold
      have hv := decorateStep_valid env options st st' hd hstep
      rw [decorateStep_ok env options st hd hv] at hstep
      simp only [Except.ok.injEq] at hstep
      subst hstep
      rw [ih _ res hfold]
      simp only [List.foldl_cons, hu, Bool.false_eq_true, if_false]

theorem foldl_align_one (f : MemberInit → ℕ) :
    ∀ (l : List MemberInit) (c : ℕ),
      l.foldl (fun acc i => align (acc + f i) 1) c = c + (l.map f).sum := by
  intro l
  induction l with
  | nil => intro c; simp
  | cons hd tl ih =>
    intro c
    have h1 : (hd :: tl).foldl (fun acc i => align (acc + f i) 1) c =
        tl.foldl (fun acc i => align (acc + f i) 1) (align (c + f hd) 1) := rfl
    rw [h1, align_one, ih]
    simp only [List.map_cons, List.sum_cons]
    omega

/-! ## Claim C9 — properties of `align` -/

/-- **C9**: for every nonnegative `x` and positive alignment `a`,
`align x a = ceil(x / a) * a`, `align x 1 = x`, `x ≤ align x a`, and `align`
is idempotent: `align (align x a) a = align x a`. -/
theorem claim_c9 (x a : ℕ) (ha : 0 < a) :
    ((align x a : ℕ) : ℚ) = (⌈(x : ℚ) / (a : ℚ)⌉ : ℚ) * a ∧
    align x 1 = x ∧
    x ≤ align x a ∧
    align (align x a) a = align x a :=
  ⟨align_eq_ceil x a ha, align_one x, (align_bounds x a ha).1, align_idem x a ha⟩

/-- Witness for C9 at `x = 5`, `a = 4` (`align 5 4 = 8`). -/
theorem claim_c9_witness :
    0 < 4 ∧
    (((align 5 4 : ℕ) : ℚ) = (⌈((5 : ℕ) : ℚ) / ((4 : ℕ) : ℚ)⌉ : ℚ) * ((4 : ℕ) : ℚ) ∧
     align 5 1 = 5 ∧
     5 ≤ align 5 4 ∧
     align (align 5 4) 4 = align 5 4) :=
  ⟨by norm_num, claim_c9 5 4 (by norm_num)⟩

/-! ## Claim C8 — 128-bit codec round trip -/

/-- **C8**: the 128-bit registry codecs read two 64-bit halves combined by
shift-and-or with the endianness flag choosing the high half; for every
in-bounds offset, every endianness, and every in-range value
(`-2^127 ≤ z < 2^127` for `int128`, `0 ≤ w < 2^128` for `uint128`), `get`
returns exactly the value `set` stored. -/
theorem claim_c8 (buf : List ℕ) (offset : ℕ) (le : Bool) (z w : ℤ)
    (hle : offset + 16 ≤ buf.length)
    (hz1 : -(2 ^ 127) ≤ z) (hz2 : z < 2 ^ 127)
    (hw1 : 0 ≤ w) (hw2 : w < 2 ^ 128) :
    int128get (int128set buf offset le z) offset le = .ok z ∧
    uint128get (uint128set buf offset le w) offset le = .ok w := by
  constructor
  · have heq : int128get (int128set buf offset le z) offset le =
        decodePrim (int128set buf offset le z) offset .int128 le := rfl
    rw [heq]
    apply decodePrim_of_slice .int128 le z _ offset
    · show offset + 16 ≤ (int128set buf offset le z).length
      unfold int128set
      simp only [length_writeBytes]
      exact hle
    · show readSlice _ offset 16 = _
      exact readSlice_int128set buf offset le z hle
    · show (decide (-(2 ^ (8 * 16 - 1) : ℤ) ≤ z) &&
        decide (z < 2 ^ (8 * 16 - 1))) = true
      have h1 : ((8 : ℕ) * 16 - 1) = 127 := by norm_num
      rw [h1, Bool.and_eq_true, decide_eq_true_eq, decide_eq_true_eq]
      exact ⟨hz1, hz2⟩
  · have heq : uint128get (uint128set buf offset le w) offset le =
        decodePrim (uint128set buf offset le w) offset .uint128 le := rfl
    rw [heq]
    apply decodePrim_of_slice .uint128 le w _ offset
    · show offset + 16 ≤ (uint128set buf offset le w).length
      unfold uint128set
      simp only [length_writeBytes]
      exact hle
    · show readSlice _ offset 16 = encodePrim .uint128 le w
      have h1 : uint128set buf offset le w = int128set buf offset le w := rfl
      have h2 : encodePrim .uint128 le w = encodePrim .int128 le w := rfl
      rw [h1, h2]
      exact readSlice_int128set buf offset le w hle
    · show (decide ((0 : ℤ) ≤ w) && decide (w < 2 ^ (8 * 16))) = true
      have h1 : ((8 : ℕ) * 16) = 128 := by norm_num
      rw [h1, Bool.and_eq_true, decide_eq_true_eq, decide_eq_true_eq]
      exact ⟨hw1, hw2⟩

/-- Witness for C8 on a 16-byte buffer at offset 0, little-endian,
`z = -5`, `w = 2^100 + 3`. -/
theorem claim_c8_witness :
    ((0 : ℕ) + 16 ≤ (List.replicate 16 0 : List ℕ).length ∧
     -(2 ^ 127) ≤ (-5 : ℤ) ∧ (-5 : ℤ) < 2 ^ 127 ∧
     (0 : ℤ) ≤ 2 ^ 100 + 3 ∧ (2 ^ 100 + 3 : ℤ) < 2 ^ 128) ∧
    int128get (int128set (List.replicate 16 0) 0 true (-5)) 0 true = .ok (-5) ∧
    uint128get (uint128set (List.replicate 16 0) 0 true (2 ^ 100 + 3)) 0 true =
      .ok (2 ^ 100 + 3) :=
  ⟨⟨by simp, by norm_num, by norm_num, by norm_num, by norm_num⟩,
    claim_c8 (List.replicate 16 0) 0 true (-5) (2 ^ 100 + 3) (by simp)
      (by norm_num) (by norm_num) (by norm_num) (by norm_num)⟩

/-! ## Claim C2 — inheritance layout (code bug) -/

/-- Declaring `@struct() class D extends B` where `B` is itself a finalized
`@struct` class.  Under the TC39 decorator-metadata protocol the code relies
on, `D`'s metadata object prototypically inherits `B`'s; `B`'s class
decorator *replaced* `B`'s `struct` metadata entry with
`{options, members, staticSize, isDynamic}` (line 489) — an object carrying
no `init` list — so `D`'s member decorators
(`context.metadata.struct.init ??= []`, lines 508-510) find `B`'s finalized
entry through the prototype chain, attach a fresh empty `init` list to it and
push only `D`'s own declarations; `D`'s class decorator then iterates exactly
that list (line 473).  The base metadata therefore contributes nothing to the
derived layout, which is computed from `D`'s own member declarations alone. -/
def declareDerived (env : List Metadata) (_base : Metadata)
    (ownInits : List MemberInit) (options : Options) : Except Err Metadata :=
  structDecorate env ownInits options

/-- **C2** (code bug): with base `B = {a: uint8, b: uint16}` (staticSize 3)
and derived `D extends B` adding `c: uint32`, the declared `D` has only
member `c`: `offsetof(D, 'a')` throws (`Struct does not have member`), and
`offsetof(D, 'c')` is 0, not `staticSize(B) = 3` — contradicting the claim
and the repository's own struct-inheritance round-trip test. -/
theorem claim_c2_inheritance_bug :
    ∃ metaB metaD : Metadata,
      structDecorate [] [⟨"a", .prim .uint8, none⟩, ⟨"b", .prim .uint16, none⟩]
        ⟨none, false, false⟩ = .ok metaB ∧
      declareDerived [] metaB [⟨"c", .prim .uint32, none⟩] ⟨none, false, false⟩ =
        .ok metaD ∧
      metaB.staticSize = 3 ∧
      offsetofStatic metaD "c" = .ok 0 ∧
      offsetofStatic metaD "a" = .error .missingMember ∧
      metaD.staticSize = 4 ∧
      (0 : ℕ) ≠ 3 :=
  ⟨_, _, rfl, rfl, rfl, rfl, rfl, rfl, by norm_num⟩

/-! ## Claim C3 — union layout -/

/-- **C3** (counterexample): a union declared with `align: 8` and a single
`uint8` member has `staticSize = 8`, not the maximum member byte size 1. -/
theorem claim_c3_counterexample :
    ∃ meta : Metadata,
      structDecorate [] [⟨"a", .prim .uint8, none⟩] ⟨some 8, false, true⟩ =
        .ok meta ∧
      memberSizeOf [] (.prim .uint8) none = 1 ∧
      meta.staticSize = 8 ∧
      (8 : ℕ) ≠ 1 :=
  ⟨_, rfl, rfl, rfl, by norm_num⟩

/-- **C3** (amended): for every union declaration every member's recorded
offset is 0, and the static size is the running maximum of the
*alignment-rounded* member byte sizes — which under the default alignment
(1, a no-op) is exactly the maximum member byte size. -/
theorem claim_c3_amended (env : List Metadata) (inits : List MemberInit)
    (options : Options) (meta : Metadata) (hu : options.isUnion = true)
    (hd : structDecorate env inits options = .ok meta) :
    (∀ nm ∈ meta.members, nm.2.staticOffset = 0) ∧
    meta.staticSize =
      (inits.map fun i =>
        align (memberSizeOf env i.type i.length) options.effAlign).foldl max 0 ∧
    (options.effAlign = 1 →
      meta.staticSize =
        (inits.map fun i => memberSizeOf env i.type i.length).foldl max 0) := by
  obtain ⟨st, hfold, _, hm, hs, _⟩ := structDecorate_parts env inits options meta hd
  obtain ⟨h1, h2, _⟩ := unionFold_invariant env options hu inits ⟨0, false, []⟩
    st hfold (by intro nm h; simp at h) (align_zero _ (effAlign_pos options))
  refine ⟨by rw [hm]; exact h1, by rw [hs]; exact h2, ?_⟩
  intro h1a
  rw [hs, h2, h1a]
  simp only [align_one]

/-- Witness for C3 (amended): the `{a: uint32, b: uint8[4]}` union of the
spec scenario — both offsets 0 and `staticSize = 4`. -/
theorem claim_c3_amended_witness :
    ∃ meta : Metadata,
      structDecorate [] [⟨"a", .prim .uint32, none⟩,
        ⟨"b", .prim .uint8, some (.inl 4)⟩] ⟨none, false, true⟩ = .ok meta ∧
      (∀ nm ∈ meta.members, nm.2.staticOffset = 0) ∧
      meta.staticSize = 4 := by
  refine ⟨_, rfl, ?_, rfl⟩
  exact (claim_c3_amended [] [⟨"a", .prim .uint32, none⟩,
    ⟨"b", .prim .uint8, some (.inl 4)⟩] ⟨none, false, true⟩ _ rfl rfl).1

/-! ## Claim C7 — member size contributions -/

/-- **C7** (counterexample): a member declared with a fixed length of 0
contributes `sizeof(type)` bytes, not 0: a record with a single `uint32`
member of declared length 0 has `staticSize = 4`, where the claim's
`sizeof(type) * (fixedLength ?? 1)` formula yields 0. -/
theorem claim_c7_counterexample :
    ∃ meta : Metadata,
      structDecorate [] [⟨"a", .prim .uint32, some (.inl 0)⟩]
        ⟨none, false, false⟩ = .ok meta ∧
      memberSizeOf [] (.prim .uint32) (some (.inl 0)) = 4 ∧
      meta.staticSize = 4 ∧
      (4 : ℕ) ≠ 0 :=
  ⟨_, rfl, rfl, rfl, by norm_num⟩

/-- **C7** (amended): each member contributes 0 bytes when its length is a
counted-by field name and `sizeof(type) * (length || 1)` otherwise — so a
declared length of 0 falls back to 1, contributing `sizeof(type)` bytes; for
a non-union record the static size folds `align(acc + contribution)` over the
declarations, which under the default alignment is their plain sum. -/
theorem claim_c7_amended (env : List Metadata) (inits : List MemberInit)
    (options : Options) (meta : Metadata) (hu : options.isUnion = false)
    (hd : structDecorate env inits options = .ok meta) :
    (∀ t s, memberSizeOf env t (some (.inr s)) = 0) ∧
    (∀ t, memberSizeOf env t none = sizeofRef env t) ∧
    (∀ t n, memberSizeOf env t (some (.inl n)) =
      sizeofRef env t * (if n = 0 then 1 else n)) ∧
    meta.staticSize = inits.foldl
      (fun acc i => align (acc + memberSizeOf env i.type i.length)
        options.effAlign) 0 ∧
    (options.effAlign = 1 →
      meta.staticSize = (inits.map fun i => memberSizeOf env i.type i.length).sum) := by
  obtain ⟨st, hfold, _, _, hs, _⟩ := structDecorate_parts env inits options meta hd
  have hsize := structFold_size env options hu inits ⟨0, false, []⟩ st hfold
  refine ⟨fun t s => rfl, fun t => Nat.mul_one _, fun t n => rfl, ?_, ?_⟩
  · rw [hs, hsize]
  · intro h1a
    rw [hs, hsize]
    simp only [h1a]
    rw [foldl_align_one (fun i => memberSizeOf env i.type i.length)]
    simp

/-- Witness for C7 (amended): `{a: uint16, b: uint8[3]}` (default options)
has `staticSize = 2 + 3 = 5`. -/
theorem claim_c7_amended_witness :
    ∃ meta : Metadata,
      structDecorate [] [⟨"a", .prim .uint16, none⟩,
        ⟨"b", .prim .uint8, some (.inl 3)⟩] ⟨none, false, false⟩ = .ok meta ∧
      meta.staticSize =
        ([⟨"a", .prim .uint16, none⟩, ⟨"b", .prim .uint8, some (.inl 3)⟩].map
          fun i : MemberInit => memberSizeOf [] i.type i.length).sum ∧
      meta.staticSize = 5 := by
  refine ⟨_, rfl, ?_, rfl⟩
  exact (claim_c7_amended [] [⟨"a", .prim .uint16, none⟩,
    ⟨"b", .prim .uint8, some (.inl 3)⟩] ⟨none, false, false⟩ _ rfl rfl).2.2.2.2 rfl

/-! ## Claim C4 — counted-by validation timing -/

/-- **C4** (counterexample): declaring a record whose member's length names a
nonexistent field succeeds — no `InvalidCountField`-style error is raised at
declaration time; the metadata is built and merely marked dynamic. -/
theorem claim_c4_counterexample :
    ∃ meta : Metadata,
      structDecorate [] [⟨"arr", .prim .uint8, some (.inr "nope")⟩]
        ⟨none, false, false⟩ = .ok meta ∧
      meta.isDynamic = true :=
  ⟨_, rfl, rfl⟩

/-- **C4** (amended): the invalid count field is detected only when a member
length is resolved against an *instance*: `deserialize` throws
`Can not use non-existent member to count`, and `serialize` throws already in
its `sizeof(instance)` call — where, due to the swapped `_memberLength`
arguments at line 402, the member's own (array-valued) field triggers
`Can not use ... to count`. -/
theorem claim_c4_amended (fields : List (String × Value)) (buf : List ℕ)
    (vs : List Value) (fuel : ℕ)
    (hnope : fields.lookup "nope" = none)
    (harr : fields.lookup "arr" = some (.arr vs)) :
    ∃ meta : Metadata,
      structDecorate [] [⟨"arr", .prim .uint8, some (.inr "nope")⟩]
        ⟨none, false, false⟩ = .ok meta ∧
      memberLength (.obj fields) (some (.inr "nope")) =
        .error .nonexistentCount ∧
      deserializeF (fuel + 1) [] meta (.obj fields) buf =
        .error .nonexistentCount ∧
      serializeF (fuel + 1) [] meta (.obj fields) = .error .countNotNumber := by
  have hmem : memberLength (Value.obj fields) (some (.inr "nope")) =
      .error .nonexistentCount := by
    show (match fields.lookup "nope" with
      | none => Except.error Err.nonexistentCount
      | some (.num z) => Except.ok z
      | some _ => Except.error Err.countNotNumber) =
      Except.error Err.nonexistentCount
    rw [hnope]
  have hmem2 : memberLength (Value.obj fields) (some (.inr "arr")) =
      .error .countNotNumber := by
    show (match fields.lookup "arr" with
      | none => Except.error Err.nonexistentCount
      | some (.num z) => Except.ok z
      | some _ => Except.error Err.countNotNumber) =
      Except.error Err.countNotNumber
    rw [harr]
  refine ⟨⟨⟨none, false, false⟩,
    [("arr", ⟨0, .prim .uint8, some (.inr "nope")⟩)], 0, true⟩, rfl, hmem, ?_, ?_⟩
  · simp only [deserializeF, List.foldlM_cons, List.foldlM_nil, hmem,
      error_bind]
  · simp only [serializeF, sizeofInst, List.foldlM_cons, List.foldlM_nil,
      hmem2, error_map, error_bind]

/-- Witness for C4 (amended) at the concrete instance `{arr: []}`. -/
theorem claim_c4_amended_witness :
    ([("arr", Value.arr [])] : List (String × Value)).lookup "nope" = none ∧
    ([("arr", Value.arr [])] : List (String × Value)).lookup "arr" =
      some (.arr []) ∧
    ∃ meta : Metadata,
      structDecorate [] [⟨"arr", .prim .uint8, some (.inr "nope")⟩]
        ⟨none, false, false⟩ = .ok meta ∧
      memberLength (.obj [("arr", Value.arr [])]) (some (.inr "nope")) =
        .error .nonexistentCount ∧
      deserializeF 1 [] meta (.obj [("arr", Value.arr [])]) [0, 1] =
        .error .nonexistentCount ∧
      serializeF 1 [] meta (.obj [("arr", Value.arr [])]) =
        .error .countNotNumber :=
  ⟨rfl, rfl, claim_c4_amended [("arr", Value.arr [])] [0, 1] [] 0 rfl rfl⟩

/-! ## Claim C5 — short-buffer deserialization (counterexample half) -/

/-- **C5** (counterexample): an `align: 4` record with a single `uint8`
member has `staticSize = 4`, yet deserializing it from a 1-byte buffer —
strictly shorter than the static size — succeeds as a partial read and fills
the member from the byte present. -/
theorem claim_c5_counterexample :
    ∃ meta : Metadata,
      structDecorate [] [⟨"a", .prim .uint8, none⟩] ⟨some 4, false, false⟩ =
        .ok meta ∧
      meta.staticSize = 4 ∧
      ([7] : List ℕ).length < 4 ∧
      deserializeF 1 [] meta (.obj [("a", .num 0)]) [7] =
        .ok (.obj [("a", .num 7)]) :=
  ⟨_, rfl, rfl, by norm_num, rfl⟩

/-! ## Association-list, fold and bound bridges -/

theorem nodupKeys_iff (l : List String) : nodupKeys l = true ↔ l.Nodup := by
  induction l with
  | nil => simp [nodupKeys]
  | cons hd tl ih =>
    rw [List.nodup_cons, ← ih]
    show ((!tl.contains hd) && nodupKeys tl) = true ↔ _
    rw [Bool.and_eq_true, Bool.not_eq_true']
    constructor
    · rintro ⟨h1, h2⟩
      exact ⟨by simpa using h1, h2⟩
    · rintro ⟨h1, h2⟩
      exact ⟨by simpa using h1, h2⟩

theorem lookup_eq_of_mem {β : Type} :
    ∀ (l : List (String × β)) (a : String) (b : β),
      (l.map Prod.fst).Nodup → (a, b) ∈ l → l.lookup a = some b := by
  intro l
  induction l with
  | nil =>
    intro a b _ hmem
    simp at hmem
  | cons hd tl ih =>
    intro a b hnd hmem
    obtain ⟨k, v⟩ := hd
    simp only [List.map_cons, List.nodup_cons] at hnd
    rcases List.mem_cons.mp hmem with heq | htl
    · rw [Prod.mk.injEq] at heq
      obtain ⟨h1, h2⟩ := heq
      subst h1
      subst h2
      simp [List.lookup_cons, beq_self_eq_true]
    · have hne : (a == k) = false := by
        apply beq_eq_false_iff_ne.mpr
        intro he
        subst he
        exact hnd.1 (List.mem_map_of_mem Prod.fst htl)
      simp only [List.lookup_cons, hne]
      exact ih a b hnd.2 htl

theorem lookup_append_cons {β : Type} :
    ∀ (A : List (String × β)) (k : String) (v : β) (B : List (String × β)),
      k ∉ A.map Prod.fst → (A ++ (k, v) :: B).lookup k = some v := by
  intro A
  induction A with
  | nil =>
    intro k v B _
    simp [List.lookup_cons, beq_self_eq_true]
  | cons hd tl ih =>
    intro k v B h
    obtain ⟨kh, vh⟩ := hd
    simp only [List.map_cons, List.mem_cons, not_or] at h
    have hne : (k == kh) = false := beq_eq_false_iff_ne.mpr h.1
    simp only [List.cons_append, List.lookup_cons, hne]
    exact ih k v B h.2

theorem setField_append_cons :
    ∀ (A : List (String × Value)) (k : String) (v x : Value)
      (B : List (String × Value)), k ∉ A.map Prod.fst →
      setField (A ++ (k, v) :: B) k x = A ++ (k, x) :: B := by
  intro A
  induction A with
  | nil =>
    intro k v x B _
    simp [setField]
  | cons hd tl ih =>
    intro k v x B h
    obtain ⟨kh, vh⟩ := hd
    simp only [List.map_cons, List.mem_cons, not_or] at h
    simp only [List.cons_append, setField, List.append_eq]
    rw [if_neg (fun he => h.1 he.symm), ih k v x B h.2]

theorem setIdx_append :
    ∀ (A : List Value) (x y : Value) (B : List Value),
      setIdx (A ++ x :: B) A.length y = A ++ y :: B := by
  intro A
  induction A with
  | nil =>
    intro x y B
    rfl
  | cons hd tl ih =>
    intro x y B
    show hd :: setIdx (tl ++ x :: B) tl.length y = hd :: (tl ++ y :: B)
    rw [ih]

theorem foldlM_ok_cons {α β : Type} (g : β → α → Except Err β) (b : β) (a : α)
    (l : List α) (res : β) (h : (a :: l).foldlM g b = .ok res) :
    ∃ b', g b a = .ok b' ∧ l.foldlM g b' = .ok res := by
  simp only [List.foldlM_cons] at h
  rcases hg : g b a with e | b'
  · rw [hg] at h
    simp at h
  · rw [hg] at h
    simp only [ok_bind] at h
    exact ⟨b', rfl, h⟩

theorem except_map_ok {α β : Type} (f : α → β) (x : Except Err α) (b : β)
    (h : x.map f = .ok b) : ∃ a, x = .ok a ∧ f a = b := by
  rcases x with e | a
  · simp [Except.map] at h
  · refine ⟨a, rfl, ?_⟩
    simp only [Except.map, Except.ok.injEq] at h
    exact h

theorem except_bind_ok {α β : Type} (x : Except Err α) (g : α → Except Err β)
    (b : β) (h : x >>= g = .ok b) : ∃ a, x = .ok a ∧ g a = .ok b := by
  rcases x with e | a
  · rw [error_bind] at h
    simp at h
  · rw [ok_bind] at h
    exact ⟨a, rfl, h⟩

theorem foldl_max_init (l : List ℕ) : ∀ c : ℕ, c ≤ l.foldl max c := by
  induction l with
  | nil =>
    intro c
    simp
  | cons hd tl ih =>
    intro c
    simp only [List.foldl_cons]
    calc c ≤ max c hd := le_max_left _ _
    _ ≤ tl.foldl max (max c hd) := ih _

theorem le_foldl_max (l : List ℕ) (a : ℕ) (h : a ∈ l) :
    ∀ c : ℕ, a ≤ l.foldl max c := by
  induction l with
  | nil => simp at h
  | cons hd tl ih =>
    intro c
    simp only [List.foldl_cons]
    rcases List.mem_cons.mp h with heq | htl
    · subst heq
      calc a ≤ max c a := le_max_right _ _
      _ ≤ tl.foldl max (max c a) := foldl_max_init tl _
    · exact ih htl _

theorem viewGetUint_ok_bound (buf : List ℕ) (off n : ℕ) (le : Bool) (u : ℕ)
    (h : viewGetUint buf off n le = .ok u) : off + n ≤ buf.length := by
  unfold viewGetUint at h
  by_cases hle : off + n ≤ buf.length
  · exact hle
  · rw [if_neg hle] at h
    simp at h

theorem viewGetInt_ok_bound (buf : List ℕ) (off n : ℕ) (le : Bool) (z : ℤ)
    (h : viewGetInt buf off n le = .ok z) : off + n ≤ buf.length := by
  unfold viewGetInt at h
  obtain ⟨u, hu, _⟩ := except_map_ok _ _ _ h
  exact viewGetUint_ok_bound buf off n le u hu

theorem decodePrim_ok_bound (buf : List ℕ) (iOff : ℕ) (p : PrimT) (le : Bool)
    (z : ℤ) (h : decodePrim buf iOff p le = .ok z) :
    iOff + p.size ≤ buf.length := by
  cases p
  case int8 => exact viewGetInt_ok_bound _ _ _ _ _ h
  case int16 => exact viewGetInt_ok_bound _ _ _ _ _ h
  case int32 => exact viewGetInt_ok_bound _ _ _ _ _ h
  case int64 => exact viewGetInt_ok_bound _ _ _ _ _ h
  case uint8 =>
    obtain ⟨u, hu, _⟩ := except_map_ok _ _ _ h
    exact viewGetUint_ok_bound _ _ _ _ _ hu
  case uint16 =>
    obtain ⟨u, hu, _⟩ := except_map_ok _ _ _ h
    exact viewGetUint_ok_bound _ _ _ _ _ hu
  case uint32 =>
    obtain ⟨u, hu, _⟩ := except_map_ok _ _ _ h
    exact viewGetUint_ok_bound _ _ _ _ _ hu
  case uint64 =>
    obtain ⟨u, hu, _⟩ := except_map_ok _ _ _ h
    exact viewGetUint_ok_bound _ _ _ _ _ hu
  case float32 =>
    obtain ⟨u, hu, _⟩ := except_map_ok _ _ _ h
    exact viewGetUint_ok_bound _ _ _ _ _ hu
  case float64 =>
    obtain ⟨u, hu, _⟩ := except_map_ok _ _ _ h
    exact viewGetUint_ok_bound _ _ _ _ _ hu
  case int128 =>
    obtain ⟨hi, hhi, h2⟩ := except_bind_ok _ _ _ h
    obtain ⟨lo, hlo, _⟩ := except_bind_ok _ _ _ h2
    have b1 := viewGetInt_ok_bound _ _ _ _ _ hhi
    have b2 := viewGetUint_ok_bound _ _ _ _ _ hlo
    show iOff + 16 ≤ buf.length
    cases le <;> simp only [if_true, if_false, Bool.false_eq_true] at b1 b2 <;> omega
  case uint128 =>
    obtain ⟨hi, hhi, h2⟩ := except_bind_ok _ _ _ h
    obtain ⟨lo, hlo, _⟩ := except_bind_ok _ _ _ h2
    have b1 := viewGetUint_ok_bound _ _ _ _ _ hhi
    have b2 := viewGetUint_ok_bound _ _ _ _ _ hlo
    show iOff + 16 ≤ buf.length
    cases le <;> simp only [if_true, if_false, Bool.false_eq_true] at b1 b2 <;> omega

theorem readSlice_congr (buf buf' : List ℕ) (off n : ℕ)
    (h : ∀ p, off ≤ p → p < off + n → buf'[p]? = buf[p]?) :
    readSlice buf' off n = readSlice buf off n := by
  apply List.ext_getElem?
  intro i
  rw [getElem?_readSlice, getElem?_readSlice]
  by_cases hi : i < n
  · rw [if_pos hi, if_pos hi, h (off + i) (by omega) (by omega)]
  · rw [if_neg hi, if_neg hi]

theorem chained_le (env : List Metadata) (al : ℕ) (hal : 0 < al) :
    ∀ (ms : List (String × Member)) (s total : ℕ),
      chained env al ms s total → s ≤ total := by
  intro ms
  induction ms with
  | nil =>
    intro s total h
    exact h.le
  | cons hd tl ih =>
    intro s total h
    obtain ⟨h1, h2⟩ := h
    have h3 := ih _ _ h2
    have hb := (align_bounds (s + memberSizeOf env hd.2.type hd.2.length) al hal).1
    omega

/-! ## Endianness characterization of the written byte strings (claim C6) -/

theorem leBytes_add (n : ℕ) :
    ∀ (m v : ℕ), leBytes (n + m) v =
      leBytes n (v % 256 ^ n) ++ leBytes m (v / 256 ^ n) := by
  induction n with
  | zero =>
    intro m v
    simp [leBytes, Nat.zero_add]
  | succ n ih =>
    intro m v
    have hra : n + 1 + m = (n + m) + 1 := by omega
    rw [hra]
    show v % 256 :: leBytes (n + m) (v / 256) = _
    rw [ih m (v / 256)]
    have h1 : (v % 256 ^ (n + 1)) % 256 = v % 256 :=
      Nat.mod_mod_of_dvd v (dvd_pow_self 256 (Nat.succ_ne_zero n))
    have h2 : (v % 256 ^ (n + 1)) / 256 = v / 256 % 256 ^ n := by
      rw [pow_succ, mul_comm, Nat.mod_mul_right_div_self]
    have h3 : v / 256 ^ (n + 1) = v / 256 / 256 ^ n := by
      rw [Nat.div_div_eq_div_mul, pow_succ, mul_comm]
    show _ = (v % 256 ^ (n + 1)) % 256 :: leBytes n ((v % 256 ^ (n + 1)) / 256)
      ++ leBytes m (v / 256 ^ (n + 1))
    rw [h1, h2, h3]
    rfl

theorem toNat_emod_two_pow (z : ℤ) (a b : ℕ) (hab : a ≤ b) :
    ((z % 2 ^ b).toNat) % 2 ^ a = (z % 2 ^ a).toNat := by
  have hb : (0 : ℤ) < 2 ^ b := by positivity
  have ha : (0 : ℤ) < 2 ^ a := by positivity
  have h1 : (0 : ℤ) ≤ z % 2 ^ b := Int.emod_nonneg z (by positivity)
  have h2 : (0 : ℤ) ≤ z % 2 ^ a := Int.emod_nonneg z (by positivity)
  have hdvd : ((2 : ℤ) ^ a) ∣ 2 ^ b := pow_dvd_pow 2 hab
  apply Int.natCast_inj.mp
  push_cast [Int.toNat_of_nonneg h1, Int.toNat_of_nonneg h2]
  rw [Int.emod_emod_of_dvd z hdvd]

theorem encodePrim_false_reverse (p : PrimT) (z : ℤ) :
    encodePrim p false z = (encodePrim p true z).reverse := by
  cases p <;>
    simp [encodePrim, viewBytes, beBytes, List.reverse_append]

theorem encodePrim_true_leBytes (p : PrimT) (z : ℤ) :
    encodePrim p true z = leBytes p.size ((z % 2 ^ (8 * p.size)).toNat) := by
  have h128 : ∀ w : ℤ,
      leBytes 8 ((w % 2 ^ 64).toNat) ++
        leBytes 8 ((Int.fdiv w (2 ^ 64) % 2 ^ 64).toNat) =
      leBytes 16 ((w % 2 ^ 128).toNat) := by
    intro w
    have h16 : (16 : ℕ) = 8 + 8 := by norm_num
    rw [h16, leBytes_add 8 8]
    have h256 : (256 : ℕ) ^ 8 = 2 ^ 64 := by norm_num
    congr 1
    · rw [h256]
      rw [toNat_emod_two_pow w 64 128 (by norm_num)]
    · rw [h256]
      congr 1
      have hfd : Int.fdiv w (2 ^ 64) = w / 2 ^ 64 :=
        Int.fdiv_eq_ediv w (by positivity)
      rw [hfd]
      set_option maxRecDepth 4000 in omega
  cases p
  case int128 =>
    show viewBytes 8 true (jsAnd64 z) ++ viewBytes 8 true (jsShr64 z) = _
    unfold viewBytes jsAnd64 jsShr64
    simp only [if_true]
    have hz : z % 2 ^ 64 % 2 ^ (8 * 8) = z % 2 ^ 64 := by
      norm_num
    rw [show (8 : ℕ) * 8 = 64 from by norm_num, Int.emod_emod_of_dvd z dvd_rfl]
    exact h128 z
  case uint128 =>
    show viewBytes 8 true (jsAnd64 z) ++ viewBytes 8 true (jsShr64 z) = _
    unfold viewBytes jsAnd64 jsShr64
    simp only [if_true]
    rw [show (8 : ℕ) * 8 = 64 from by norm_num, Int.emod_emod_of_dvd z dvd_rfl]
    exact h128 z
  all_goals rfl

/-! ## Elimination forms of the well-formedness predicates -/

/-- What `wfF` requires of one member's value. -/
def wfPair (fuel : ℕ) (env : List Metadata) (m : Member) (val : Value) : Prop :=
  match m.length with
  | none => wfElemWith (wfF fuel env) env m.type val = true
  | some (.inl n) => ∃ vs, val = .arr vs ∧ vs.length = n ∧
      ∀ x ∈ vs, wfElemWith (wfF fuel env) env m.type x = true
  | some (.inr _) => False

theorem wfF_elim (fuel : ℕ) (env : List Metadata) (meta : Metadata)
    (f : List (String × Value)) (h : wfF (fuel + 1) env meta (.obj f) = true) :
    (meta.members.map Prod.fst).Nodup ∧ f.length = meta.members.length ∧
    ∀ q ∈ meta.members.zip f, q.1.1 = q.2.1 ∧ wfPair fuel env q.1.2 q.2.2 := by
  unfold wfF at h
  rw [Bool.and_eq_true, Bool.and_eq_true] at h
  obtain ⟨⟨h1, h2⟩, h3⟩ := h
  refine ⟨(nodupKeys_iff _).mp h1, by simpa using h2, ?_⟩
  intro q hq
  have h4 := List.all_eq_true.mp h3 q hq
  rw [Bool.and_eq_true, decide_eq_true_eq] at h4
  refine ⟨h4.1, ?_⟩
  have h5 := h4.2
  unfold wfPair
  rcases hl : q.1.2.length with _ | nl
  · rw [hl] at h5
    exact h5
  · rcases nl with n | s
    · rw [hl] at h5
      rcases hv : q.2.2 with z | vs | fl
      · rw [hv] at h5
        simp at h5
      · rw [hv] at h5
        rw [Bool.and_eq_true, decide_eq_true_eq] at h5
        exact ⟨vs, rfl, h5.1, List.all_eq_true.mp h5.2⟩
      · rw [hv] at h5
        simp at h5
    · rw [hl] at h5
      simp at h5

theorem wfF_is_obj (fuel : ℕ) (env : List Metadata) (meta : Metadata)
    (v : Value) (h : wfF fuel env meta v = true) :
    ∃ fl, v = .obj fl := by
  cases fuel with
  | zero => simp [wfF] at h
  | succ fuel =>
    rcases v with z | vs | fl
    · simp [wfF] at h
    · simp [wfF] at h
    · exact ⟨fl, rfl⟩

theorem zip_names_eq {β γ : Type} (A : List (String × β)) (B : List (String × γ))
    (hlen : B.length = A.length)
    (h : ∀ q ∈ A.zip B, q.1.1 = q.2.1) :
    B.map Prod.fst = A.map Prod.fst := by
  apply List.ext_getElem (by simp [hlen])
  intro i h1 h2
  rw [List.getElem_map, List.getElem_map]
  have hiz : i < (A.zip B).length := by
    simp only [List.length_zip]
    simp only [List.length_map] at h1 h2
    omega
  have hA : i < A.length := by simp only [List.length_map] at h2; omega
  have hB : i < B.length := by simp only [List.length_map] at h1; omega
  have hm : (A[i], B[i]) ∈ A.zip B := by
    have hz := List.getElem_zip (h := hiz)
    rw [← hz]
    exact List.getElem_mem _
  exact (h _ hm).symm

/-- Structural wellformedness of one member type reference in a fixed record:
the inner check `fixedNonUnionF` performs per member. -/
def typeFixedF (fuel : ℕ) (env : List Metadata) : TypeRef → Bool
  | .prim _ => true
  | .sub j =>
    match env[j]? with
    | some m => fixedNonUnionF fuel env m
    | none => false

theorem fixedNonUnionF_elim (fuel : ℕ) (env : List Metadata) (meta : Metadata)
    (h : fixedNonUnionF (fuel + 1) env meta = true) :
    meta.options.isUnion = false ∧
    ∀ nm ∈ meta.members,
      (match nm.2.length with | some (.inr _) => true | _ => false) = false ∧
      typeFixedF fuel env nm.2.type = true := by
  unfold fixedNonUnionF at h
  rw [Bool.and_eq_true] at h
  refine ⟨by simpa using h.1, ?_⟩
  intro nm hnm
  have h2 := List.all_eq_true.mp h.2 nm hnm
  rcases hl : nm.2.length with _ | nl
  · rw [hl] at h2
    refine ⟨rfl, ?_⟩
    rcases ht : nm.2.type with p | j
    · rfl
    · rw [ht] at h2
      exact h2
  · rcases nl with n | s
    · rw [hl] at h2
      refine ⟨rfl, ?_⟩
      rcases ht : nm.2.type with p | j
      · rfl
      · rw [ht] at h2
        exact h2
    · rw [hl] at h2
      simp at h2

theorem wfElem_prim (fuel : ℕ) (env : List Metadata) (p : PrimT) (val : Value)
    (h : wfElemWith (wfF fuel env) env (.prim p) val = true) :
    ∃ z, val = .num z ∧ primInRangeB p z = true := by
  unfold wfElemWith at h
  rcases val with z | vs | fl
  · exact ⟨z, rfl, h⟩
  · simp at h
  · simp at h

theorem wfElem_sub (fuel : ℕ) (env : List Metadata) (j : ℕ) (val : Value)
    (h : wfElemWith (wfF fuel env) env (.sub j) val = true) :
    ∃ mj, env[j]? = some mj ∧ wfF fuel env mj val = true := by
  have h2 : (match env[j]? with
    | some m => wfF fuel env m val
    | none => false) = true := h
  rcases hj : env[j]? with _ | mj
  · rw [hj] at h2
    simp at h2
  · rw [hj] at h2
    exact ⟨mj, rfl, h2⟩

/-! ## The element-level byte view of `serialize` (claims C1, C6, C10) -/

theorem mem_of_getElem? {α : Type} (l : List α) (j : ℕ) (a : α)
    (h : l[j]? = some a) : a ∈ l := by
  have hj : j < l.length := by
    by_contra hc
    rw [List.getElem?_eq_none (by omega)] at h
    simp at h
  rw [List.getElem?_eq_getElem hj] at h
  injection h with h2
  rw [← h2]
  exact List.getElem_mem hj

/-- The number of elements `serialize`/`deserialize` iterate for one fixed
member (`length.natAbs` of the resolved member length: one for a scalar, the
declared count for a fixed-length array member). -/
def elemCount : LenSpec → ℕ
  | none => 1
  | some (.inl n) => n
  | some (.inr _) => 0

/-- Element `i` of a member's value: the value itself for a scalar member,
the `i`-th array entry for an array member. -/
def elemAt (v : Value) (len : LenSpec) (i : ℕ) : Value :=
  match len with
  | some (.inl _) =>
    match v with
    | .arr vs => vs.getD i (.num 0)
    | _ => v
  | _ => v

/-- The byte string `serialize` lays down for one element of a member of type
`t` holding the (well-formed) value `v`: the wrapped primitive encoding
(lines 544-579), or the nested record's serialization (line 545). -/
def elemSer (fuel : ℕ) (env : List Metadata) (le : Bool) (t : TypeRef)
    (v : Value) : Except Err (List ℕ) :=
  match t with
  | .prim p => (coerceNum p (some v)).map (encodePrim p le)
  | .sub j => serializeF fuel env (env.getD j default) v

/-- Every element extent of the member `m` (holding `val`) lies inside `buf`
and carries exactly the element's serialized bytes. -/
def memberSlicesOK (fuel : ℕ) (env : List Metadata) (le : Bool)
    (buf : List ℕ) (m : Member) (val : Value) : Prop :=
  ∀ i, i < elemCount m.length →
    ∃ eb, elemSer fuel env le m.type (elemAt val m.length i) = .ok eb ∧
      m.staticOffset + sizeofRef env m.type * i + sizeofRef env m.type ≤
        buf.length ∧
      readSlice buf (m.staticOffset + sizeofRef env m.type * i)
        (sizeofRef env m.type) = eb

/-- `memberSlicesOK` for every member/field pair, positionally. -/
def slicesOK (fuel : ℕ) (env : List Metadata) (le : Bool) (buf : List ℕ) :
    List (String × Member) → List (String × Value) → Prop
  | [], _ => True
  | _ :: _, [] => False
  | nm :: ms, fv :: fs =>
    memberSlicesOK fuel env le buf nm.2 fv.2 ∧ slicesOK fuel env le buf ms fs

/-- The round-trip property at a given recursion depth: a genuine fixed
non-union record serializes to exactly `staticSize` bytes, and
deserializing them into any well-formed instance recovers the original. -/
def RoundtripP (fuel : ℕ) : Prop :=
  ∀ (env : List Metadata) (meta : Metadata) (r r0 : Value),
    env.all (metaOKB env) = true →
    metaOKB env meta = true →
    fixedNonUnionF fuel env meta = true →
    wfF fuel env meta r = true →
    wfF fuel env meta r0 = true →
    ∃ bytes, serializeF fuel env meta r = .ok bytes ∧
      bytes.length = meta.staticSize ∧
      deserializeF fuel env meta r0 bytes = .ok r

/-- Facts about one well-formed element: its serialization succeeds, has the
type's width, and (for a nested record) deserializes back into any
well-formed target. -/
theorem elemFacts (fuel : ℕ) (env : List Metadata) (le : Bool) (t : TypeRef)
    (val : Value) (IH : RoundtripP fuel)
    (henv : env.all (metaOKB env) = true)
    (hft : typeFixedF fuel env t = true)
    (hwf : wfElemWith (wfF fuel env) env t val = true) :
    ∃ eb, elemSer fuel env le t val = .ok eb ∧ eb.length = sizeofRef env t ∧
      (∀ p, t = .prim p → ∃ z, val = .num z ∧ primInRangeB p z = true ∧
        coerceNum p (some val) = .ok z ∧ eb = encodePrim p le z) ∧
      (∀ j, t = .sub j → truthy (some val) = true ∧
        ∀ val0, wfElemWith (wfF fuel env) env t val0 = true →
          deserializeF fuel env (env.getD j default) val0 eb = .ok val) := by
  cases t with
  | prim p =>
    obtain ⟨z, rfl, hrange⟩ := wfElem_prim fuel env p val hwf
    have hco : coerceNum p (some (.num z)) = .ok z := by
      cases p <;> rfl
    refine ⟨encodePrim p le z, ?_, length_encodePrim p le z, ?_, ?_⟩
    · show (coerceNum p (some (.num z))).map (encodePrim p le) = _
      rw [hco]
      rfl
    · intro p' hp'
      injection hp' with he
      subst he
      exact ⟨z, rfl, hrange, hco, rfl⟩
    · intro j hj
      exact absurd hj (by simp)
  | sub j =>
    obtain ⟨mj, hj, hwfv⟩ := wfElem_sub fuel env j val hwf
    have hgetD : env.getD j default = mj := by
      rw [List.getD_eq_getElem?_getD, hj]
      rfl
    have hmem : mj ∈ env := mem_of_getElem? env j mj hj
    have hok : metaOKB env mj = true := List.all_eq_true.mp henv mj hmem
    have hfx : fixedNonUnionF fuel env mj = true := by
      have h2 : (match env[j]? with
        | some m => fixedNonUnionF fuel env m
        | none => false) = true := hft
      rw [hj] at h2
      exact h2
    obtain ⟨fl, rfl⟩ := wfF_is_obj fuel env mj val hwfv
    obtain ⟨bytes, hser, hlen, _⟩ :=
      IH env mj (.obj fl) (.obj fl) henv hok hfx hwfv hwfv
    refine ⟨bytes, ?_, ?_, ?_, ?_⟩
    · show serializeF fuel env (env.getD j default) (.obj fl) = .ok bytes
      rw [hgetD]
      exact hser
    · show bytes.length = (env.getD j default).staticSize
      rw [hgetD]
      exact hlen
    · intro p hp
      exact absurd hp (by simp)
    · intro j' hj'
      injection hj' with he
      subst he
      refine ⟨rfl, ?_⟩
      intro val0 hwf0
      obtain ⟨mj', hj2, hwfv0⟩ := wfElem_sub fuel env j val0 hwf0
      rw [hj] at hj2
      injection hj2 with he2
      subst he2
      obtain ⟨bytes0, hser0, _, hdes0⟩ :=
        IH env mj (.obj fl) val0 henv hok hfx hwfv hwfv0
      have hbe : bytes = bytes0 := by
        have h3 := hser.symm.trans hser0
        injection h3
      rw [hgetD, hbe]
      exact hdes0

/-- A fold over `List.range cnt` whose every step splices `g i` at
`off + sz * i` into a length-`T` buffer: it succeeds, keeps the length,
changes nothing outside `[off, off + sz * cnt)`, and afterwards each element
extent reads back `g i`. -/
theorem range_fold_writes (F : List ℕ → ℕ → Except Err (List ℕ))
    (g : ℕ → List ℕ) (off sz T : ℕ) :
    ∀ (cnt : ℕ),
      (∀ i, i < cnt → ∀ buf : List ℕ, buf.length = T →
        F buf i = .ok (writeBytes buf (off + sz * i) (g i))) →
      (∀ i, i < cnt → (g i).length = sz) →
      (∀ i, i < cnt → off + sz * i + sz ≤ T) →
      ∀ buf : List ℕ, buf.length = T →
      ∃ buf', (List.range cnt).foldlM F buf = .ok buf' ∧ buf'.length = T ∧
        (∀ p, (p < off ∨ off + sz * cnt ≤ p) → buf'[p]? = buf[p]?) ∧
        (∀ i, i < cnt → readSlice buf' (off + sz * i) sz = g i) := by
  intro cnt
  induction cnt with
  | zero =>
    intro _ _ _ buf hT
    exact ⟨buf, rfl, hT, fun p _ => rfl, fun i hi => absurd hi (by omega)⟩
  | succ n ih =>
    intro hF hg hb buf hT
    have hmul : sz * (n + 1) = sz * n + sz := by ring
    obtain ⟨buf1, hfold, hlen1, hpres1, hsl1⟩ := ih
      (fun i hi => hF i (by omega)) (fun i hi => hg i (by omega))
      (fun i hi => hb i (by omega)) buf hT
    rw [List.range_succ, List.foldlM_append, hfold]
    simp only [ok_bind, List.foldlM_cons, List.foldlM_nil]
    rw [hF n (by omega) buf1 hlen1]
    simp only [ok_bind]
    refine ⟨writeBytes buf1 (off + sz * n) (g n), rfl, ?_, ?_, ?_⟩
    · rw [length_writeBytes]
      exact hlen1
    · intro p hp
      have hglen : (g n).length = sz := hg n (by omega)
      rw [getElem?_writeBytes, hglen, if_neg (by omega)]
      exact hpres1 p (by omega)
    · intro i hi
      rcases Nat.lt_succ_iff_lt_or_eq.mp hi with hlt | heq
      · have hle : sz * (i + 1) ≤ sz * n := Nat.mul_le_mul_left sz hlt
        have hmul2 : sz * (i + 1) = sz * i + sz := by ring
        rw [readSlice_writeBytes_left _ _ _ _ _ (by omega)]
        exact hsl1 i hlt
      · subst heq
        have hself := readSlice_writeBytes_self buf1 (off + sz * i) (g i)
          (by rw [hg i (by omega), hlen1]; exact hb i (by omega))
        rw [hg i (by omega)] at hself
        exact hself

theorem elemCount_size (env : List Metadata) (t : TypeRef) (len : LenSpec)
    (hnotr : (match len with | some (.inr _) => true | _ => false) = false) :
    sizeofRef env t * elemCount len ≤ memberSizeOf env t len := by
  rcases len with _ | nl
  · exact le_refl _
  · rcases nl with n | s
    · show sizeofRef env t * n ≤ sizeofRef env t * (if n = 0 then 1 else n)
      by_cases hn : n = 0
      · subst hn
        simp
      · rw [if_neg hn]
    · simp at hnotr

/-- Serializing one fixed member of a well-formed instance: the write loop
succeeds, keeps the buffer length, touches only the member's extent, and
leaves each element's serialized bytes at that element's offsets. -/
theorem serMember (fuel : ℕ) (env : List Metadata) (le : Bool) (v : Value)
    (T : ℕ) (IH : RoundtripP fuel)
    (henv : env.all (metaOKB env) = true)
    (F : List ℕ → String × Member → Except Err (List ℕ))
    (hF : ∀ (buf : List ℕ) (nm : String × Member),
      F buf nm = do
        let len ← memberLength v nm.2.length
        (List.range len.natAbs).foldlM
          (fun buf i => do
            let value ← elemValue v nm.1 len i
            match nm.2.type with
            | .sub j => do
              let bytes ←
                if truthy value then
                  match value with
                  | some sub => serializeF fuel env (env.getD j default) sub
                  | none => .ok (List.replicate (sizeofRef env nm.2.type) 0)
                else .ok (List.replicate (sizeofRef env nm.2.type) 0)
              .ok (writeBytes buf
                (nm.2.staticOffset + sizeofRef env nm.2.type * i) bytes)
            | .prim p => do
              let z ← coerceNum p value
              .ok (writeBytes buf
                (nm.2.staticOffset + sizeofRef env nm.2.type * i)
                (encodePrim p le z)))
          buf)
    (name : String) (m : Member) (fv2 : Value)
    (hlook : vLookup v name = some fv2)
    (hft : typeFixedF fuel env m.type = true)
    (hwfp : wfPair fuel env m fv2)
    (hbound : m.staticOffset + memberSizeOf env m.type m.length ≤ T) :
    ∀ buf : List ℕ, buf.length = T →
    ∃ buf2, F buf (name, m) = .ok buf2 ∧ buf2.length = T ∧
      (∀ p, p < m.staticOffset ∨
        m.staticOffset + memberSizeOf env m.type m.length ≤ p →
        buf2[p]? = buf[p]?) ∧
      memberSlicesOK fuel env le buf2 m fv2 := by
  intro buf hT
  rcases hlen : m.length with _ | nl
  case none =>
    rw [hlen] at hbound
    have hms : memberSizeOf env m.type none = sizeofRef env m.type * 1 := rfl
    have helem : wfElemWith (wfF fuel env) env m.type fv2 = true := by
      unfold wfPair at hwfp
      rw [hlen] at hwfp
      exact hwfp
    obtain ⟨eb, hebser, heblen, hprim, hsub⟩ :=
      elemFacts fuel env le m.type fv2 IH henv hft helem
    have hstep : ∀ i, i < 1 → ∀ buf2 : List ℕ, buf2.length = T →
        (do
          let value ← elemValue v name (-1) i
          match m.type with
          | .sub j => do
            let bytes ←
              if truthy value then
                match value with
                | some sub => serializeF fuel env (env.getD j default) sub
                | none => .ok (List.replicate (sizeofRef env m.type) 0)
              else .ok (List.replicate (sizeofRef env m.type) 0)
            .ok (writeBytes buf2
              (m.staticOffset + sizeofRef env m.type * i) bytes)
          | .prim p => do
            let z ← coerceNum p value
            .ok (writeBytes buf2 (m.staticOffset + sizeofRef env m.type * i)
              (encodePrim p le z))) =
        .ok (writeBytes buf2 (m.staticOffset + sizeofRef env m.type * i) eb) := by
      intro i hi buf2 hT2
      have hi0 : i = 0 := by omega
      subst hi0
      have hev : elemValue v name (-1) 0 = .ok (some fv2) := by
        unfold elemValue
        rw [if_pos rfl, hlook]
      rw [hev, ok_bind]
      rcases ht : m.type with p | j
      · obtain ⟨z, hz, _, hco, hebz⟩ := hprim p ht
        show (do
          let z ← coerceNum p (some fv2)
          .ok (writeBytes buf2 (m.staticOffset + sizeofRef env (.prim p) * 0)
            (encodePrim p le z)) : Except Err (List ℕ)) = _
        rw [hco, ok_bind, hebz]
      · obtain ⟨htr, _⟩ := hsub j ht
        have hser : serializeF fuel env (env.getD j default) fv2 = .ok eb := by
          have h2 := hebser
          rw [ht] at h2
          exact h2
        rw [htr]
        show (do
          let bytes ← serializeF fuel env (env.getD j default) fv2
          .ok (writeBytes buf2 (m.staticOffset + sizeofRef env (.sub j) * 0)
            bytes) : Except Err (List ℕ)) = _
        rw [hser, ok_bind]
    obtain ⟨buf2, hfold, hlen2, hpres2, hsl2⟩ :=
      range_fold_writes _ (fun _ => eb) m.staticOffset (sizeofRef env m.type)
        T 1 hstep (fun _ _ => heblen)
        (fun i hi => by
          have hi0 : i = 0 := by omega
          subst hi0
          have := hms
          omega) buf hT
    refine ⟨buf2, ?_, hlen2, ?_, ?_⟩
    · rw [hF]
      show (do
        let len ← memberLength v m.length
        (List.range len.natAbs).foldlM _ buf : Except Err (List ℕ)) = _
      rw [hlen]
      show (do
        let len ← (Except.ok (-1) : Except Err ℤ)
        (List.range len.natAbs).foldlM _ buf : Except Err (List ℕ)) = _
      rw [ok_bind]
      exact hfold
    · intro p hp
      apply hpres2
      rcases hp with h | h
      · exact Or.inl h
      · right
        have := hms
        omega
    · unfold memberSlicesOK
      intro i hi
      rw [hlen] at hi
      have hi1 : i < 1 := hi
      have hi0 : i = 0 := by omega
      subst hi0
      refine ⟨eb, ?_, ?_, ?_⟩
      · rw [hlen]
        exact hebser
      · rw [hlen2]
        have := hms
        omega
      · exact hsl2 0 (by omega)
  case some =>
    rcases nl with n | s
    case inr =>
      unfold wfPair at hwfp
      rw [hlen] at hwfp
      exact absurd hwfp (by simp)
    case inl =>
      rw [hlen] at hbound
      obtain ⟨vs, hfv, hvslen, helems⟩ : ∃ vs, fv2 = .arr vs ∧ vs.length = n ∧
          ∀ x ∈ vs, wfElemWith (wfF fuel env) env m.type x = true := by
        unfold wfPair at hwfp
        rw [hlen] at hwfp
        exact hwfp
      subst hfv
      have hfacts : ∀ i (hi : i < n),
          ∃ eb, elemSer fuel env le m.type (vs[i]) = .ok eb ∧
            eb.length = sizeofRef env m.type ∧
            (∀ p, m.type = .prim p → ∃ z, (vs[i]) = .num z ∧
              primInRangeB p z = true ∧
              coerceNum p (some (vs[i])) = .ok z ∧
              eb = encodePrim p le z) ∧
            (∀ j, m.type = .sub j →
              truthy (some (vs[i])) = true ∧
              ∀ val0, wfElemWith (wfF fuel env) env m.type val0 = true →
                deserializeF fuel env (env.getD j default) val0 eb =
                  .ok (vs[i])) := by
        intro i hi
        exact elemFacts fuel env le m.type _ IH henv hft
          (helems _ (List.getElem_mem (by omega)))
      have hgetD : ∀ i (hi : i < n), vs.getD i (.num 0) = vs[i] := by
        intro i hi
        rw [List.getD_eq_getElem?_getD, List.getElem?_eq_getElem (by omega)]
        rfl
      obtain ⟨gf, hgf⟩ : ∃ gf : ℕ → List ℕ, ∀ i (hi : i < n),
          elemSer fuel env le m.type (vs[i]) = .ok (gf i) := by
        refine ⟨fun i =>
          match elemSer fuel env le m.type (vs.getD i (.num 0)) with
          | .ok eb => eb
          | .error _ => [], ?_⟩
        intro i hi
        obtain ⟨eb, h1, _⟩ := hfacts i hi
        show elemSer fuel env le m.type (vs[i]) =
          .ok (match elemSer fuel env le m.type (vs.getD i (.num 0)) with
            | .ok eb => eb
            | .error _ => [])
        rw [hgetD i hi, h1]
      have hglen : ∀ i, i < n → (gf i).length = sizeofRef env m.type := by
        intro i hi
        obtain ⟨eb, h1, h2, _⟩ := hfacts i hi
        rw [hgf i hi] at h1
        injection h1 with h3
        rw [h3]
        exact h2
      have hszn : sizeofRef env m.type * n ≤
          memberSizeOf env m.type (some (.inl n)) :=
        elemCount_size env m.type (some (.inl n)) rfl
      have hstep : ∀ i, i < n → ∀ buf2 : List ℕ, buf2.length = T →
          (do
            let value ← elemValue v name ((n : ℕ) : ℤ) i
            match m.type with
            | .sub j => do
              let bytes ←
                if truthy value then
                  match value with
                  | some sub => serializeF fuel env (env.getD j default) sub
                  | none => .ok (List.replicate (sizeofRef env m.type) 0)
                else .ok (List.replicate (sizeofRef env m.type) 0)
              .ok (writeBytes buf2
                (m.staticOffset + sizeofRef env m.type * i) bytes)
            | .prim p => do
              let z ← coerceNum p value
              .ok (writeBytes buf2 (m.staticOffset + sizeofRef env m.type * i)
                (encodePrim p le z))) =
          .ok (writeBytes buf2 (m.staticOffset + sizeofRef env m.type * i)
            (gf i)) := by
        intro i hi buf2 hT2
        have hev : elemValue v name ((n : ℕ) : ℤ) i =
            .ok (some (vs[i])) := by
          unfold elemValue
          rw [if_neg (by omega), hlook]
          show (Except.ok (vs[i]?) : Except Err (Option Value)) = _
          rw [List.getElem?_eq_getElem (by omega)]
        rw [hev, ok_bind]
        obtain ⟨eb, h1, h2, hprim, hsub⟩ := hfacts i hi
        have hebg : gf i = eb := by
          rw [hgf i hi] at h1
          injection h1
        rcases ht : m.type with p | j
        · obtain ⟨z, hz, _, hco, hebz⟩ := hprim p ht
          show (do
            let z ← coerceNum p (some (vs[i]))
            .ok (writeBytes buf2 (m.staticOffset + sizeofRef env (.prim p) * i)
              (encodePrim p le z)) : Except Err (List ℕ)) = _
          rw [hco, ok_bind, ← hebz, hebg]
        · obtain ⟨htr, _⟩ := hsub j ht
          have hser : serializeF fuel env (env.getD j default)
              (vs[i]) = .ok eb := by
            have h3 := h1
            rw [ht] at h3
            exact h3
          rw [htr]
          show (do
            let bytes ← serializeF fuel env (env.getD j default) (vs[i])
            .ok (writeBytes buf2 (m.staticOffset + sizeofRef env (.sub j) * i)
              bytes) : Except Err (List ℕ)) = _
          rw [hser, ok_bind, hebg]
      obtain ⟨buf2, hfold, hlen2, hpres2, hsl2⟩ :=
        range_fold_writes _ gf m.staticOffset (sizeofRef env m.type) T n
          hstep hglen
          (fun i hi => by
            have h1 : sizeofRef env m.type * (i + 1) ≤ sizeofRef env m.type * n :=
              Nat.mul_le_mul_left _ hi
            have h2 : sizeofRef env m.type * (i + 1) =
                sizeofRef env m.type * i + sizeofRef env m.type := by ring
            have h3 := hszn
            omega) buf hT
      refine ⟨buf2, ?_, hlen2, ?_, ?_⟩
      · rw [hF]
        show (do
          let len ← memberLength v m.length
          (List.range len.natAbs).foldlM _ buf : Except Err (List ℕ)) = _
        rw [hlen]
        show (do
          let len ← (Except.ok ((n : ℕ) : ℤ) : Except Err ℤ)
          (List.range len.natAbs).foldlM _ buf : Except Err (List ℕ)) = _
        rw [ok_bind]
        show (List.range (((n : ℕ) : ℤ)).natAbs).foldlM _ buf = _
        rw [Int.natAbs_ofNat]
        exact hfold
      · intro p hp
        apply hpres2
        rcases hp with h | h
        · exact Or.inl h
        · right
          have h3 := hszn
          omega
      · unfold memberSlicesOK
        intro i hi
        rw [hlen] at hi
        have hi' : i < n := hi
        refine ⟨gf i, ?_, ?_, ?_⟩
        · rw [hlen]
          show elemSer fuel env le m.type (vs.getD i (.num 0)) = _
          rw [hgetD i hi']
          exact hgf i hi'
        · rw [hlen2]
          have h1 : sizeofRef env m.type * (i + 1) ≤ sizeofRef env m.type * n :=
            Nat.mul_le_mul_left _ hi'
          have h2 : sizeofRef env m.type * (i + 1) =
              sizeofRef env m.type * i + sizeofRef env m.type := by ring
          have h3 := hszn
          omega
        · exact hsl2 i hi'

/-- The member write loop of `serialize` over a `chained` suffix of the
member list: it succeeds, preserves every byte before the suffix's start, and
establishes `slicesOK` for the suffix. -/
theorem serLoop (fuel : ℕ) (env : List Metadata) (le : Bool) (v : Value)
    (T al : ℕ) (hal : 0 < al) (IH : RoundtripP fuel)
    (henv : env.all (metaOKB env) = true)
    (F : List ℕ → String × Member → Except Err (List ℕ))
    (hF : ∀ (buf : List ℕ) (nm : String × Member),
      F buf nm = do
        let len ← memberLength v nm.2.length
        (List.range len.natAbs).foldlM
          (fun buf i => do
            let value ← elemValue v nm.1 len i
            match nm.2.type with
            | .sub j => do
              let bytes ←
                if truthy value then
                  match value with
                  | some sub => serializeF fuel env (env.getD j default) sub
                  | none => .ok (List.replicate (sizeofRef env nm.2.type) 0)
                else .ok (List.replicate (sizeofRef env nm.2.type) 0)
              .ok (writeBytes buf
                (nm.2.staticOffset + sizeofRef env nm.2.type * i) bytes)
            | .prim p => do
              let z ← coerceNum p value
              .ok (writeBytes buf
                (nm.2.staticOffset + sizeofRef env nm.2.type * i)
                (encodePrim p le z)))
          buf) :
    ∀ (ms : List (String × Member)) (fs : List (String × Value))
      (s total : ℕ) (buf : List ℕ),
      chained env al ms s total →
      total ≤ T →
      buf.length = T →
      ms.length = fs.length →
      (∀ q ∈ ms.zip fs,
        vLookup v q.1.1 = some q.2.2 ∧
        typeFixedF fuel env q.1.2.type = true ∧
        wfPair fuel env q.1.2 q.2.2) →
      ∃ buf', ms.foldlM F buf = .ok buf' ∧ buf'.length = T ∧
        (∀ p, p < s → buf'[p]? = buf[p]?) ∧
        slicesOK fuel env le buf' ms fs := by
  intro ms
  induction ms with
  | nil =>
    intro fs s total buf _ _ hT _ _
    exact ⟨buf, rfl, hT, fun _ _ => rfl, trivial⟩
  | cons hdm tlm ih =>
    intro fs s total buf hch htot hT hlenq hq
    obtain ⟨name, m⟩ := hdm
    rcases fs with _ | ⟨fv, tlf⟩
    · simp at hlenq
    obtain ⟨hoff, hch'⟩ := hch
    obtain ⟨hlook, hft, hwfp⟩ := hq ((name, m), fv)
      (by rw [List.zip_cons_cons]; exact List.mem_cons_self _ _)
    have hnotr : (match m.length with
        | some (.inr _) => true | _ => false) = false := by
      rcases hl2 : m.length with _ | nl
      · rfl
      · rcases nl with n | s2
        · rfl
        · exfalso
          unfold wfPair at hwfp
          rw [hl2] at hwfp
          exact hwfp
    have hcnt := elemCount_size env m.type m.length hnotr
    have hnext_le : align (s + memberSizeOf env m.type m.length) al ≤ total :=
      chained_le env al hal tlm _ _ hch'
    have hs_msize : s + memberSizeOf env m.type m.length ≤
        align (s + memberSizeOf env m.type m.length) al :=
      (align_bounds _ al hal).1
    have hbound : m.staticOffset + memberSizeOf env m.type m.length ≤ T := by
      rw [hoff]
      omega
    obtain ⟨buf2, hstepF, hlen2, hpres2, hslm⟩ :=
      serMember fuel env le v T IH henv F hF name m fv.2 hlook hft hwfp hbound
        buf hT
    obtain ⟨buf', hfold', hlen', hpres', hsl'⟩ :=
      ih tlf (align (s + memberSizeOf env m.type m.length) al) total buf2
        hch' htot hlen2 (by simpa using hlenq)
        (fun q hq2 => hq q
          (by rw [List.zip_cons_cons]; exact List.mem_cons_of_mem _ hq2))
    refine ⟨buf', ?_, hlen', ?_, ?_, ?_⟩
    · rw [List.foldlM_cons, hstepF, ok_bind]
      exact hfold'
    · intro p hp
      rw [hpres' p (by omega)]
      exact hpres2 p (Or.inl (by omega))
    · intro i hi
      obtain ⟨eb, hser, hb, hslice⟩ := hslm i hi
      have hcong : ∀ p, m.staticOffset + sizeofRef env m.type * i ≤ p →
          p < m.staticOffset + sizeofRef env m.type * i +
            sizeofRef env m.type →
          buf'[p]? = buf2[p]? := by
        intro p hp1 hp2
        apply hpres'
        have h1 : sizeofRef env m.type * (i + 1) ≤
            sizeofRef env m.type * elemCount m.length :=
          Nat.mul_le_mul_left _ hi
        have h2 : sizeofRef env m.type * (i + 1) =
            sizeofRef env m.type * i + sizeofRef env m.type := by ring
        rw [hoff] at hp2
        omega
      refine ⟨eb, hser, ?_, ?_⟩
      · rw [hlen']
        rw [hlen2] at hb
        exact hb
      · rw [readSlice_congr buf2 buf' _ _ hcong]
        exact hslice
    · exact hsl'

/-- Top-level success and byte layout of `serialize` on a genuine fixed
non-union record holding a well-formed instance: the output has exactly
`staticSize` bytes and every member element's extent carries that element's
serialized bytes. -/
theorem serializeMain (fuel : ℕ) (env : List Metadata) (meta : Metadata)
    (f : List (String × Value)) (IH : RoundtripP fuel)
    (henv : env.all (metaOKB env) = true)
    (hok : metaOKB env meta = true)
    (hfx : fixedNonUnionF (fuel + 1) env meta = true)
    (hwf : wfF (fuel + 1) env meta (.obj f) = true) :
    ∃ bytes, serializeF (fuel + 1) env meta (.obj f) = .ok bytes ∧
      bytes.length = meta.staticSize ∧
      slicesOK fuel env (!meta.options.bigEndian) bytes meta.members f := by
  obtain ⟨hnu, hmem⟩ := fixedNonUnionF_elim fuel env meta hfx
  have hnotcnt : ∀ nm ∈ meta.members,
      (match nm.2.length with | some (.inr _) => true | _ => false) = false :=
    fun nm h => (hmem nm h).1
  have hdyn := metaOK_not_dynamic env meta hok hnotcnt
  obtain ⟨hnd, hlenf, hzip⟩ := wfF_elim fuel env meta f hwf
  have hchain := metaOK_chained env meta hok hnu hnd
  have hsizeof := sizeofInst_fixed env meta (.obj f) hnotcnt
  have hfnd : (f.map Prod.fst).Nodup := by
    rw [zip_names_eq meta.members f hlenf (fun q hq => (hzip q hq).1)]
    exact hnd
  obtain ⟨buf', hfold, hlen', hpres, hsl⟩ :=
    serLoop fuel env (!meta.options.bigEndian) (.obj f) meta.staticSize
      meta.options.effAlign (effAlign_pos _) IH henv
      (fun buf nm => do
        let len ← memberLength (.obj f) nm.2.length
        (List.range len.natAbs).foldlM
          (fun buf i => do
            let value ← elemValue (.obj f) nm.1 len i
            match nm.2.type with
            | .sub j => do
              let bytes ←
                if truthy value then
                  match value with
                  | some sub => serializeF fuel env (env.getD j default) sub
                  | none => .ok (List.replicate (sizeofRef env nm.2.type) 0)
                else .ok (List.replicate (sizeofRef env nm.2.type) 0)
              .ok (writeBytes buf
                (nm.2.staticOffset + sizeofRef env nm.2.type * i) bytes)
            | .prim p => do
              let z ← coerceNum p value
              .ok (writeBytes buf
                (nm.2.staticOffset + sizeofRef env nm.2.type * i)
                (encodePrim p (!meta.options.bigEndian) z)))
          buf)
      (fun _ _ => rfl)
      meta.members f 0 meta.staticSize (List.replicate meta.staticSize 0)
      hchain (le_refl _) (by simp) hlenf.symm
      (fun q hq => by
        obtain ⟨hin1, hin2⟩ := List.of_mem_zip hq
        refine ⟨?_, (hmem q.1 hin1).2, (hzip q hq).2⟩
        show f.lookup q.1.1 = some q.2.2
        rw [(hzip q hq).1]
        exact lookup_eq_of_mem f q.2.1 q.2.2 hfnd
          (by rw [← Prod.mk.eta (p := q.2)] at hin2; exact hin2))
  refine ⟨buf', ?_, hlen', hsl⟩
  show (do
    let size ← sizeofInst env meta (.obj f)
    if size < 0 then .error .rangeError
    else do
      let offs ← if meta.isDynamic then
          (dynamicOffsets env meta (.obj f)).map some
        else .ok none
      meta.members.foldlM
        (fun buf (nm : String × Member) => do
          let name := nm.1
          let m := nm.2
          let len ← memberLength (.obj f) m.length
          let off := match offs with
            | some os => (os.lookup name).getD 0
            | none => m.staticOffset
          (List.range len.natAbs).foldlM
            (fun buf i => do
              let iOff := off + sizeofRef env m.type * i
              let value ← elemValue (.obj f) name len i
              match m.type with
              | .sub j => do
                let bytes ←
                  if truthy value then
                    match value with
                    | some sub => serializeF fuel env (env.getD j default) sub
                    | none => .ok (List.replicate (sizeofRef env m.type) 0)
                  else .ok (List.replicate (sizeofRef env m.type) 0)
                .ok (writeBytes buf iOff bytes)
              | .prim p => do
                let z ← coerceNum p value
                .ok (writeBytes buf iOff
                  (encodePrim p (!meta.options.bigEndian) z)))
            buf)
        (List.replicate size.toNat 0) : Except Err (List ℕ)) = .ok buf'
  rw [hsizeof, ok_bind, if_neg (by omega), hdyn]
  simp only [Bool.false_eq_true, if_false, ok_bind]
  show meta.members.foldlM _ (List.replicate ((meta.staticSize : ℤ)).toNat 0) =
    .ok buf'
  rw [Int.toNat_natCast]
  exact hfold

theorem foldlM_singleton {α β : Type} (g : β → α → Except Err β) (b : β)
    (a : α) (res : β) (h : g b a = .ok res) : [a].foldlM g b = .ok res := by
  simp only [List.foldlM_cons, List.foldlM_nil, h, ok_bind]
  rfl

/-- Deserializing one fixed member into an instance whose already-processed
fields (`A`) are final and whose current field holds the target instance's
value: the member's field is overwritten with the bytes' decoded value. -/
theorem deserMember (fuel : ℕ) (env : List Metadata) (meta : Metadata)
    (buf : List ℕ) (IH : RoundtripP fuel)
    (henv : env.all (metaOKB env) = true)
    (hdyn : meta.isDynamic = false)
    (Fd : Value → String × Member → Except Err Value)
    (hFd : ∀ (inst : Value) (nm : String × Member),
      Fd inst nm = do
        let len ← memberLength inst nm.2.length
        (List.range len.natAbs).foldlM
          (fun inst i => do
            let off ← offsetofInst env meta inst nm.1
            match nm.2.type with
            | .sub j => do
              let child ←
                if len = -1 then .ok (vLookup inst nm.1)
                else
                  match vLookup inst nm.1 with
                  | none => .error .typeErr
                  | some (.arr vs) => .ok vs[i]?
                  | some _ => .ok none
              match child with
              | none => .ok inst
              | some c => do
                let c' ← deserializeF fuel env (env.getD j default) c
                  (readSlice buf (off + sizeofRef env nm.2.type * i)
                    (sizeofRef env nm.2.type))
                if len = -1 then .ok (vSetField inst nm.1 c')
                else
                  match vLookup inst nm.1 with
                  | some (.arr vs) =>
                    .ok (vSetField inst nm.1 (.arr (setIdx vs i c')))
                  | _ => .ok inst
            | .prim p => do
              let z ← decodePrim buf (off + sizeofRef env nm.2.type * i) p
                (!meta.options.bigEndian)
              if len = -1 then .ok (vSetField inst nm.1 (.num z))
              else
                match vLookup inst nm.1 with
                | none => .ok inst
                | some (.arr vs) =>
                  .ok (vSetField inst nm.1 (.arr (setIdx vs i (.num z))))
                | some (.num _) => .error .typeErr
                | some (.obj _) => .ok inst)
          inst)
    (name : String) (m : Member) (rval v0val : Value)
    (hlookupM : meta.members.lookup name = some m)
    (hft : typeFixedF fuel env m.type = true)
    (hwfR : wfPair fuel env m rval)
    (hwf0 : wfPair fuel env m v0val)
    (hslices : memberSlicesOK fuel env (!meta.options.bigEndian) buf m rval)
    (A B : List (String × Value))
    (hnA : name ∉ A.map Prod.fst) :
    Fd (.obj (A ++ (name, v0val) :: B)) (name, m) =
      .ok (.obj (A ++ (name, rval) :: B)) := by
  have hoffI : ∀ inst, offsetofInst env meta inst name = .ok m.staticOffset := by
    intro inst
    unfold offsetofInst
    rw [hdyn]
    simp only [Bool.false_eq_true, if_false, hlookupM]
  have hlookA : ∀ x : Value,
      vLookup (.obj (A ++ (name, x) :: B)) name = some x := by
    intro x
    show (A ++ (name, x) :: B).lookup name = some x
    exact lookup_append_cons A name x B hnA
  have hsetA : ∀ x y : Value,
      vSetField (.obj (A ++ (name, x) :: B)) name y =
        .obj (A ++ (name, y) :: B) := by
    intro x y
    show Value.obj (setField (A ++ (name, x) :: B) name y) = _
    rw [setField_append_cons A name x y B hnA]
  rw [hFd]
  rcases hlen : m.length with _ | nl
  case none =>
    have helemR : wfElemWith (wfF fuel env) env m.type rval = true := by
      unfold wfPair at hwfR
      rw [hlen] at hwfR
      exact hwfR
    have helem0 : wfElemWith (wfF fuel env) env m.type v0val = true := by
      unfold wfPair at hwf0
      rw [hlen] at hwf0
      exact hwf0
    obtain ⟨eb, hebser, hbnd, hslice⟩ := hslices 0
      (by rw [hlen]; exact Nat.one_pos)
    rw [hlen] at hebser
    show (do
      let len ← memberLength (Value.obj (A ++ (name, v0val) :: B)) none
      (List.range len.natAbs).foldlM _ (Value.obj (A ++ (name, v0val) :: B)) :
        Except Err Value) = _
    show (do
      let len ← (Except.ok (-1) : Except Err ℤ)
      (List.range len.natAbs).foldlM _ (Value.obj (A ++ (name, v0val) :: B)) :
        Except Err Value) = _
    rw [ok_bind]
    show (List.range 1).foldlM _ (Value.obj (A ++ (name, v0val) :: B)) = _
    rw [show List.range 1 = [0] from by simp [List.range_succ]]
    have hstep : (do
        let off ← offsetofInst env meta (Value.obj (A ++ (name, v0val) :: B))
          name
        match m.type with
        | .sub j => do
          let child ←
            if (-1 : ℤ) = -1 then
              .ok (vLookup (Value.obj (A ++ (name, v0val) :: B)) name)
            else
              match vLookup (Value.obj (A ++ (name, v0val) :: B)) name with
              | none => .error .typeErr
              | some (.arr vs) => .ok vs[0]?
              | some _ => .ok none
          match child with
          | none => .ok (Value.obj (A ++ (name, v0val) :: B))
          | some c => do
            let c' ← deserializeF fuel env (env.getD j default) c
              (readSlice buf (off + sizeofRef env m.type * 0)
                (sizeofRef env m.type))
            if (-1 : ℤ) = -1 then
              .ok (vSetField (Value.obj (A ++ (name, v0val) :: B)) name c')
            else
              match vLookup (Value.obj (A ++ (name, v0val) :: B)) name with
              | some (.arr vs) =>
                .ok (vSetField (Value.obj (A ++ (name, v0val) :: B)) name
                  (.arr (setIdx vs 0 c')))
              | _ => .ok (Value.obj (A ++ (name, v0val) :: B))
        | .prim p => do
          let z ← decodePrim buf (off + sizeofRef env m.type * 0) p
            (!meta.options.bigEndian)
          if (-1 : ℤ) = -1 then
            .ok (vSetField (Value.obj (A ++ (name, v0val) :: B)) name (.num z))
          else
            match vLookup (Value.obj (A ++ (name, v0val) :: B)) name with
            | none => .ok (Value.obj (A ++ (name, v0val) :: B))
            | some (.arr vs) =>
              .ok (vSetField (Value.obj (A ++ (name, v0val) :: B)) name
                (.arr (setIdx vs 0 (.num z))))
            | some (.num _) => .error .typeErr
            | some (.obj _) => .ok (Value.obj (A ++ (name, v0val) :: B)) :
        Except Err Value) =
        .ok (Value.obj (A ++ (name, rval) :: B)) := by
      rw [hoffI, ok_bind]
      rcases ht : m.type with p | j
      · obtain ⟨z, hz, hrange⟩ := wfElem_prim fuel env p rval
          (by rw [ht] at helemR; exact helemR)
        have hebz : eb = encodePrim p (!meta.options.bigEndian) z := by
          rw [ht] at hebser
          subst hz
          have hco : coerceNum p (some (Value.num z)) = .ok z := by
            cases p <;> rfl
          have h2 : (coerceNum p (some (Value.num z))).map
              (encodePrim p (!meta.options.bigEndian)) = .ok eb := hebser
          rw [hco] at h2
          have h3 : Except.ok (encodePrim p (!meta.options.bigEndian) z) =
              (Except.ok eb : Except Err (List ℕ)) := h2
          injection h3 with h4
          exact h4.symm
        have hdec : decodePrim buf
            (m.staticOffset + sizeofRef env (.prim p) * 0) p
            (!meta.options.bigEndian) = .ok z := by
          apply decodePrim_of_slice p _ z _ _ ?hb ?hs hrange
          case hb =>
            rw [ht] at hbnd
            have hpr : sizeofRef env (.prim p) = p.size := rfl
            show m.staticOffset + sizeofRef env (.prim p) * 0 + p.size ≤ _
            omega
          case hs =>
            rw [ht] at hslice
            rw [← hebz]
            exact hslice
        show (do
          let z ← decodePrim buf
            (m.staticOffset + sizeofRef env (.prim p) * 0) p
            (!meta.options.bigEndian)
          if (-1 : ℤ) = -1 then
            .ok (vSetField (Value.obj (A ++ (name, v0val) :: B)) name (.num z))
          else
            match vLookup (Value.obj (A ++ (name, v0val) :: B)) name with
            | none => .ok (Value.obj (A ++ (name, v0val) :: B))
            | some (.arr vs) =>
              .ok (vSetField (Value.obj (A ++ (name, v0val) :: B)) name
                (.arr (setIdx vs 0 (.num z))))
            | some (.num _) => .error .typeErr
            | some (.obj _) => .ok (Value.obj (A ++ (name, v0val) :: B)) :
          Except Err Value) = _
        rw [hdec, ok_bind, if_pos rfl, hsetA, ← hz]
      · obtain ⟨eb2, hser2, _, _, hsub2⟩ :=
          elemFacts fuel env (!meta.options.bigEndian) m.type rval IH henv hft
            helemR
        have hebe : eb = eb2 := by
          have hebser3 : elemSer fuel env (!meta.options.bigEndian) m.type
              rval = .ok eb := hebser
          rw [hebser3] at hser2
          injection hser2
        obtain ⟨_, hdeser⟩ := hsub2 j ht
        rw [ht] at hslice
        show (do
          let child ←
            if (-1 : ℤ) = -1 then
              .ok (vLookup (Value.obj (A ++ (name, v0val) :: B)) name)
            else
              match vLookup (Value.obj (A ++ (name, v0val) :: B)) name with
              | none => .error .typeErr
              | some (.arr vs) => .ok vs[0]?
              | some _ => .ok none
          match child with
          | none => .ok (Value.obj (A ++ (name, v0val) :: B))
          | some c => do
            let c' ← deserializeF fuel env (env.getD j default) c
              (readSlice buf (m.staticOffset + sizeofRef env (.sub j) * 0)
                (sizeofRef env (.sub j)))
            if (-1 : ℤ) = -1 then
              .ok (vSetField (Value.obj (A ++ (name, v0val) :: B)) name c')
            else
              match vLookup (Value.obj (A ++ (name, v0val) :: B)) name with
              | some (.arr vs) =>
                .ok (vSetField (Value.obj (A ++ (name, v0val) :: B)) name
                  (.arr (setIdx vs 0 c')))
              | _ => .ok (Value.obj (A ++ (name, v0val) :: B)) :
          Except Err Value) = _
        rw [if_pos rfl, hlookA, ok_bind]
        show (do
          let c' ← deserializeF fuel env (env.getD j default) v0val
            (readSlice buf (m.staticOffset + sizeofRef env (.sub j) * 0)
              (sizeofRef env (.sub j)))
          if (-1 : ℤ) = -1 then
            .ok (vSetField (Value.obj (A ++ (name, v0val) :: B)) name c')
          else
            match vLookup (Value.obj (A ++ (name, v0val) :: B)) name with
            | some (.arr vs) =>
              .ok (vSetField (Value.obj (A ++ (name, v0val) :: B)) name
                (.arr (setIdx vs 0 c')))
            | _ => .ok (Value.obj (A ++ (name, v0val) :: B)) :
          Except Err Value) = _
        rw [hslice, hebe, hdeser v0val helem0, ok_bind, if_pos rfl, hsetA]
    exact foldlM_singleton _ _ _ _ hstep
  case some =>
    rcases nl with n | s2
    case inr =>
      exfalso
      unfold wfPair at hwfR
      rw [hlen] at hwfR
      exact hwfR
    case inl =>
      obtain ⟨vsR, hfvR, hvsRlen, helemsR⟩ : ∃ vs, rval = .arr vs ∧
          vs.length = n ∧
          ∀ x ∈ vs, wfElemWith (wfF fuel env) env m.type x = true := by
        unfold wfPair at hwfR
        rw [hlen] at hwfR
        exact hwfR
      obtain ⟨vs0, hfv0, hvs0len, helems0⟩ : ∃ vs, v0val = .arr vs ∧
          vs.length = n ∧
          ∀ x ∈ vs, wfElemWith (wfF fuel env) env m.type x = true := by
        unfold wfPair at hwf0
        rw [hlen] at hwf0
        exact hwf0
      subst hfvR
      subst hfv0
      have hgetDR : ∀ i (hi : i < n), vsR.getD i (.num 0) = vsR[i] := by
        intro i hi
        rw [List.getD_eq_getElem?_getD, List.getElem?_eq_getElem (by omega)]
        rfl
      have htake : ∀ k, k < n → (vsR.take k).length = k := by
        intro k hk
        rw [List.length_take]
        omega
      have hstep : ∀ k, k < n → ∀ mix : List Value,
          mix = vsR.take k ++ vs0.drop k →
          (do
            let off ← offsetofInst env meta
              (Value.obj (A ++ (name, Value.arr mix) :: B)) name
            match m.type with
            | .sub j => do
              let child ←
                if ((n : ℕ) : ℤ) = -1 then
                  .ok (vLookup (Value.obj (A ++ (name, Value.arr mix) :: B))
                    name)
                else
                  match vLookup (Value.obj (A ++ (name, Value.arr mix) :: B))
                      name with
                  | none => .error .typeErr
                  | some (.arr vs) => .ok vs[k]?
                  | some _ => .ok none
              match child with
              | none => .ok (Value.obj (A ++ (name, Value.arr mix) :: B))
              | some c => do
                let c' ← deserializeF fuel env (env.getD j default) c
                  (readSlice buf (off + sizeofRef env m.type * k)
                    (sizeofRef env m.type))
                if ((n : ℕ) : ℤ) = -1 then
                  .ok (vSetField (Value.obj (A ++ (name, Value.arr mix) :: B))
                    name c')
                else
                  match vLookup (Value.obj (A ++ (name, Value.arr mix) :: B))
                      name with
                  | some (.arr vs) =>
                    .ok (vSetField
                      (Value.obj (A ++ (name, Value.arr mix) :: B)) name
                      (.arr (setIdx vs k c')))
                  | _ => .ok (Value.obj (A ++ (name, Value.arr mix) :: B))
            | .prim p => do
              let z ← decodePrim buf (off + sizeofRef env m.type * k) p
                (!meta.options.bigEndian)
              if ((n : ℕ) : ℤ) = -1 then
                .ok (vSetField (Value.obj (A ++ (name, Value.arr mix) :: B))
                  name (.num z))
              else
                match vLookup (Value.obj (A ++ (name, Value.arr mix) :: B))
                    name with
                | none => .ok (Value.obj (A ++ (name, Value.arr mix) :: B))
                | some (.arr vs) =>
                  .ok (vSetField (Value.obj (A ++ (name, Value.arr mix) :: B))
                    name (.arr (setIdx vs k (.num z))))
                | some (.num _) => .error .typeErr
                | some (.obj _) =>
                  .ok (Value.obj (A ++ (name, Value.arr mix) :: B)) :
            Except Err Value) =
          .ok (Value.obj (A ++
            (name, Value.arr (vsR.take (k + 1) ++ vs0.drop (k + 1))) :: B)) := by
        intro k hk mix hmix
        have hkR : k < vsR.length := by omega
        have hk0 : k < vs0.length := by omega
        have hmix2 : mix = vsR.take k ++ vs0[k] :: vs0.drop (k + 1) := by
          rw [hmix, List.drop_eq_getElem_cons hk0]
        have hsetIdx : ∀ c' : Value, setIdx mix k c' =
            vsR.take k ++ c' :: vs0.drop (k + 1) := by
          intro c'
          rw [hmix2]
          have h2 := setIdx_append (vsR.take k) (vs0[k]) c' (vs0.drop (k + 1))
          rw [htake k hk] at h2
          exact h2
        have hmixk : mix[k]? = some (vs0[k]) := by
          rw [hmix2, List.getElem?_append_right (by rw [htake k hk])]
          rw [htake k hk]
          simp
        have htail : vsR.take k ++ (vsR[k]) :: vs0.drop (k + 1) =
            vsR.take (k + 1) ++ vs0.drop (k + 1) := by
          rw [← List.take_concat_get' vsR k hkR]
          rw [List.append_assoc]
          rfl
        obtain ⟨eb, hebser, hbnd, hslice⟩ := hslices k (by rw [hlen]; exact hk)
        rw [hlen] at hebser
        have hebser2 : elemSer fuel env (!meta.options.bigEndian) m.type
            (vsR[k]) = .ok eb := by
          have h2 : elemAt (Value.arr vsR) (some (.inl n)) k =
              vsR[k] := by
            show vsR.getD k (.num 0) = _
            exact hgetDR k hk
          rw [← h2]
          exact hebser
        rw [hoffI, ok_bind]
        rcases ht : m.type with p | j
        · obtain ⟨z, hz, hrange⟩ := wfElem_prim fuel env p (vsR[k])
            (by have h5 := helemsR _ (List.getElem_mem hkR)
                rw [ht] at h5
                exact h5)
          have hebz : eb = encodePrim p (!meta.options.bigEndian) z := by
            rw [ht] at hebser2
            rw [hz] at hebser2
            have hco : coerceNum p (some (Value.num z)) = .ok z := by
              cases p <;> rfl
            have h2 : (coerceNum p (some (Value.num z))).map
                (encodePrim p (!meta.options.bigEndian)) = .ok eb := hebser2
            rw [hco] at h2
            have h3 : Except.ok (encodePrim p (!meta.options.bigEndian) z) =
                (Except.ok eb : Except Err (List ℕ)) := h2
            injection h3 with h4
            exact h4.symm
          have hdec : decodePrim buf
              (m.staticOffset + sizeofRef env (.prim p) * k) p
              (!meta.options.bigEndian) = .ok z := by
            apply decodePrim_of_slice p _ z _ _ ?hb ?hs hrange
            case hb =>
              rw [ht] at hbnd
              have hpr : sizeofRef env (.prim p) = p.size := rfl
              show m.staticOffset + sizeofRef env (.prim p) * k + p.size ≤ _
              omega
            case hs =>
              rw [ht] at hslice
              rw [← hebz]
              exact hslice
          show (do
            let z ← decodePrim buf
              (m.staticOffset + sizeofRef env (.prim p) * k)
              p (!meta.options.bigEndian)
            if ((n : ℕ) : ℤ) = -1 then
              .ok (vSetField (Value.obj (A ++ (name, Value.arr mix) :: B))
                name (.num z))
            else
              match vLookup (Value.obj (A ++ (name, Value.arr mix) :: B))
                  name with
              | none => .ok (Value.obj (A ++ (name, Value.arr mix) :: B))
              | some (.arr vs) =>
                .ok (vSetField (Value.obj (A ++ (name, Value.arr mix) :: B))
                  name (.arr (setIdx vs k (.num z))))
              | some (.num _) => .error .typeErr
              | some (.obj _) =>
                .ok (Value.obj (A ++ (name, Value.arr mix) :: B)) :
            Except Err Value) = _
          rw [hdec, ok_bind, if_neg (by omega), hlookA]
          show Except.ok (vSetField
            (Value.obj (A ++ (name, Value.arr mix) :: B)) name
            (.arr (setIdx mix k (.num z)))) = _
          rw [hsetA, hsetIdx, ← hz, htail]
        · obtain ⟨eb2, hser2, _, _, hsub2⟩ :=
            elemFacts fuel env (!meta.options.bigEndian) m.type (vsR[k])
              IH henv hft (helemsR _ (List.getElem_mem hkR))
          have hebe : eb = eb2 := by
            rw [hebser2] at hser2
            injection hser2
          obtain ⟨_, hdeser⟩ := hsub2 j ht
          rw [ht] at hslice
          show (do
            let child ←
              if ((n : ℕ) : ℤ) = -1 then
                .ok (vLookup (Value.obj (A ++ (name, Value.arr mix) :: B))
                  name)
              else
                match vLookup (Value.obj (A ++ (name, Value.arr mix) :: B))
                    name with
                | none => .error .typeErr
                | some (.arr vs) => .ok vs[k]?
                | some _ => .ok none
            match child with
            | none => .ok (Value.obj (A ++ (name, Value.arr mix) :: B))
            | some c => do
              let c' ← deserializeF fuel env (env.getD j default) c
                (readSlice buf (m.staticOffset + sizeofRef env (.sub j) * k)
                  (sizeofRef env (.sub j)))
              if ((n : ℕ) : ℤ) = -1 then
                .ok (vSetField (Value.obj (A ++ (name, Value.arr mix) :: B))
                  name c')
              else
                match vLookup (Value.obj (A ++ (name, Value.arr mix) :: B))
                    name with
                | some (.arr vs) =>
                  .ok (vSetField (Value.obj (A ++ (name, Value.arr mix) :: B))
                    name (.arr (setIdx vs k c')))
                | _ => .ok (Value.obj (A ++ (name, Value.arr mix) :: B)) :
            Except Err Value) = _
          rw [if_neg (by omega), hlookA]
          show (do
            let child ← (Except.ok (mix[k]?) : Except Err (Option Value))
            match child with
            | none => .ok (Value.obj (A ++ (name, Value.arr mix) :: B))
            | some c => do
              let c' ← deserializeF fuel env (env.getD j default) c
                (readSlice buf (m.staticOffset + sizeofRef env (.sub j) * k)
                  (sizeofRef env (.sub j)))
              if ((n : ℕ) : ℤ) = -1 then
                .ok (vSetField (Value.obj (A ++ (name, Value.arr mix) :: B))
                  name c')
              else
                .ok (vSetField (Value.obj (A ++ (name, Value.arr mix) :: B))
                  name (.arr (setIdx mix k c'))) :
            Except Err Value) = _
          rw [hmixk, ok_bind]
          show (do
            let c' ← deserializeF fuel env (env.getD j default) (vs0[k])
              (readSlice buf (m.staticOffset + sizeofRef env (.sub j) * k)
                (sizeofRef env (.sub j)))
            if ((n : ℕ) : ℤ) = -1 then
              .ok (vSetField (Value.obj (A ++ (name, Value.arr mix) :: B))
                name c')
            else
              .ok (vSetField (Value.obj (A ++ (name, Value.arr mix) :: B))
                name (.arr (setIdx mix k c'))) :
            Except Err Value) = _
          rw [hslice, hebe,
            hdeser (vs0[k]) (helems0 _ (List.getElem_mem hk0)),
            ok_bind, if_neg (by omega)]
          show Except.ok (vSetField
            (Value.obj (A ++ (name, Value.arr mix) :: B)) name
            (.arr (setIdx mix k (vsR[k])))) = _
          rw [hsetA, hsetIdx, htail]
      have harr : ∀ k, k ≤ n →
          (List.range k).foldlM
            (fun inst i => do
              let off ← offsetofInst env meta inst name
              match m.type with
              | .sub j => do
                let child ←
                  if ((n : ℕ) : ℤ) = -1 then .ok (vLookup inst name)
                  else
                    match vLookup inst name with
                    | none => .error .typeErr
                    | some (.arr vs) => .ok vs[i]?
                    | some _ => .ok none
                match child with
                | none => .ok inst
                | some c => do
                  let c' ← deserializeF fuel env (env.getD j default) c
                    (readSlice buf (off + sizeofRef env m.type * i)
                      (sizeofRef env m.type))
                  if ((n : ℕ) : ℤ) = -1 then .ok (vSetField inst name c')
                  else
                    match vLookup inst name with
                    | some (.arr vs) =>
                      .ok (vSetField inst name (.arr (setIdx vs i c')))
                    | _ => .ok inst
              | .prim p => do
                let z ← decodePrim buf (off + sizeofRef env m.type * i) p
                  (!meta.options.bigEndian)
                if ((n : ℕ) : ℤ) = -1 then
                  .ok (vSetField inst name (.num z))
                else
                  match vLookup inst name with
                  | none => .ok inst
                  | some (.arr vs) =>
                    .ok (vSetField inst name (.arr (setIdx vs i (.num z))))
                  | some (.num _) => .error .typeErr
                  | some (.obj _) => .ok inst)
            (Value.obj (A ++ (name, Value.arr vs0) :: B)) =
          .ok (Value.obj (A ++
            (name, Value.arr (vsR.take k ++ vs0.drop k)) :: B)) := by
        intro k
        induction k with
        | zero =>
          intro _
          simp only [List.range_zero, List.foldlM_nil]
          rw [List.take_zero, List.drop_zero, List.nil_append]
          rfl
        | succ k ihk =>
          intro hk1
          rw [List.range_succ, List.foldlM_append, ihk (by omega)]
          simp only [ok_bind]
          exact foldlM_singleton _ _ _ _ (hstep k (by omega) _ rfl)
      show (do
        let len ← memberLength (Value.obj (A ++ (name, Value.arr vs0) :: B))
          (some (.inl n))
        (List.range len.natAbs).foldlM _
          (Value.obj (A ++ (name, Value.arr vs0) :: B)) : Except Err Value) = _
      show (do
        let len ← (Except.ok ((n : ℕ) : ℤ) : Except Err ℤ)
        (List.range len.natAbs).foldlM _
          (Value.obj (A ++ (name, Value.arr vs0) :: B)) : Except Err Value) = _
      rw [ok_bind]
      show (List.range (((n : ℕ) : ℤ)).natAbs).foldlM _
        (Value.obj (A ++ (name, Value.arr vs0) :: B)) = _
      rw [Int.natAbs_ofNat]
      have hfin := harr n (le_refl n)
      have hvv : vsR.take n ++ vs0.drop n = vsR := by
        rw [List.take_of_length_le (by omega),
          List.drop_eq_nil_of_le (by omega), List.append_nil]
      rw [hvv] at hfin
      exact hfin

/-- The member read loop of `deserialize` over a suffix of the member list:
fields already processed (`A`) stay, and each remaining field is overwritten
with the decoded value of its extent. -/
theorem deserLoop (fuel : ℕ) (env : List Metadata) (meta : Metadata)
    (buf : List ℕ) (IH : RoundtripP fuel)
    (henv : env.all (metaOKB env) = true)
    (hdyn : meta.isDynamic = false)
    (Fd : Value → String × Member → Except Err Value)
    (hFd : ∀ (inst : Value) (nm : String × Member),
      Fd inst nm = do
        let len ← memberLength inst nm.2.length
        (List.range len.natAbs).foldlM
          (fun inst i => do
            let off ← offsetofInst env meta inst nm.1
            match nm.2.type with
            | .sub j => do
              let child ←
                if len = -1 then .ok (vLookup inst nm.1)
                else
                  match vLookup inst nm.1 with
                  | none => .error .typeErr
                  | some (.arr vs) => .ok vs[i]?
                  | some _ => .ok none
              match child with
              | none => .ok inst
              | some c => do
                let c' ← deserializeF fuel env (env.getD j default) c
                  (readSlice buf (off + sizeofRef env nm.2.type * i)
                    (sizeofRef env nm.2.type))
                if len = -1 then .ok (vSetField inst nm.1 c')
                else
                  match vLookup inst nm.1 with
                  | some (.arr vs) =>
                    .ok (vSetField inst nm.1 (.arr (setIdx vs i c')))
                  | _ => .ok inst
            | .prim p => do
              let z ← decodePrim buf (off + sizeofRef env nm.2.type * i) p
                (!meta.options.bigEndian)
              if len = -1 then .ok (vSetField inst nm.1 (.num z))
              else
                match vLookup inst nm.1 with
                | none => .ok inst
                | some (.arr vs) =>
                  .ok (vSetField inst nm.1 (.arr (setIdx vs i (.num z))))
                | some (.num _) => .error .typeErr
                | some (.obj _) => .ok inst)
          inst) :
    ∀ (ms : List (String × Member)) (fsR fs0 A : List (String × Value)),
      ms.length = fsR.length →
      ms.length = fs0.length →
      (∀ q ∈ ms.zip fsR, q.1.1 = q.2.1 ∧
        typeFixedF fuel env q.1.2.type = true ∧ wfPair fuel env q.1.2 q.2.2) →
      (∀ q ∈ ms.zip fs0, q.1.1 = q.2.1 ∧ wfPair fuel env q.1.2 q.2.2) →
      slicesOK fuel env (!meta.options.bigEndian) buf ms fsR →
      (∀ nm ∈ ms, meta.members.lookup nm.1 = some nm.2) →
      ((A ++ fs0).map Prod.fst).Nodup →
      ms.foldlM Fd (.obj (A ++ fs0)) = .ok (.obj (A ++ fsR)) := by
  intro ms
  induction ms with
  | nil =>
    intro fsR fs0 A hR h0 _ _ _ _ _
    rcases fsR with _ | ⟨x, fsR⟩
    · rcases fs0 with _ | y
      · rfl
      · simp at h0
    · simp at hR
  | cons hdm tlm ih =>
    intro fsR fs0 A hR h0 hzR hz0 hsl hlk hnd
    obtain ⟨name, m⟩ := hdm
    rcases fsR with _ | ⟨fvR, fsR⟩
    · simp at hR
    rcases fs0 with _ | ⟨fv0, fs0⟩
    · simp at h0
    obtain ⟨kR, vR⟩ := fvR
    obtain ⟨k0, v0⟩ := fv0
    obtain ⟨hn1, hft, hwfR⟩ := hzR ((name, m), (kR, vR))
      (by rw [List.zip_cons_cons]; exact List.mem_cons_self _ _)
    obtain ⟨hn0, hwf0⟩ := hz0 ((name, m), (k0, v0))
      (by rw [List.zip_cons_cons]; exact List.mem_cons_self _ _)
    have hn1' : name = kR := hn1
    have hn0' : name = k0 := hn0
    subst hn1'
    subst hn0'
    obtain ⟨hsl1, hslrest⟩ := hsl
    have hnA : name ∉ A.map Prod.fst := by
      rw [List.map_append] at hnd
      obtain ⟨_, _, hdisj⟩ := List.nodup_append.mp hnd
      intro hc
      exact hdisj hc (by simp)
    have hstep := deserMember fuel env meta buf IH henv hdyn Fd hFd name m
      vR v0 (hlk (name, m) (List.mem_cons_self _ _)) hft hwfR hwf0 hsl1 A fs0
      hnA
    rw [List.foldlM_cons, hstep, ok_bind]
    have hkeys : ((A ++ [(name, vR)]) ++ fs0).map Prod.fst =
        (A ++ (name, v0) :: fs0).map Prod.fst := by
      simp [List.map_append]
    have ihres := ih fsR fs0 (A ++ [(name, vR)])
      (by simpa using hR) (by simpa using h0)
      (fun q hq => hzR q
        (by rw [List.zip_cons_cons]; exact List.mem_cons_of_mem _ hq))
      (fun q hq => hz0 q
        (by rw [List.zip_cons_cons]; exact List.mem_cons_of_mem _ hq))
      hslrest
      (fun nm hm => hlk nm (List.mem_cons_of_mem _ hm))
      (by rw [hkeys]; exact hnd)
    simp only [List.append_assoc, List.singleton_append] at ihres
    exact ihres

/-- Deserializing a serialized image back into any well-formed instance of a
genuine fixed non-union record recovers the serialized instance. -/
theorem deserializeMain (fuel : ℕ) (env : List Metadata) (meta : Metadata)
    (f f0 : List (String × Value)) (IH : RoundtripP fuel)
    (henv : env.all (metaOKB env) = true)
    (hok : metaOKB env meta = true)
    (hfx : fixedNonUnionF (fuel + 1) env meta = true)
    (hwfR : wfF (fuel + 1) env meta (.obj f) = true)
    (hwf0 : wfF (fuel + 1) env meta (.obj f0) = true)
    (bytes : List ℕ)
    (hsl : slicesOK fuel env (!meta.options.bigEndian) bytes meta.members f) :
    deserializeF (fuel + 1) env meta (.obj f0) bytes = .ok (.obj f) := by
  obtain ⟨hnu, hmem⟩ := fixedNonUnionF_elim fuel env meta hfx
  have hnotcnt : ∀ nm ∈ meta.members,
      (match nm.2.length with | some (.inr _) => true | _ => false) = false :=
    fun nm h => (hmem nm h).1
  have hdyn := metaOK_not_dynamic env meta hok hnotcnt
  obtain ⟨hnd, hlenf, hzip⟩ := wfF_elim fuel env meta f hwfR
  obtain ⟨_, hlenf0, hzip0⟩ := wfF_elim fuel env meta f0 hwf0
  have hf0nd : (f0.map Prod.fst).Nodup := by
    rw [zip_names_eq meta.members f0 hlenf0 (fun q hq => (hzip0 q hq).1)]
    exact hnd
  have hlk : ∀ nm ∈ meta.members, meta.members.lookup nm.1 = some nm.2 := by
    intro nm hm
    exact lookup_eq_of_mem meta.members nm.1 nm.2 hnd
      (by rw [← Prod.mk.eta (p := nm)] at hm; exact hm)
  have hd := deserLoop fuel env meta bytes IH henv hdyn
    (fun inst nm => do
      let len ← memberLength inst nm.2.length
      (List.range len.natAbs).foldlM
        (fun inst i => do
          let off ← offsetofInst env meta inst nm.1
          match nm.2.type with
          | .sub j => do
            let child ←
              if len = -1 then .ok (vLookup inst nm.1)
              else
                match vLookup inst nm.1 with
                | none => .error .typeErr
                | some (.arr vs) => .ok vs[i]?
                | some _ => .ok none
            match child with
            | none => .ok inst
            | some c => do
              let c' ← deserializeF fuel env (env.getD j default) c
                (readSlice bytes (off + sizeofRef env nm.2.type * i)
                  (sizeofRef env nm.2.type))
              if len = -1 then .ok (vSetField inst nm.1 c')
              else
                match vLookup inst nm.1 with
                | some (.arr vs) =>
                  .ok (vSetField inst nm.1 (.arr (setIdx vs i c')))
                | _ => .ok inst
          | .prim p => do
            let z ← decodePrim bytes (off + sizeofRef env nm.2.type * i) p
              (!meta.options.bigEndian)
            if len = -1 then .ok (vSetField inst nm.1 (.num z))
            else
              match vLookup inst nm.1 with
              | none => .ok inst
              | some (.arr vs) =>
                .ok (vSetField inst nm.1 (.arr (setIdx vs i (.num z))))
              | some (.num _) => .error .typeErr
              | some (.obj _) => .ok inst)
        inst)
    (fun _ _ => rfl)
    meta.members f f0 []
    hlenf.symm hlenf0.symm
    (fun q hq => ⟨(hzip q hq).1, (hmem q.1 (List.of_mem_zip hq).1).2,
      (hzip q hq).2⟩)
    (fun q hq => ⟨(hzip0 q hq).1, (hzip0 q hq).2⟩)
    hsl hlk (by simpa using hf0nd)
  simp only [List.nil_append] at hd
  exact hd

/-- The round trip at every recursion depth (induction on the nesting
fuel). -/
theorem roundtripF : ∀ fuel, RoundtripP fuel := by
  intro fuel
  induction fuel with
  | zero =>
    intro env meta r r0 _ _ _ hwf _
    simp [wfF] at hwf
  | succ fuel IH =>
    intro env meta r r0 henv hok hfx hwfR hwf0
    obtain ⟨f, rfl⟩ := wfF_is_obj _ env meta r hwfR
    obtain ⟨f0, rfl⟩ := wfF_is_obj _ env meta r0 hwf0
    obtain ⟨bytes, hser, hlen, hsl⟩ :=
      serializeMain fuel env meta f IH henv hok hfx hwfR
    exact ⟨bytes, hser, hlen,
      deserializeMain fuel env meta f f0 IH henv hok hfx hwfR hwf0 bytes hsl⟩

/-! ## Claim C1 — serialize/deserialize round trip -/

/-- **C1** (counterexample): the claim quantifies over *every* record type
whose members have fixed sizes, which includes unions.  For the union
`{a: uint32, b: uint8[4]}` and the instance `a = 1, b = [9,8,7,6]`,
`serialize` writes `a` and then `b` over the same 4 bytes, producing
`[9,8,7,6]`; deserializing into a fresh instance sets
`a = 101124105` (the little-endian value of those bytes), not `1` — the
round trip fails for unions. -/
theorem claim_c1_counterexample :
    ∃ meta : Metadata,
      structDecorate [] [⟨"a", .prim .uint32, none⟩,
        ⟨"b", .prim .uint8, some (.inl 4)⟩] ⟨none, false, true⟩ = .ok meta ∧
      serializeF 1 [] meta
        (.obj [("a", .num 1), ("b", .arr [.num 9, .num 8, .num 7, .num 6])]) =
        .ok [9, 8, 7, 6] ∧
      deserializeF 1 [] meta
        (.obj [("a", .num 0), ("b", .arr [.num 0, .num 0, .num 0, .num 0])])
        [9, 8, 7, 6] =
        .ok (.obj [("a", .num 101124105),
          ("b", .arr [.num 9, .num 8, .num 7, .num 6])]) ∧
      (101124105 : ℤ) ≠ 1 :=
  ⟨_, rfl, rfl, rfl, by norm_num⟩

/-- **C1** (amended): for every genuine *non-union* fixed record type (no
counted-by members, recursively) and every well-formed instance `r`,
serialization succeeds with exactly `staticSize` bytes and deserializing
them into any well-formed fresh instance returns a value equal to `r`. -/
theorem claim_c1_amended (fuel : ℕ) (env : List Metadata) (meta : Metadata)
    (r r0 : Value)
    (henv : env.all (metaOKB env) = true)
    (hok : metaOKB env meta = true)
    (hfx : fixedNonUnionF fuel env meta = true)
    (hwfR : wfF fuel env meta r = true)
    (hwf0 : wfF fuel env meta r0 = true) :
    ∃ bytes, serializeF fuel env meta r = .ok bytes ∧
      bytes.length = meta.staticSize ∧
      deserializeF fuel env meta r0 bytes = .ok r :=
  roundtripF fuel env meta r r0 henv hok hfx hwfR hwf0

/-- Witness for C1 (amended) on the record `{a: uint16, b: uint8[3]}` with
`a = 513, b = [1,2,3]` deserialized into a zeroed fresh instance. -/
theorem claim_c1_amended_witness :
    (([] : List Metadata).all (metaOKB []) = true ∧
     metaOKB [] ⟨⟨none, false, false⟩,
       [("a", ⟨0, .prim .uint16, none⟩),
        ("b", ⟨2, .prim .uint8, some (.inl 3)⟩)], 5, false⟩ = true ∧
     fixedNonUnionF 1 [] ⟨⟨none, false, false⟩,
       [("a", ⟨0, .prim .uint16, none⟩),
        ("b", ⟨2, .prim .uint8, some (.inl 3)⟩)], 5, false⟩ = true ∧
     wfF 1 [] ⟨⟨none, false, false⟩,
       [("a", ⟨0, .prim .uint16, none⟩),
        ("b", ⟨2, .prim .uint8, some (.inl 3)⟩)], 5, false⟩
       (.obj [("a", .num 513), ("b", .arr [.num 1, .num 2, .num 3])]) = true ∧
     wfF 1 [] ⟨⟨none, false, false⟩,
       [("a", ⟨0, .prim .uint16, none⟩),
        ("b", ⟨2, .prim .uint8, some (.inl 3)⟩)], 5, false⟩
       (.obj [("a", .num 0), ("b", .arr [.num 0, .num 0, .num 0])]) = true) ∧
    ∃ bytes, serializeF 1 [] ⟨⟨none, false, false⟩,
        [("a", ⟨0, .prim .uint16, none⟩),
         ("b", ⟨2, .prim .uint8, some (.inl 3)⟩)], 5, false⟩
        (.obj [("a", .num 513), ("b", .arr [.num 1, .num 2, .num 3])]) =
        .ok bytes ∧
      bytes.length = (⟨⟨none, false, false⟩,
        [("a", ⟨0, .prim .uint16, none⟩),
         ("b", ⟨2, .prim .uint8, some (.inl 3)⟩)], 5, false⟩ :
          Metadata).staticSize ∧
      deserializeF 1 [] ⟨⟨none, false, false⟩,
        [("a", ⟨0, .prim .uint16, none⟩),
         ("b", ⟨2, .prim .uint8, some (.inl 3)⟩)], 5, false⟩
        (.obj [("a", .num 0), ("b", .arr [.num 0, .num 0, .num 0])]) bytes =
        .ok (.obj [("a", .num 513), ("b", .arr [.num 1, .num 2, .num 3])]) :=
  ⟨⟨rfl, rfl, rfl, rfl, rfl⟩,
    claim_c1_amended 1 [] ⟨⟨none, false, false⟩,
      [("a", ⟨0, .prim .uint16, none⟩),
       ("b", ⟨2, .prim .uint8, some (.inl 3)⟩)], 5, false⟩
      (.obj [("a", .num 513), ("b", .arr [.num 1, .num 2, .num 3])])
      (.obj [("a", .num 0), ("b", .arr [.num 0, .num 0, .num 0])])
      rfl rfl rfl rfl rfl⟩

/-! ## Claim C6 — endianness of the written scalars -/

theorem slicesOK_mem (fuel : ℕ) (env : List Metadata) (le : Bool)
    (buf : List ℕ) :
    ∀ (ms : List (String × Member)) (fs : List (String × Value)),
      slicesOK fuel env le buf ms fs →
      ∀ q ∈ ms.zip fs, memberSlicesOK fuel env le buf q.1.2 q.2.2 := by
  intro ms
  induction ms with
  | nil =>
    intro fs _ q hq
    simp at hq
  | cons hdm tlm ih =>
    intro fs hsl q hq
    rcases fs with _ | ⟨fv, tlf⟩
    · exact hsl.elim
    obtain ⟨h1, h2⟩ := hsl
    rw [List.zip_cons_cons] at hq
    rcases List.mem_cons.mp hq with heq | htl
    · subst heq
      exact h1
    · exact ih tlf h2 q htl

theorem wfPair_prim_elem (fuel : ℕ) (env : List Metadata) (m : Member)
    (val : Value) (p : PrimT) (ht : m.type = .prim p)
    (hwfp : wfPair fuel env m val) :
    ∀ i, i < elemCount m.length →
      ∃ z, elemAt val m.length i = .num z ∧ primInRangeB p z = true := by
  intro i hi
  rcases hlen : m.length with _ | nl
  · have hwf2 : wfElemWith (wfF fuel env) env m.type val = true := by
      unfold wfPair at hwfp
      rw [hlen] at hwfp
      exact hwfp
    rw [ht] at hwf2
    obtain ⟨z, hz, hr⟩ := wfElem_prim fuel env p val hwf2
    refine ⟨z, ?_, hr⟩
    rw [hz]
    rfl
  · rcases nl with n | s
    · obtain ⟨vs, hfv, hvslen, helems⟩ : ∃ vs, val = .arr vs ∧ vs.length = n ∧
          ∀ x ∈ vs, wfElemWith (wfF fuel env) env m.type x = true := by
        unfold wfPair at hwfp
        rw [hlen] at hwfp
        exact hwfp
      subst hfv
      rw [hlen] at hi
      have hi' : i < n := hi
      have hget : elemAt (.arr vs) (some (.inl n)) i = vs[i] := by
        show vs.getD i (.num 0) = _
        rw [List.getD_eq_getElem?_getD, List.getElem?_eq_getElem (by omega)]
        rfl
      have hwf2 := helems _ (List.getElem_mem (by omega : i < vs.length))
      rw [ht] at hwf2
      obtain ⟨z, hz, hr⟩ := wfElem_prim fuel env p _ hwf2
      refine ⟨z, ?_, hr⟩
      rw [hget, hz]
    · exfalso
      unfold wfPair at hwfp
      rw [hlen] at hwfp
      exact hwfp

theorem elemSer_prim_encode (fuel : ℕ) (env : List Metadata) (le : Bool)
    (p : PrimT) (z : ℤ) (eb : List ℕ)
    (h : elemSer fuel env le (.prim p) (.num z) = .ok eb) :
    eb = encodePrim p le z := by
  have hco : coerceNum p (some (Value.num z)) = .ok z := by
    cases p <;> rfl
  have h2 : (coerceNum p (some (Value.num z))).map (encodePrim p le) =
      .ok eb := h
  rw [hco] at h2
  have h3 : Except.ok (encodePrim p le z) =
      (Except.ok eb : Except Err (List ℕ)) := h2
  injection h3 with h4
  exact h4.symm

/-- **C6**: on a genuine fixed non-union record holding a well-formed
instance, serialization succeeds, each primitive member element's extent in
the output carries `encodePrim p (!bigEndian)` of its value, and the encoding
is little-endian exactly when the `bigEndian` option is off:
`encodePrim p true` is the little-endian byte string of the wrapped value and
`encodePrim p false` is its reversal (big-endian) — so declaring `bigEndian`
flips every scalar's byte order. -/
theorem claim_c6 (fuel : ℕ) (env : List Metadata) (meta : Metadata)
    (f : List (String × Value))
    (henv : env.all (metaOKB env) = true)
    (hok : metaOKB env meta = true)
    (hfx : fixedNonUnionF (fuel + 1) env meta = true)
    (hwf : wfF (fuel + 1) env meta (.obj f) = true) :
    ∃ bytes, serializeF (fuel + 1) env meta (.obj f) = .ok bytes ∧
      (∀ q ∈ meta.members.zip f, ∀ p : PrimT, q.1.2.type = .prim p →
        ∀ i, i < elemCount q.1.2.length →
          ∃ z, elemAt q.2.2 q.1.2.length i = .num z ∧
            readSlice bytes (q.1.2.staticOffset + p.size * i) p.size =
              encodePrim p (!meta.options.bigEndian) z) ∧
      (∀ (p : PrimT) (z : ℤ),
        encodePrim p true z = leBytes p.size ((z % 2 ^ (8 * p.size)).toNat) ∧
        encodePrim p false z = (encodePrim p true z).reverse) := by
  obtain ⟨bytes, hser, _, hsl⟩ :=
    serializeMain fuel env meta f (roundtripF fuel) henv hok hfx hwf
  refine ⟨bytes, hser, ?_, fun p z =>
    ⟨encodePrim_true_leBytes p z, encodePrim_false_reverse p z⟩⟩
  intro q hq p ht i hi
  have hms := slicesOK_mem fuel env (!meta.options.bigEndian) bytes
    meta.members f hsl q hq
  obtain ⟨eb, hebser, hbnd, hslice⟩ := hms i hi
  obtain ⟨_, _, hzip⟩ := wfF_elim fuel env meta f hwf
  obtain ⟨z, hz, _⟩ := wfPair_prim_elem fuel env q.1.2 q.2.2 p ht
    (hzip q hq).2 i hi
  refine ⟨z, hz, ?_⟩
  have hebz : eb = encodePrim p (!meta.options.bigEndian) z := by
    apply elemSer_prim_encode fuel env _ p z
    rw [← hz, ← ht]
    exact hebser
  rw [ht] at hslice
  rw [hebz] at hslice
  exact hslice

/-- Witness for C6: the record `{a: uint16}` with `bigEndian: true` and
`a = 258 = 0x0102` serializes with the scalar's 2-byte extent holding its
big-endian encoding. -/
theorem claim_c6_witness :
    (([] : List Metadata).all (metaOKB []) = true ∧
     metaOKB [] ⟨⟨none, true, false⟩, [("a", ⟨0, .prim .uint16, none⟩)], 2,
       false⟩ = true ∧
     fixedNonUnionF 1 [] ⟨⟨none, true, false⟩,
       [("a", ⟨0, .prim .uint16, none⟩)], 2, false⟩ = true ∧
     wfF 1 [] ⟨⟨none, true, false⟩, [("a", ⟨0, .prim .uint16, none⟩)], 2,
       false⟩ (.obj [("a", .num 258)]) = true) ∧
    ∃ bytes, serializeF 1 [] ⟨⟨none, true, false⟩,
        [("a", ⟨0, .prim .uint16, none⟩)], 2, false⟩
        (.obj [("a", .num 258)]) = .ok bytes ∧
      (∀ q ∈ (⟨⟨none, true, false⟩, [("a", ⟨0, .prim .uint16, none⟩)], 2,
          false⟩ : Metadata).members.zip [("a", Value.num 258)],
        ∀ p : PrimT, q.1.2.type = .prim p →
        ∀ i, i < elemCount q.1.2.length →
          ∃ z, elemAt q.2.2 q.1.2.length i = .num z ∧
            readSlice bytes (q.1.2.staticOffset + p.size * i) p.size =
              encodePrim p (!(⟨⟨none, true, false⟩,
                [("a", ⟨0, .prim .uint16, none⟩)], 2, false⟩ :
                  Metadata).options.bigEndian) z) ∧
      (∀ (p : PrimT) (z : ℤ),
        encodePrim p true z = leBytes p.size ((z % 2 ^ (8 * p.size)).toNat) ∧
        encodePrim p false z = (encodePrim p true z).reverse) :=
  ⟨⟨rfl, rfl, rfl, rfl⟩,
    claim_c6 0 [] ⟨⟨none, true, false⟩, [("a", ⟨0, .prim .uint16, none⟩)], 2,
      false⟩ [("a", .num 258)] rfl rfl rfl rfl⟩

/-! ## Claim C10 — union members overwrite sequentially at offset 0 -/

/-- The byte a union of primitive scalar members leaves at position `pos`:
the *last* declared member whose encoding covers `pos` wins (the fold writes
members in declaration order, each at offset 0, so later writes overwrite
earlier ones). -/
def unionByte (le : Bool) (v : Value) :
    List (String × Member) → ℕ → Option ℕ
  | [], _ => none
  | (name, m) :: rest, pos =>
    match unionByte le v rest pos with
    | some b => some b
    | none =>
      match m.type, vLookup v name with
      | .prim p, some (.num z) => (encodePrim p le z)[pos]?
      | _, _ => none

theorem unionSerLoop (fuel : ℕ) (env : List Metadata) (le : Bool) (v : Value)
    (F : List ℕ → String × Member → Except Err (List ℕ))
    (hF : ∀ (buf : List ℕ) (nm : String × Member),
      F buf nm = do
        let len ← memberLength v nm.2.length
        (List.range len.natAbs).foldlM
          (fun buf i => do
            let value ← elemValue v nm.1 len i
            match nm.2.type with
            | .sub j => do
              let bytes ←
                if truthy value then
                  match value with
                  | some sub => serializeF fuel env (env.getD j default) sub
                  | none => .ok (List.replicate (sizeofRef env nm.2.type) 0)
                else .ok (List.replicate (sizeofRef env nm.2.type) 0)
              .ok (writeBytes buf
                (nm.2.staticOffset + sizeofRef env nm.2.type * i) bytes)
            | .prim p => do
              let z ← coerceNum p value
              .ok (writeBytes buf
                (nm.2.staticOffset + sizeofRef env nm.2.type * i)
                (encodePrim p le z)))
          buf) :
    ∀ (ms : List (String × Member)) (buf : List ℕ),
      (∀ nm ∈ ms, nm.2.staticOffset = 0 ∧ nm.2.length = none ∧
        ∃ p z, nm.2.type = .prim p ∧ vLookup v nm.1 = some (.num z)) →
      ∃ buf2, ms.foldlM F buf = .ok buf2 ∧ buf2.length = buf.length ∧
        ∀ pos, pos < buf.length →
          buf2[pos]? = match unionByte le v ms pos with
            | some b => some b
            | none => buf[pos]? := by
  intro ms
  induction ms with
  | nil =>
    intro buf _
    refine ⟨buf, rfl, rfl, ?_⟩
    intro pos _
    rfl
  | cons hdm rest ih =>
    intro buf hms
    obtain ⟨name, m⟩ := hdm
    obtain ⟨hoff0, hlnone, p, z, ht, hlook⟩ :=
      hms (name, m) (List.mem_cons_self _ _)
    have hco : coerceNum p (some (Value.num z)) = .ok z := by
      cases p <;> rfl
    have hstep : F buf (name, m) =
        .ok (writeBytes buf 0 (encodePrim p le z)) := by
      rw [hF]
      show (do
        let len ← memberLength v m.length
        (List.range len.natAbs).foldlM _ buf : Except Err (List ℕ)) = _
      rw [hlnone]
      show (do
        let len ← (Except.ok (-1) : Except Err ℤ)
        (List.range len.natAbs).foldlM _ buf : Except Err (List ℕ)) = _
      rw [ok_bind]
      show ([0].foldlM _ buf : Except Err (List ℕ)) = _
      apply foldlM_singleton
      show (do
        let value ← elemValue v name (-1) 0
        match m.type with
        | TypeRef.sub j => do
          let bytes ←
            if truthy value then
              match value with
              | some sub => serializeF fuel env (env.getD j default) sub
              | none => .ok (List.replicate (sizeofRef env m.type) 0)
            else .ok (List.replicate (sizeofRef env m.type) 0)
          .ok (writeBytes buf (m.staticOffset + sizeofRef env m.type * 0)
            bytes)
        | TypeRef.prim p2 => do
          let z2 ← coerceNum p2 value
          .ok (writeBytes buf (m.staticOffset + sizeofRef env m.type * 0)
            (encodePrim p2 le z2)) : Except Err (List ℕ)) = _
      have hev : elemValue v name (-1) 0 = .ok (vLookup v name) := by
        unfold elemValue
        rw [if_pos rfl]
      rw [hev, hlook, ok_bind]
      show (match m.type with
        | TypeRef.sub j => do
          let bytes ←
            if truthy (some (Value.num z)) then
              match some (Value.num z) with
              | some sub => serializeF fuel env (env.getD j default) sub
              | none => .ok (List.replicate (sizeofRef env m.type) 0)
            else .ok (List.replicate (sizeofRef env m.type) 0)
          .ok (writeBytes buf (m.staticOffset + sizeofRef env m.type * 0)
            bytes)
        | TypeRef.prim p2 => do
          let z2 ← coerceNum p2 (some (Value.num z))
          .ok (writeBytes buf (m.staticOffset + sizeofRef env m.type * 0)
            (encodePrim p2 le z2)) : Except Err (List ℕ)) = _
      rw [ht]
      show (do
        let z2 ← coerceNum p (some (Value.num z))
        .ok (writeBytes buf
          (m.staticOffset + sizeofRef env (TypeRef.prim p) * 0)
          (encodePrim p le z2)) : Except Err (List ℕ)) = _
      rw [hco, ok_bind, hoff0]
      norm_num
    have hfold1 : ((name, m) :: rest).foldlM F buf =
        rest.foldlM F (writeBytes buf 0 (encodePrim p le z)) := by
      rw [List.foldlM_cons, hstep, ok_bind]
    obtain ⟨buf2, hfr, hlen2, hpt⟩ :=
      ih (writeBytes buf 0 (encodePrim p le z))
        (fun nm h => hms nm (List.mem_cons_of_mem _ h))
    refine ⟨buf2, ?_, ?_, ?_⟩
    · rw [hfold1]
      exact hfr
    · rw [hlen2, length_writeBytes]
    · intro pos hpos
      have hpos' : pos < (writeBytes buf 0 (encodePrim p le z)).length := by
        rw [length_writeBytes]
        exact hpos
      have hpt2 := hpt pos hpos'
      have hweq : (writeBytes buf 0 (encodePrim p le z))[pos]? =
          if pos < p.size then (encodePrim p le z)[pos]? else buf[pos]? := by
        rw [getElem?_writeBytes]
        by_cases hsz : pos < p.size
        · rw [if_pos ⟨Nat.zero_le _, by rw [length_encodePrim]; omega, hpos⟩,
            if_pos hsz, Nat.sub_zero]
        · rw [if_neg (by
            intro hcon
            rw [length_encodePrim] at hcon
            omega), if_neg hsz]
      rcases hub : unionByte le v rest pos with _ | b
      · rw [hub] at hpt2
        have hL : buf2[pos]? = (writeBytes buf 0 (encodePrim p le z))[pos]? :=
          hpt2
        rw [hweq] at hL
        have hcons : unionByte le v ((name, m) :: rest) pos =
            (encodePrim p le z)[pos]? := by
          show (match unionByte le v rest pos with
            | some b => some b
            | none =>
              match m.type, vLookup v name with
              | TypeRef.prim p2, some (Value.num z2) =>
                (encodePrim p2 le z2)[pos]?
              | _, _ => none) = _
          rw [hub, ht, hlook]
        rw [hcons]
        by_cases hsz : pos < p.size
        · obtain ⟨b, hb⟩ : ∃ b, (encodePrim p le z)[pos]? = some b :=
            ⟨_, List.getElem?_eq_getElem (by rw [length_encodePrim]; omega)⟩
          rw [hb]
          show buf2[pos]? = some b
          rw [hL, if_pos hsz, hb]
        · have hnone : (encodePrim p le z)[pos]? = none :=
            List.getElem?_eq_none (by rw [length_encodePrim]; omega)
          rw [hnone]
          show buf2[pos]? = buf[pos]?
          rw [hL, if_neg hsz]
      · have hcons : unionByte le v ((name, m) :: rest) pos = some b := by
          show (match unionByte le v rest pos with
            | some b2 => some b2
            | none =>
              match m.type, vLookup v name with
              | TypeRef.prim p2, some (Value.num z2) =>
                (encodePrim p2 le z2)[pos]?
              | _, _ => none) = _
          rw [hub]
        rw [hcons]
        rw [hub] at hpt2
        exact hpt2

/-- **C10**: serializing a union of primitive scalar members: it succeeds,
every member sits at offset 0, and each output byte inside the static size is
decided by the *last* declared member whose encoding covers that position
(`unionByte` scans later members first) — the write loop lays members down in
declaration order at offset 0, so later members' bytes overwrite earlier
ones and earlier members never affect overlapping bytes. -/
theorem claim_c10 (fuel : ℕ) (env : List Metadata) (meta : Metadata)
    (f : List (String × Value))
    (hok : metaOKB env meta = true)
    (hu : meta.options.isUnion = true)
    (hmem : ∀ nm ∈ meta.members, nm.2.length = none ∧
      ∃ p z, nm.2.type = .prim p ∧ f.lookup nm.1 = some (.num z)) :
    (∀ nm ∈ meta.members, nm.2.staticOffset = 0) ∧
    ∃ bytes, serializeF (fuel + 1) env meta (.obj f) = .ok bytes ∧
      bytes.length = meta.staticSize ∧
      ∀ pos, pos < meta.staticSize →
        bytes[pos]? =
          match unionByte (!meta.options.bigEndian) (.obj f)
              meta.members pos with
          | some b => some b
          | none => some 0 := by
  obtain ⟨st, hfold0, hm, hs, _⟩ := metaOK_fold env meta hok
  obtain ⟨h1, _, _⟩ := unionFold_invariant env meta.options hu (toInits meta)
    ⟨0, false, []⟩ st hfold0 (by intro nm h; simp at h)
    (align_zero _ (effAlign_pos _))
  have hoffs : ∀ nm ∈ meta.members, nm.2.staticOffset = 0 := by
    rw [hm]
    exact h1
  have hnotcnt : ∀ nm ∈ meta.members,
      (match nm.2.length with | some (.inr _) => true | _ => false) = false :=
    by
    intro nm h
    rw [(hmem nm h).1]
  have hdyn := metaOK_not_dynamic env meta hok hnotcnt
  have hsizeof := sizeofInst_fixed env meta (.obj f) hnotcnt
  obtain ⟨buf', hfoldm, hlen', hpt⟩ :=
    unionSerLoop fuel env (!meta.options.bigEndian) (.obj f)
      (fun buf nm => do
        let len ← memberLength (.obj f) nm.2.length
        (List.range len.natAbs).foldlM
          (fun buf i => do
            let value ← elemValue (.obj f) nm.1 len i
            match nm.2.type with
            | .sub j => do
              let bytes ←
                if truthy value then
                  match value with
                  | some sub => serializeF fuel env (env.getD j default) sub
                  | none => .ok (List.replicate (sizeofRef env nm.2.type) 0)
                else .ok (List.replicate (sizeofRef env nm.2.type) 0)
              .ok (writeBytes buf
                (nm.2.staticOffset + sizeofRef env nm.2.type * i) bytes)
            | .prim p => do
              let z ← coerceNum p value
              .ok (writeBytes buf
                (nm.2.staticOffset + sizeofRef env nm.2.type * i)
                (encodePrim p (!meta.options.bigEndian) z)))
          buf)
      (fun _ _ => rfl)
      meta.members (List.replicate meta.staticSize 0)
      (fun nm h => ⟨hoffs nm h, (hmem nm h).1, (hmem nm h).2⟩)
  refine ⟨hoffs, buf', ?_, ?_, ?_⟩
  · show (do
      let size ← sizeofInst env meta (.obj f)
      if size < 0 then .error .rangeError
      else do
        let offs ← if meta.isDynamic then
            (dynamicOffsets env meta (.obj f)).map some
          else .ok none
        meta.members.foldlM
          (fun buf (nm : String × Member) => do
            let name := nm.1
            let m := nm.2
            let len ← memberLength (.obj f) m.length
            let off := match offs with
              | some os => (os.lookup name).getD 0
              | none => m.staticOffset
            (List.range len.natAbs).foldlM
              (fun buf i => do
                let iOff := off + sizeofRef env m.type * i
                let value ← elemValue (.obj f) name len i
                match m.type with
                | .sub j => do
                  let bytes ←
                    if truthy value then
                      match value with
                      | some sub => serializeF fuel env (env.getD j default) sub
                      | none => .ok (List.replicate (sizeofRef env m.type) 0)
                    else .ok (List.replicate (sizeofRef env m.type) 0)
                  .ok (writeBytes buf iOff bytes)
                | .prim p => do
                  let z ← coerceNum p value
                  .ok (writeBytes buf iOff
                    (encodePrim p (!meta.options.bigEndian) z)))
              buf)
          (List.replicate size.toNat 0) : Except Err (List ℕ)) = .ok buf'
    rw [hsizeof, ok_bind, if_neg (by omega), hdyn]
    simp only [Bool.false_eq_true, if_false, ok_bind]
    show meta.members.foldlM _
      (List.replicate ((meta.staticSize : ℤ)).toNat 0) = .ok buf'
    rw [Int.toNat_natCast]
    exact hfoldm
  · rw [hlen', List.length_replicate]
  · intro pos hpos
    have h2 := hpt pos (by rw [List.length_replicate]; exact hpos)
    rw [h2]
    rcases hub : unionByte (!meta.options.bigEndian) (.obj f)
        meta.members pos with _ | b
    · show (List.replicate meta.staticSize 0)[pos]? = some 0
      rw [List.getElem?_eq_getElem (by rw [List.length_replicate]; exact hpos)]
      rw [List.getElem_replicate]
    · rfl

/-- Witness for C10: the union `{a: uint32, b: uint16}` with
`a = 0x04030201` and `b = 0x0605` — both members at offset 0, 4 output
bytes, each decided by `unionByte` (the later-declared `b` wins on the two
overlapping bytes). -/
theorem claim_c10_witness :
    metaOKB [] ⟨⟨none, false, true⟩,
      [("a", ⟨0, .prim .uint32, none⟩), ("b", ⟨0, .prim .uint16, none⟩)], 4,
      false⟩ = true ∧
    (⟨⟨none, false, true⟩,
      [("a", ⟨0, .prim .uint32, none⟩), ("b", ⟨0, .prim .uint16, none⟩)], 4,
      false⟩ : Metadata).options.isUnion = true ∧
    (∀ nm ∈ (⟨⟨none, false, true⟩,
      [("a", ⟨0, .prim .uint32, none⟩), ("b", ⟨0, .prim .uint16, none⟩)], 4,
      false⟩ : Metadata).members, nm.2.staticOffset = 0) ∧
    ∃ bytes, serializeF 1 [] ⟨⟨none, false, true⟩,
        [("a", ⟨0, .prim .uint32, none⟩), ("b", ⟨0, .prim .uint16, none⟩)], 4,
        false⟩
        (.obj [("a", .num 67305985), ("b", .num 1541)]) = .ok bytes ∧
      bytes.length = 4 ∧
      ∀ pos, pos < 4 →
        bytes[pos]? =
          match unionByte true (.obj [("a", .num 67305985), ("b", .num 1541)])
              [("a", ⟨0, .prim .uint32, none⟩),
               ("b", ⟨0, .prim .uint16, none⟩)] pos with
          | some b => some b
          | none => some 0 := by
  have h := claim_c10 0 []
    ⟨⟨none, false, true⟩,
      [("a", ⟨0, .prim .uint32, none⟩), ("b", ⟨0, .prim .uint16, none⟩)], 4,
      false⟩
    [("a", .num 67305985), ("b", .num 1541)] rfl rfl ?hm
  case hm =>
    intro nm hmm2
    rcases List.mem_cons.mp hmm2 with h1 | h1
    · subst h1
      exact ⟨rfl, .uint32, 67305985, rfl, rfl⟩
    · rcases List.mem_cons.mp h1 with h2 | h2
      · subst h2
        exact ⟨rfl, .uint16, 1541, rfl, rfl⟩
      · simp at h2
  exact ⟨rfl, rfl, h.1, h.2⟩

/-! ## Claim C5 — short buffers: the success bound -/

theorem foldlM_cons_error {α β : Type} (g : β → α → Except Err β) (b : β)
    (a : α) (l : List α) (e : Err) (h : g b a = .error e) :
    (a :: l).foldlM g b = .error e := by
  simp only [List.foldlM_cons, h, error_bind]

/-- If the deserialization member walk over a chain of scalar primitive
members succeeds, the buffer reaches at least to the chain's end: every
member's extent was range-checked by its `DataView` read. -/
theorem deserWalk_bound (fuel : ℕ) (env : List Metadata) (meta : Metadata)
    (buf : List ℕ) (hdyn : meta.isDynamic = false)
    (Fd : Value → String × Member → Except Err Value)
    (hFd : ∀ (inst : Value) (nm : String × Member),
      Fd inst nm = do
        let len ← memberLength inst nm.2.length
        (List.range len.natAbs).foldlM
          (fun inst i => do
            let off ← offsetofInst env meta inst nm.1
            match nm.2.type with
            | .sub j => do
              let child ←
                if len = -1 then .ok (vLookup inst nm.1)
                else
                  match vLookup inst nm.1 with
                  | none => .error .typeErr
                  | some (.arr vs) => .ok vs[i]?
                  | some _ => .ok none
              match child with
              | none => .ok inst
              | some c => do
                let c' ← deserializeF fuel env (env.getD j default) c
                  (readSlice buf (off + sizeofRef env nm.2.type * i)
                    (sizeofRef env nm.2.type))
                if len = -1 then .ok (vSetField inst nm.1 c')
                else
                  match vLookup inst nm.1 with
                  | some (.arr vs) =>
                    .ok (vSetField inst nm.1 (.arr (setIdx vs i c')))
                  | _ => .ok inst
            | .prim p => do
              let z ← decodePrim buf (off + sizeofRef env nm.2.type * i) p
                (!meta.options.bigEndian)
              if len = -1 then .ok (vSetField inst nm.1 (.num z))
              else
                match vLookup inst nm.1 with
                | none => .ok inst
                | some (.arr vs) =>
                  .ok (vSetField inst nm.1 (.arr (setIdx vs i (.num z))))
                | some (.num _) => .error .typeErr
                | some (.obj _) => .ok inst)
          inst) :
    ∀ ms : List (String × Member), ∀ (s total : ℕ) (inst res : Value),
      chained env 1 ms s total →
      ms ≠ [] →
      (∀ nm ∈ ms, (∃ p, nm.2.type = .prim p) ∧ nm.2.length = none) →
      (∀ nm ∈ ms, meta.members.lookup nm.1 = some nm.2) →
      ms.foldlM Fd inst = .ok res →
      total ≤ buf.length := by
  intro ms
  induction ms with
  | nil =>
    intro s total inst res _ hne
    exact absurd rfl hne
  | cons hdm tlm ih =>
    intro s total inst res hch _ hpr hlk hfold
    obtain ⟨name, m⟩ := hdm
    obtain ⟨hoff, hch'⟩ := hch
    obtain ⟨⟨p, ht⟩, hlnone⟩ := hpr (name, m) (List.mem_cons_self _ _)
    have hlkm : meta.members.lookup name = some m :=
      hlk (name, m) (List.mem_cons_self _ _)
    obtain ⟨inst1, hstep, hrest⟩ := foldlM_ok_cons _ _ _ _ _ hfold
    have ht2 : m.type = TypeRef.prim p := ht
    have hlnone2 : m.length = none := hlnone
    have hoi2 : offsetofInst env meta inst name = .ok m.staticOffset := by
      unfold offsetofInst
      rw [hdyn]
      simp only [Bool.false_eq_true, if_false, hlkm]
    have hpr2 : sizeofRef env (TypeRef.prim p) = p.size := rfl
    have hms2 : memberSizeOf env m.type m.length = p.size := by
      rw [ht2, hlnone2]
      show sizeofRef env (TypeRef.prim p) * 1 = p.size
      rw [hpr2, Nat.mul_one]
    have hch2 : chained env 1 tlm (s + p.size) total := by
      have h := hch'
      rw [hms2, align_one] at h
      exact h
    rcases hdec : decodePrim buf
        (m.staticOffset + sizeofRef env (TypeRef.prim p) * 0) p
        (!meta.options.bigEndian) with e | z
    · exfalso
      have hLe : Fd inst (name, m) = .error e := by
        rw [hFd]
        show (do
          let len ← memberLength inst m.length
          (List.range len.natAbs).foldlM _ inst : Except Err Value) = _
        rw [hlnone2]
        show (do
          let len ← (Except.ok (-1) : Except Err ℤ)
          (List.range len.natAbs).foldlM _ inst : Except Err Value) = _
        rw [ok_bind]
        show (List.range 1).foldlM _ inst = _
        rw [show List.range 1 = [0] from by simp [List.range_succ]]
        apply foldlM_cons_error
        show (do
          let off ← offsetofInst env meta inst name
          match m.type with
          | TypeRef.sub j => do
            let child ←
              if (-1 : ℤ) = -1 then .ok (vLookup inst name)
              else
                match vLookup inst name with
                | none => .error .typeErr
                | some (.arr vs) => .ok vs[0]?
                | some _ => .ok none
            match child with
            | none => .ok inst
            | some c => do
              let c' ← deserializeF fuel env (env.getD j default) c
                (readSlice buf (off + sizeofRef env m.type * 0)
                  (sizeofRef env m.type))
              if (-1 : ℤ) = -1 then .ok (vSetField inst name c')
              else
                match vLookup inst name with
                | some (.arr vs) =>
                  .ok (vSetField inst name (.arr (setIdx vs 0 c')))
                | _ => .ok inst
          | TypeRef.prim p2 => do
            let z ← decodePrim buf (off + sizeofRef env m.type * 0) p2
              (!meta.options.bigEndian)
            if (-1 : ℤ) = -1 then .ok (vSetField inst name (.num z))
            else
              match vLookup inst name with
              | none => .ok inst
              | some (.arr vs) =>
                .ok (vSetField inst name (.arr (setIdx vs 0 (.num z))))
              | some (.num _) => .error .typeErr
              | some (.obj _) => .ok inst : Except Err Value) = _
        rw [hoi2, ok_bind, ht2]
        show (do
          let z ← decodePrim buf
            (m.staticOffset + sizeofRef env (TypeRef.prim p) * 0) p
            (!meta.options.bigEndian)
          if (-1 : ℤ) = -1 then .ok (vSetField inst name (.num z))
          else
            match vLookup inst name with
            | none => .ok inst
            | some (.arr vs) =>
              .ok (vSetField inst name (.arr (setIdx vs 0 (.num z))))
            | some (.num _) => .error .typeErr
            | some (.obj _) => .ok inst : Except Err Value) = _
        rw [hdec, error_bind]
      rw [hLe] at hstep
      exact Except.noConfusion hstep
    · have hbnd := decodePrim_ok_bound buf _ p _ z hdec
      rcases tlm with _ | ⟨hd2, tl2⟩
      · have htot : s + p.size = total := hch2
        rw [hpr2] at hbnd
        omega
      · exact ih (s + p.size) total inst1 res hch2 (List.cons_ne_nil _ _)
          (fun nm h => hpr nm (List.mem_cons_of_mem _ h))
          (fun nm h => hlk nm (List.mem_cons_of_mem _ h)) hrest

/-- **C5** (amended): for a record of scalar primitive members (default
alignment, non-union), deserializing a buffer strictly shorter than the
static size never succeeds — there is no partial-read success.  (The original
claim promised this for *every* record; the counterexample shows alignment
padding makes trailing padding bytes unread, so a short buffer can still
deserialize successfully.) -/
theorem claim_c5_amended (fuel : ℕ) (env : List Metadata) (meta : Metadata)
    (v0 : Value) (buf : List ℕ)
    (hok : metaOKB env meta = true)
    (hu : meta.options.isUnion = false)
    (hal : meta.options.effAlign = 1)
    (hprims : ∀ nm ∈ meta.members,
      (∃ p, nm.2.type = .prim p) ∧ nm.2.length = none)
    (hnd : (meta.members.map Prod.fst).Nodup)
    (hne : meta.members ≠ [])
    (hshort : buf.length < meta.staticSize) :
    ∀ out, deserializeF (fuel + 1) env meta v0 buf ≠ .ok out := by
  intro out hsucc
  rcases v0 with z | vs | f0
  · exact Except.noConfusion
      (hsucc : (Except.error Err.notStruct : Except Err Value) = .ok out)
  · exact Except.noConfusion
      (hsucc : (Except.error Err.notStruct : Except Err Value) = .ok out)
  · have hnotcnt : ∀ nm ∈ meta.members,
        (match nm.2.length with | some (.inr _) => true | _ => false) =
          false := by
      intro nm h
      rw [(hprims nm h).2]
    have hdyn := metaOK_not_dynamic env meta hok hnotcnt
    have hchain := metaOK_chained env meta hok hu hnd
    rw [hal] at hchain
    have hlk : ∀ nm ∈ meta.members, meta.members.lookup nm.1 = some nm.2 := by
      intro nm hm
      exact lookup_eq_of_mem meta.members nm.1 nm.2 hnd
        (by rw [← Prod.mk.eta (p := nm)] at hm; exact hm)
    have hfold : meta.members.foldlM
        (fun inst nm => do
          let len ← memberLength inst nm.2.length
          (List.range len.natAbs).foldlM
            (fun inst i => do
              let off ← offsetofInst env meta inst nm.1
              match nm.2.type with
              | .sub j => do
                let child ←
                  if len = -1 then .ok (vLookup inst nm.1)
                  else
                    match vLookup inst nm.1 with
                    | none => .error .typeErr
                    | some (.arr vs) => .ok vs[i]?
                    | some _ => .ok none
                match child with
                | none => .ok inst
                | some c => do
                  let c' ← deserializeF fuel env (env.getD j default) c
                    (readSlice buf (off + sizeofRef env nm.2.type * i)
                      (sizeofRef env nm.2.type))
                  if len = -1 then .ok (vSetField inst nm.1 c')
                  else
                    match vLookup inst nm.1 with
                    | some (.arr vs) =>
                      .ok (vSetField inst nm.1 (.arr (setIdx vs i c')))
                    | _ => .ok inst
              | .prim p => do
                let z ← decodePrim buf (off + sizeofRef env nm.2.type * i) p
                  (!meta.options.bigEndian)
                if len = -1 then .ok (vSetField inst nm.1 (.num z))
                else
                  match vLookup inst nm.1 with
                  | none => .ok inst
                  | some (.arr vs) =>
                    .ok (vSetField inst nm.1 (.arr (setIdx vs i (.num z))))
                  | some (.num _) => .error .typeErr
                  | some (.obj _) => .ok inst)
            inst)
        (.obj f0) = .ok out := hsucc
    have hb := deserWalk_bound fuel env meta buf hdyn _ (fun _ _ => rfl)
      meta.members 0 meta.staticSize (.obj f0) out hchain hne hprims hlk
      hfold
    omega

/-- Witness for C5 (amended): the default-alignment record
`{a: uint8, b: uint16}` has static size 3; deserializing the 1-byte buffer
`[7]` does not succeed. -/
theorem claim_c5_amended_witness :
    (metaOKB [] ⟨⟨none, false, false⟩,
       [("a", ⟨0, .prim .uint8, none⟩), ("b", ⟨1, .prim .uint16, none⟩)], 3,
       false⟩ = true ∧
     (⟨⟨none, false, false⟩,
       [("a", ⟨0, .prim .uint8, none⟩), ("b", ⟨1, .prim .uint16, none⟩)], 3,
       false⟩ : Metadata).options.isUnion = false ∧
     (⟨⟨none, false, false⟩,
       [("a", ⟨0, .prim .uint8, none⟩), ("b", ⟨1, .prim .uint16, none⟩)], 3,
       false⟩ : Metadata).options.effAlign = 1 ∧
     ([7] : List ℕ).length < 3) ∧
    deserializeF 1 [] ⟨⟨none, false, false⟩,
        [("a", ⟨0, .prim .uint8, none⟩), ("b", ⟨1, .prim .uint16, none⟩)], 3,
        false⟩ (.obj [("a", .num 0), ("b", .num 0)]) [7] ≠
      .ok (.obj [("a", .num 7), ("b", .num 0)]) :=
  ⟨⟨rfl, rfl, rfl, by norm_num⟩,
    claim_c5_amended 0 []
      ⟨⟨none, false, false⟩,
        [("a", ⟨0, .prim .uint8, none⟩), ("b", ⟨1, .prim .uint16, none⟩)], 3,
        false⟩ (.obj [("a", .num 0), ("b", .num 0)]) [7] rfl rfl rfl
      (by
        intro nm h
        rcases List.mem_cons.mp h with h1 | h1
        · subst h1
          exact ⟨⟨.uint8, rfl⟩, rfl⟩
        · rcases List.mem_cons.mp h1 with h2 | h2
          · subst h2
            exact ⟨⟨.uint16, rfl⟩, rfl⟩
          · simp at h2)
      (by decide) (by simp) (by norm_num)
      (.obj [("a", .num 7), ("b", .num 0)])⟩

end Utilium
